import Mathlib

/-!
# Verification of the finality-grandpa core (vote graph and voter)

Shallow embedding of `src/vote_graph.rs` and `src/voter.rs`.

Blocks are modelled as paths from the tree root: a block is a `List Nat`
(the sequence of branch choices from genesis), its parent is obtained by
dropping the last element, and its height (`number`) is its length.  Every
tree of blocks embeds into this universal tree, and the external `Chain`
interface (ancestry lookup, descendancy test) — which is out of scope for
the repository and only specified by its contract — becomes computable.
-/

namespace FinGrandpa

/-- A block identifier: the path of branch choices from the tree root.
The root (base of everything) is `[]`. -/
abbrev Block := List Nat

/-- Height of a block in the universal tree. -/
def bnum (b : Block) : Nat := b.length

/-- Modelled from the spec: `chain.is_equal_or_descendent_of(anc, desc)` of the
external `Chain` interface — whether `desc` is equal to or a descendant of
`anc`.  In the universal tree this is the prefix test. -/
def isEqualOrDescendentOf (anc desc : Block) : Bool := decide (anc <+: desc)

/-- The (strict) ancestor list of `block` down to `base`, parent first:
`[parent block, parent² block, …, base]`.  Empty if `block` is not strictly
longer than `base`.  (`fuel` is the recursion bound; it starts at
`block.length`, which always suffices.) -/
def ancestryToAux (base : Block) : Nat → Block → List Block
  | 0, _ => []
  | fuel + 1, block =>
    if block.length ≤ base.length then []
    else block.dropLast :: ancestryToAux base fuel block.dropLast

def ancestryTo (base block : Block) : List Block :=
  ancestryToAux base block.length block

/-- Modelled from the spec: `chain.ancestry(base, block)` of the external
`Chain` interface.  Fails (`none`, the `NotDescendent` error) when `block`
is not a strict descendant of `base`; otherwise returns the ancestors of
`block` in reverse order (parent first).  The returned list ends with
`base` itself, as required by `VoteGraph::append` (vote_graph.rs:465,
"base is kept; chain returns ancestry only if the block is a descendent
of base"). -/
def treeAncestry (base block : Block) : Option (List Block) :=
  if base <+: block ∧ base ≠ block then some (ancestryTo base block) else none

/-- An ancestry oracle, the shape of the `Chain` parameter taken by
`VoteGraph::insert`. -/
abbrev AncestryFn := Block → Block → Option (List Block)

/-! ## Vote-graph entries (vote_graph.rs:28-58) -/

/-- `Entry<H, V>` with `V` instantiated at integer weight (`u64` in
`voter.rs`, modelled as `Nat`). -/
structure Entry where
  number : Nat
  /-- ancestor hashes in reverse order; `ancestors[0]` is the parent and the
  last element is the hash of the parent vote-node. -/
  ancestors : List Block
  /-- descendent vote-nodes. -/
  descendents : List Block
  cumulative_vote : Nat
deriving Repr, DecidableEq

/-- `Entry::ancestor_block` (vote_graph.rs:47-52). -/
def Entry.ancestorBlock (e : Entry) (number : Nat) : Option Block :=
  if e.number ≤ number then none
  else e.ancestors.get? (e.number - number - 1)

/-- `Entry::in_direct_ancestry` (vote_graph.rs:41-43). -/
def Entry.inDirectAncestry (e : Entry) (hash : Block) (number : Nat) : Option Bool :=
  (e.ancestorBlock number).map (fun h => decide (h = hash))

/-- `Entry::ancestor_node` (vote_graph.rs:55-57). -/
def Entry.ancestorNode (e : Entry) : Option Block := e.ancestors.getLast?

/-! ## Association-list model of the entries `HashMap` -/

/-- The `entries: HashMap<H, Entry>` field, modelled as an association list
(deterministic stand-in for the hash map; keys are unique in reachable
states). -/
abbrev EMap := List (Block × Entry)

def lookupE : EMap → Block → Option Entry
  | [], _ => none
  | (k, e) :: t, h => if k = h then some e else lookupE t h

/-- In-place update of the (first) entry with the given key, preserving
order — the model of mutating through `HashMap::get_mut`. -/
def updateE (m : EMap) (h : Block) (f : Entry → Entry) : EMap :=
  match m with
  | [] => []
  | (k, e) :: t => if k = h then (k, f e) :: t else (k, e) :: updateE t h f

/-! ## Subchain (vote_graph.rs:61-80) -/

structure Subchain where
  /-- forward order. -/
  hashes : List Block
  best_number : Nat
deriving Repr

/-- `Subchain::blocks_reverse` (vote_graph.rs:67-70): the hashes in reverse
order, paired with descending numbers from `best_number`. -/
def Subchain.blocksReverse (s : Subchain) : List (Block × Nat) :=
  (s.hashes.reverse.enum).map (fun (i, x) => (x, s.best_number - i))

/-- `Subchain::best` (vote_graph.rs:77-79). -/
def Subchain.best (s : Subchain) : Option (Block × Nat) :=
  s.hashes.getLast?.map (fun x => (x, s.best_number))

/-! ## The vote graph (vote_graph.rs:84-112) -/

structure VoteGraph where
  entries : EMap
  heads : List Block
  base : Block
deriving Repr

def VoteGraph.keys (g : VoteGraph) : List Block := g.entries.map Prod.fst

/-- Maximum entry number, used as a fuel bound for the loops below. -/
def VoteGraph.maxNum (g : VoteGraph) : Nat :=
  (g.entries.map (fun p => p.2.number)).foldr max 0

/-- `VoteGraph::new` (vote_graph.rs:95-112). -/
def VoteGraph.new (baseHash : Block) (baseNumber : Nat) : VoteGraph :=
  { entries := [(baseHash, { number := baseNumber, ancestors := [], descendents := [],
                             cumulative_vote := 0 })]
    heads := [baseHash]
    base := baseHash }

/-! ### find_containing_nodes (vote_graph.rs:351-390)

The walker loop for one head, with the shared `visited` set and the
accumulated `containing_keys`.  `fuel` bounds the backwards traversal
(in the Rust code the loop is unbounded; in reachable states it visits
pairwise-distinct entries, so `entries.length + 1` fuel is exact).
Returns `none` on fuel exhaustion (unreachable in well-formed graphs). -/
def walkHead (m : EMap) (hash : Block) (number : Nat) :
    Nat → Block → List Block → List Block → Option (List Block × List Block)
  | 0, _, _, _ => none
  | fuel + 1, head, visited, containing =>
    match lookupE m head with
    | none => some (visited, containing)
    | some e =>
      if head ∈ visited then some (visited, containing)
      else
        let visited := head :: visited
        match e.inDirectAncestry hash number with
        | some true => some (visited, head :: containing)
        | some false => some (visited, containing)
        | none =>
          match e.ancestorNode with
          | some prev => walkHead m hash number fuel prev visited containing
          | none => some (visited, containing)

/-- The iteration of `find_containing_nodes` over the vote-heads
(vote_graph.rs:361), threading the shared `visited` and `containing`
accumulators through the per-head walks. -/
def walkAllHeads (m : EMap) (hash : Block) (number : Nat) (fuel : Nat) :
    List Block → List Block → List Block → Option (List Block)
  | [], _, containing => some containing
  | head :: rest, visited, containing =>
    match walkHead m hash number fuel head visited containing with
    | none => none
    | some (visited', containing') =>
      walkAllHeads m hash number fuel rest visited' containing'

/-- `VoteGraph::find_containing_nodes` (vote_graph.rs:351-390): `none` if
there is an entry keyed by `hash` already, otherwise the (possibly empty)
list of vote-nodes with the given block in their ancestor-edge.  The outer
`Option` wraps fuel exhaustion of the walker. -/
def VoteGraph.findContainingNodes (g : VoteGraph) (hash : Block) (number : Nat) :
    Option (Option (List Block)) :=
  if (lookupE g.entries hash).isSome then some none
  else
    (walkAllHeads g.entries hash number (g.entries.length + 1) g.heads [] []).map some

/-! ### append (vote_graph.rs:453-482) -/

/-- Index of the first element of `ancestry` that is an entry key
(`ancestor_index` in the Rust code). -/
def firstEntryIndex (m : EMap) : List Block → Option Nat
  | [] => none
  | a :: t =>
    if (lookupE m a).isSome then some 0
    else (firstEntryIndex m t).map (· + 1)

/-- `VoteGraph::append` (vote_graph.rs:453-482).  `Except`-style result:
`none` = the `chain.ancestry` call failed (`NotDescendent`), propagated by
`?`; `some none` = the `ancestor_index` expect would panic (unreachable
when the base entry is kept and the ancestry ends at base). -/
def VoteGraph.append (g : VoteGraph) (hash : Block) (number : Nat) (chain : AncestryFn) :
    Option (Option VoteGraph) :=
  match chain g.base hash with
  | none => none
  | some ancestry =>
    some <| match firstEntryIndex g.entries ancestry with
    | none => none
    | some i =>
      match ancestry.get? i with
      | none => none
      | some ancestorHash =>
        let entries := updateE g.entries ancestorHash
          (fun e => { e with descendents := e.descendents ++ [hash] })
        let entries := (hash, { number := number, ancestors := ancestry.take (i + 1),
                                descendents := [], cumulative_vote := 0 }) :: entries
        some { g with
          entries := entries
          heads := (g.heads.filter (· ≠ ancestorHash)) ++ [hash] }

/-! ### introduce_branch (vote_graph.rs:399-449) -/

/-- The fold body of `introduce_branch`: process one containing descendent,
splitting its ancestors list at `offset = entry.number - ancestorNumber`
and accumulating the new entry.  Returns the updated map together with the
`(new_entry, prev_ancestor)` accumulator. -/
def branchStep (ancestorNumber : Nat) (st : EMap × Option (Entry × Option Block))
    (descendent : Block) : EMap × Option (Entry × Option Block) :=
  let (m, maybeEntry) := st
  match lookupE m descendent with
  | none => (m, maybeEntry)  -- expect: only invoked with keys of vote-nodes
  | some e =>
    let offset := e.number - ancestorNumber
    let prevAncestor := e.ancestorNode
    let newAncestors := e.ancestors.drop offset
    let m := updateE m descendent (fun e => { e with ancestors := e.ancestors.take offset })
    let acc : Entry × Option Block := match maybeEntry with
      | none =>
        ({ number := ancestorNumber, ancestors := newAncestors, descendents := [],
           cumulative_vote := 0 }, prevAncestor)
      | some acc => acc
    let newEntry := { acc.1 with
      descendents := acc.1.descendents ++ [descendent]
      cumulative_vote := acc.1.cumulative_vote + e.cumulative_vote }
    (m, some (newEntry, acc.2))

/-- `VoteGraph::introduce_branch` (vote_graph.rs:399-449). -/
def VoteGraph.introduceBranch (g : VoteGraph) (descendents : List Block)
    (ancestorHash : Block) (ancestorNumber : Nat) : VoteGraph :=
  match descendents.foldl (branchStep ancestorNumber) (g.entries, none) with
  | (entries, none) => { g with entries := entries }
  | (entries, some (newEntry, prevAncestor)) =>
    let entries := match prevAncestor with
      | none => entries
      | some pa => updateE entries pa (fun e =>
          { e with descendents :=
              (e.descendents.filter (fun h => h ∉ newEntry.descendents)) ++ [ancestorHash] })
    { g with entries := (ancestorHash, newEntry) :: entries }

/-! ### insert (vote_graph.rs:115-141) -/

/-- `cumulative_vote += vote` on one entry (vote_graph.rs:132). -/
def bumpVote (vote : Nat) (e : Entry) : Entry :=
  { e with cumulative_vote := e.cumulative_vote + vote }

/-- The cumulative-vote update loop of `insert` (vote_graph.rs:127-138):
walk `ancestor_node` pointers from `hash` to the base, adding `vote` to
each entry.  `none` on a missing entry or fuel exhaustion (the `expect`
at vote_graph.rs:130). -/
def propagateLoop (m : EMap) (hash : Block) (vote : Nat) : Nat → Option EMap
  | 0 => none
  | fuel + 1 =>
    match lookupE m hash with
    | none => none
    | some e =>
      let m := updateE m hash (bumpVote vote)
      match e.ancestorNode with
      | some parent => propagateLoop m parent vote fuel
      | none => some m

/-- Insertion failure modes: `chain.ancestry` failed (`NotDescendent`,
the only `Err` the Rust function returns), or one of its internal
`expect`s would panic / a loop would diverge (unreachable in well-formed
graphs, kept distinct so the error claim C7 can be stated exactly). -/
inductive InsertError
  | notDescendent
  | internal
deriving Repr, DecidableEq

/-- `VoteGraph::insert` (vote_graph.rs:115-141). -/
def VoteGraph.insert (g : VoteGraph) (hash : Block) (number : Nat) (vote : Nat)
    (chain : AncestryFn) : Except InsertError VoteGraph :=
  let structural : Except InsertError VoteGraph :=
    match g.findContainingNodes hash number with
    | none => .error .internal
    | some none => .ok g  -- this entry already exists
    | some (some containing) =>
      if containing.isEmpty then
        match g.append hash number chain with
        | none => .error .notDescendent
        | some none => .error .internal
        | some (some g') => .ok g'
      else
        .ok (g.introduceBranch containing hash number)
  match structural with
  | .error e => .error e
  | .ok g' =>
    match propagateLoop g'.entries hash vote (g'.maxNum + 1) with
    | none => .error .internal
    | some entries => .ok { g' with entries := entries }

/-- Insert with the canonical universal-tree chain. -/
def VoteGraph.insertT (g : VoteGraph) (hash : Block) (number : Nat) (vote : Nat) :
    Except InsertError VoteGraph :=
  g.insert hash number vote treeAncestry

/-- A sequence of inserts (canonical chain). -/
def VoteGraph.insertMany (g : VoteGraph) : List (Block × Nat × Nat) → Except InsertError VoteGraph
  | [] => .ok g
  | (h, n, v) :: t =>
    match g.insertT h n v with
    | .error e => .error e
    | .ok g' => g'.insertMany t

/-! ### ghost_find_merge_point (vote_graph.rs:281-344) -/

def lookupW : List (Block × Nat) → Block → Option Nat
  | [], _ => none
  | (k, w) :: t, h => if k = h then some w else lookupW t h

def updateW (l : List (Block × Nat)) (h : Block) (w : Nat) : List (Block × Nat) :=
  match l with
  | [] => []
  | (k, w') :: t => if k = h then (k, w) :: t else (k, w') :: updateW t h w

/-- The inner loop over `descendent_nodes` at one offset of
`ghost_find_merge_point` (vote_graph.rs:307-323): accumulate
`descendent_blocks` (here an association list standing for the
binary-searched sorted vector) and stop at the first block whose
accumulated weight satisfies the condition.  The descendent nodes are
carried together with their keys (the Rust code holds `&Entry` references,
whose identity is the key).  Note the faithful quirk: the condition is
only tested when a block is hit a second time (the `Ok` branch); a block
contributed by a single descendent is never tested. -/
def stepOffset (cond : Nat → Bool) (target : Nat) :
    List (Block × Entry) → List (Block × Nat) → Option Block
  | [], _ => none
  | d :: rest, acc =>
    match d.2.ancestorBlock target with
    | none => stepOffset cond target rest acc
    | some b =>
      match lookupW acc b with
      | some w =>
        let w' := w + d.2.cumulative_vote
        if cond w' then some b
        else stepOffset cond target rest (updateW acc b w')
      | none => stepOffset cond target rest ((b, d.2.cumulative_vote) :: acc)

/-- The offset loop of `ghost_find_merge_point` (vote_graph.rs:305-338).
In the Rust code `ancestor_block` is queried at `base_number + offset`;
since `best_number` advances exactly once per successful offset, that
height is always `best_number + 1`, which is how it is tracked here.
`none` on fuel exhaustion (the Rust loop is unbounded but terminates on
finite graphs). -/
def ghostLoop (cond : Nat → Bool) :
    Nat → List (Block × Entry) → Nat → List Block → Option (List Block × Nat)
  | 0, _, _, _ => none
  | fuel + 1, dnodes, bestNumber, hashes =>
    match stepOffset cond (bestNumber + 1) dnodes [] with
    | none => some (hashes, bestNumber)
    | some newBest =>
      ghostLoop cond fuel
        (dnodes.filter fun d => (d.2.inDirectAncestry newBest (bestNumber + 1)).getD false)
        (bestNumber + 1) (hashes ++ [newBest])

/-- `VoteGraph::ghost_find_merge_point` (vote_graph.rs:281-344).  Outer
`none` is fuel exhaustion; a descendent hash missing from `entries` (which
would panic the Rust `expect` at vote_graph.rs:291 and is unreachable in
well-formed graphs) is skipped. -/
def VoteGraph.ghostFindMergePoint (g : VoteGraph) (nodeKey : Block) (activeNode : Entry)
    (forceConstrain : Option (Block × Nat)) (cond : Nat → Bool) : Option Subchain :=
  let dnodes := ((activeNode.descendents.filterMap
      fun d => (lookupE g.entries d).map fun e => (d, e)).filter
    fun d => match forceConstrain with
      | some (h, num) => (d.2.inDirectAncestry h num).getD false
      | none => true)
  (ghostLoop cond (g.maxNum + 1) dnodes activeNode.number [nodeKey]).map
    fun p => { hashes := p.1, best_number := p.2 }

/-! ### find_ghost (vote_graph.rs:211-276) -/

/-- The breadth-first descent loop of `find_ghost` (vote_graph.rs:239-264):
move to the first descendent vote-node that satisfies the condition (and,
until the first hop, contains `current_best` in its ancestry). -/
def bfsLoop (m : EMap) (cond : Nat → Bool) (currentBest : Option (Block × Nat)) :
    Nat → Block → Entry → Bool → Option (Block × Entry × Bool)
  | 0, _, _, _ => none
  | fuel + 1, nodeKey, activeNode, forceConstrain =>
    let next := ((activeNode.descendents.filterMap
        fun d => (lookupE m d).map fun e => (d, e)).filter
      fun p =>
        (match forceConstrain, currentBest with
         | true, some (h, n) => (p.2.inDirectAncestry h n).getD false
         | _, _ => true)).filter (fun p => cond p.2.cumulative_vote) |>.head?
    match next with
    | some (key, node) => bfsLoop m cond currentBest fuel key node false
    | none => some (nodeKey, activeNode, forceConstrain)

/-- The starting-node resolution of `find_ghost` (vote_graph.rs:220-232):
the graph's base when `current_best` is `None` (or is contained nowhere),
the entry itself when `current_best` has an entry, and the ancestor
vote-node of a containing entry (with the `force_constrain` flag set)
when `current_best` lies within an ancestor-edge.  `none` models the
internal `expect`s and fuel exhaustion. -/
def VoteGraph.ghostStart (g : VoteGraph) (currentBest : Option (Block × Nat)) :
    Option (Block × Bool) :=
  match currentBest with
  | none => some (g.base, false)
  | some (hash, number) =>
    match g.findContainingNodes hash number with
    | none => none
    | some none => some (hash, false)
    | some (some []) => some (g.base, false)
    | some (some (x :: _)) =>
      match (lookupE g.entries x).bind Entry.ancestorNode with
      | none => none
      | some ancestor => some (ancestor, true)

/-- `VoteGraph::find_ghost` (vote_graph.rs:211-276).  Outer `none` covers
the internal `expect`s and fuel exhaustion (unreachable in well-formed
graphs); the inner option is the function's return value. -/
def VoteGraph.findGhost (g : VoteGraph) (currentBest : Option (Block × Nat))
    (cond : Nat → Bool) : Option (Option (Block × Nat)) :=
  match g.ghostStart currentBest with
  | none => none
  | some (nodeKey, forceConstrain) =>
    match lookupE g.entries nodeKey with
    | none => none
    | some activeNode =>
      if cond activeNode.cumulative_vote then
        match bfsLoop g.entries cond currentBest (g.maxNum + 1) nodeKey activeNode
            forceConstrain with
        | none => none
        | some (key, node, fc) =>
          match g.ghostFindMergePoint key node (if fc then currentBest else none) cond with
          | none => none
          | some sub => some sub.best
      else some none

/-! ### find_ancestor (vote_graph.rs:145-200) -/

/-- The backwards search of `find_ancestor` (vote_graph.rs:177-188): walk
`ancestor_node` pointers until the first vote-node meeting the condition,
keeping the higher node of the final edge as `canonical_node`.
`some none` models the `return None` when the walk runs past the base. -/
def walkBack (m : EMap) (cond : Nat → Bool) :
    Nat → Block → Entry → Entry → Option (Option (Block × Entry × Entry))
  | 0, _, _, _ => none
  | fuel + 1, nodeKey, activeNode, canonicalNode =>
    if cond activeNode.cumulative_vote then some (some (nodeKey, activeNode, canonicalNode))
    else
      match activeNode.ancestorNode with
      | none => some none
      | some n =>
        match lookupE m n with
        | none => none
        | some nextActive => walkBack m cond fuel n nextActive activeNode

/-- The tail of `find_ancestor` (vote_graph.rs:179-199): backwards walk,
merge-point search, and the restriction of the result to the canonical
node's direct ancestry. -/
def finishAncestor (g : VoteGraph) (cond : Nat → Bool) (nodeKey : Block)
    (canonicalNode : Entry) : Option (Option (Block × Nat)) :=
  match lookupE g.entries nodeKey with
  | none => none
  | some activeNode =>
    match walkBack g.entries cond (g.maxNum + 1) nodeKey activeNode canonicalNode with
    | none => none
    | some none => some none
    | some (some (key, active, canonical)) =>
      match g.ghostFindMergePoint key active none cond with
      | none => none
      | some sub =>
        some (sub.blocksReverse.find? fun p => (canonical.inDirectAncestry p.1 p.2).getD false)

/-- `VoteGraph::find_ancestor` (vote_graph.rs:145-200).  Outer `none`
covers the internal `expect`s and fuel exhaustion (unreachable in
well-formed graphs); the inner option is the function's return value. -/
def VoteGraph.findAncestor (g : VoteGraph) (hash : Block) (number : Nat)
    (cond : Nat → Bool) : Option (Option (Block × Nat)) :=
  match g.findContainingNodes hash number with
  | none => none
  | some none =>
    match lookupE g.entries hash with
    | none => none
    | some node =>
      if cond node.cumulative_vote then some (some (hash, number))
      else
        match node.ancestorNode with
        | none => some none
        | some key => finishAncestor g cond key node
  | some (some []) => some none
  | some (some (x :: _)) =>
    match lookupE g.entries x with
    | none => none
    | some node =>
      match node.ancestorNode with
      | none => none
      | some key => finishAncestor g cond key node

/-! ## Voter-side data (voter.rs, with the message types of the crate root)

Voter ids and signatures are opaque hashable data in the Rust code;
they are instantiated at `Nat` here. -/

abbrev VoterId := Nat
abbrev Sig := Nat

structure Precommit where
  target_hash : Block
  target_number : Nat
deriving Repr, DecidableEq

structure Prevote where
  target_hash : Block
  target_number : Nat
deriving Repr, DecidableEq

structure SignedPrecommit where
  precommit : Precommit
  signature : Sig
  id : VoterId
deriving Repr, DecidableEq

structure Commit where
  target_hash : Block
  target_number : Nat
  precommits : List SignedPrecommit
deriving Repr, DecidableEq

/-- Voter weights: the `voters: HashMap<Id, u64>` map, as an association
list. -/
abbrev VoterMap := List (VoterId × Nat)

def lookupV : VoterMap → VoterId → Option Nat
  | [], _ => none
  | (k, w) :: t, i => if k = i then some w else lookupV t i

/-- Modelled from the spec: `threshold(total_weight)` from the crate root
(not among the sources): `t = W − ⌊(W − 1)/3⌋`. -/
def threshold (totalWeight : Nat) : Nat := totalWeight - (totalWeight - 1) / 3

/-! ### validate_commit (voter.rs:860-908) -/

/-- `validate_commit` (voter.rs:860-908).  Outer `none` is a propagated
error (a failing `vote_graph.insert` or an internal `expect`); the inner
option is the validation verdict: `some (h, n)` is the finalized block,
`none` means the commit is invalid. -/
def validateCommit (commit : Commit) (voters : VoterMap) (thresh : Nat) :
    Option (Option (Block × Nat)) :=
  if !(commit.precommits.all fun signed =>
      decide (commit.target_number ≤ signed.precommit.target_number) &&
      isEqualOrDescendentOf commit.target_hash signed.precommit.target_hash) then
    some none
  else if !(decide (commit.precommits.map (fun s => s.id)).Nodup) then
    some none
  else if !(commit.precommits.all fun signed => (lookupV voters signed.id).isSome) then
    some none
  else
    let g0 := VoteGraph.new commit.target_hash commit.target_number
    match commit.precommits.foldlM
      (fun (g : VoteGraph) signed =>
        match lookupV voters signed.id with
        | none => none
        | some weight =>
          match g.insertT signed.precommit.target_hash signed.precommit.target_number
              weight with
          | .error _ => none
          | .ok g' => some g') g0 with
    | none => none
    | some g =>
      g.findGhost (some (commit.target_hash, commit.target_number))
        (fun w => decide (thresh ≤ w))

/-! ### The round committer (voter.rs:492-576) -/

/-- Modelled from the spec: the slice of the per-round tally (`Round` of
`round.rs`, which is not among the sources) that `RoundCommitter` reads —
the voter set, the round threshold, the precommits imported so far in
arrival order (`Round::precommits()`), and the cached finalized block. -/
structure RoundVotes where
  voters : VoterMap
  threshold : Nat
  precommitList : List (VoterId × Precommit × Sig)
  finalized : Option (Block × Nat)
deriving Repr, DecidableEq

/-- The state of a `RoundCommitter` (voter.rs:492-499), omitting the
external commit timer. -/
structure RoundCommitterSt where
  votes : RoundVotes
  lastCommit : Option Commit
deriving Repr, DecidableEq

/-- `RoundCommitter::import_commit` (voter.rs:505-536).  `importPc` stands
for `Round::import_precommit` (round.rs, not among the sources), which the
valid path applies to every precommit of the commit; outer `none` is a
propagated error.  The returned boolean is the Rust return value (`false`
= the commit failed validation). -/
def importCommit (importPc : RoundVotes → VoterId → Precommit → Sig → Option RoundVotes)
    (rc : RoundCommitterSt) (commit : Commit) : Option (RoundCommitterSt × Bool) :=
  if commit.target_number < ((rc.votes.finalized.map fun p => p.2).getD 0) then
    some (rc, true)
  else
    match validateCommit commit rc.votes.voters rc.votes.threshold with
    | none => none
    | some none => some (rc, false)
    | some (some _) =>
      match commit.precommits.foldlM
        (fun rv sp => importPc rv sp.id sp.precommit sp.signature) rc.votes with
      | none => none
      | some votes' => some ({ votes := votes', lastCommit := some commit }, true)

/-- The precommit selection of `RoundCommitter::commit` (voter.rs:545-560):
walk `Round::precommits()` keeping each precommit that targets a
descendent-or-equal of the finalized block and whose voter id was not
already kept (the `ids` hash set; note that an id is only recorded when
the descendancy test passes, mirroring the short-circuit `&&`). -/
def commitPrecommits (targetHash : Block) :
    List (VoterId × Precommit × Sig) → List VoterId → List SignedPrecommit
  | [], _ => []
  | (id, pc, sig) :: rest, ids =>
    if isEqualOrDescendentOf targetHash pc.target_hash && decide (id ∉ ids) then
      { precommit := pc, signature := sig, id := id } :: commitPrecommits targetHash rest (id :: ids)
    else commitPrecommits targetHash rest ids

/-- `RoundCommitter::commit` (voter.rs:538-575) at the moment the commit
timer fires: returns the new committer state (note the `last_commit.take()`)
and the commit to broadcast, if any. -/
def commitFire (rc : RoundCommitterSt) : RoundCommitterSt × Option Commit :=
  let mkCommit : Option Commit :=
    match rc.votes.finalized with
    | none => none
    | some (targetHash, targetNumber) =>
      some { target_hash := targetHash, target_number := targetNumber,
             precommits := commitPrecommits targetHash rc.votes.precommitList [] }
  let rc' := { rc with lastCommit := none }
  match rc.lastCommit, rc.votes.finalized with
  | none, some _ => (rc', mkCommit)
  | some c, some (_, finalizedNumber) =>
    if c.target_number < finalizedNumber then (rc', mkCommit) else (rc', none)
  | _, _ => (rc', none)

/-! ### The prevote path of a voting round (voter.rs:258-281, 318-385) -/

/-- Modelled from the spec: `round::State` (`RoundState` of §3; round.rs is
not among the sources). -/
structure RoundState where
  prevote_ghost : Option (Block × Nat)
  finalized : Option (Block × Nat)
  estimate : Option (Block × Nat)
  completable : Bool
deriving Repr, DecidableEq

/-- The environment calls used by `construct_prevote`: `Chain::ancestry` and
`Environment::best_chain_containing` (external interfaces). -/
structure PrevoteEnv where
  ancestry : Block → Block → Option (List Block)
  bestChainContaining : Block → Option (Block × Nat)

/-- The `find_descendent_of` computation of `construct_prevote`
(voter.rs:322-366).  `none` models the `expect` on the prior round's
prevote-GHOST. -/
def findDescendentOf (env : PrevoteEnv) (primaryBlock : Option (Block × Nat))
    (lastRoundEstimate : Block × Nat) (lastPrevoteGhost : Option (Block × Nat)) :
    Option Block :=
  match primaryBlock with
  | none => some lastRoundEstimate.1
  | some primary =>
    match lastPrevoteGhost with
    | none => none
    | some lastPrevoteG =>
      if primary = lastPrevoteG then some primary.1
      else if lastPrevoteG.2 ≤ primary.2 then some lastRoundEstimate.1
      else
        match env.ancestry lastRoundEstimate.1 lastPrevoteG.1 with
        | some ancestry =>
          let toSub := primary.2 + 1
          let offset := if lastPrevoteG.2 < toSub then 0 else lastPrevoteG.2 - toSub
          if ancestry.get? offset = some primary.1 then some primary.1
          else some lastRoundEstimate.1
        | none => some lastRoundEstimate.1

/-- `VotingRound::construct_prevote` (voter.rs:318-385).  Outer `none`
models the `expect` on the prior round's estimate / prevote-GHOST; the
inner option is the constructed prevote (`none` = no vote cast because
`best_chain_containing` did not know the target block). -/
def constructPrevote (env : PrevoteEnv) (primaryBlock : Option (Block × Nat))
    (lastRoundState : RoundState) : Option (Option Prevote) :=
  match lastRoundState.estimate with
  | none => none
  | some lastRoundEstimate =>
    match findDescendentOf env primaryBlock lastRoundEstimate
        lastRoundState.prevote_ghost with
    | none => none
    | some findDescOf =>
      match env.bestChainContaining findDescOf with
      | some t => some (some { target_hash := t.1, target_number := t.2 })
      | none => some none

/-- The voting-round state machine (voter.rs:121-125); the timers held by
`Start`/`Prevoted` are external futures and are abstracted away. -/
inductive VState
  | start
  | prevoted
  | precommitted
deriving Repr, DecidableEq

/-- `VotingRound::prevote` (voter.rs:258-281), with the prevote timer's
poll outcome and the tally's completability abstracted as booleans and the
outgoing `Buffered` sink as the list of messages pushed so far.  `none`
models a propagated error. -/
def prevoteStep (env : PrevoteEnv) (primaryBlock : Option (Block × Nat))
    (lastRoundState : RoundState) (timerFired completable : Bool)
    (state : VState) (outgoing : List Prevote) : Option (VState × List Prevote) :=
  match state with
  | .start =>
    if timerFired || completable then
      match constructPrevote env primaryBlock lastRoundState with
      | none => none
      | some (some prevote) => some (.prevoted, outgoing ++ [prevote])
      | some none => some (.prevoted, outgoing)
    else some (.start, outgoing)
  | x => some (x, outgoing)

/-! ### The voter's finalization paths (voter.rs:617-652, 772-795) -/

/-- The finalization-channel drain inside `Voter::prune_background`
(voter.rs:776-792): process the queued notifications in FIFO order,
calling `environment.finalize_block` only for a notification strictly
newer than `last_finalized` and updating `last_finalized`.  Returns the
new `last_finalized` and the `finalize_block` calls made, in order. -/
def drainFinalized (lastFinalized : Block × Nat) :
    List (Block × Nat) → ((Block × Nat) × List (Block × Nat))
  | [] => (lastFinalized, [])
  | (fHash, fNum) :: rest =>
    if lastFinalized.2 < fNum then
      let r := drainFinalized (fHash, fNum) rest
      (r.1, (fHash, fNum) :: r.2)
    else drainFinalized lastFinalized rest

/-- The non-running-round arm of `Committer::process_incoming`
(voter.rs:632-648): validate the commit with the round's voter set and
threshold and return the block to pass to `environment.finalize_block`,
if any.  No comparison against `last_finalized` is made (the code carries
a TODO remarking exactly this). -/
def passiveCommitFinalize (voters : VoterMap) (commit : Commit) :
    Option (Option (Block × Nat)) :=
  validateCommit commit voters (threshold (voters.map fun p => p.2).sum)

/-- An input consumed by one `Voter::poll`-cycle that can lead to a
`finalize_block` call: either a notification on the finalization channel
(handled by `prune_background`), or a commit for a round the voter is not
running (handled by `Committer::process_incoming`). -/
inductive VoterEvent
  | finalizedNote (b : Block) (n : Nat)
  | passiveCommit (voters : VoterMap) (c : Commit)

/-- The sequence of `environment.finalize_block` calls the voter makes on a
sequence of events, starting from the given `last_finalized`: channel
notifications update `last_finalized` and are filtered against it
(voter.rs:787-791); passive commits are finalized directly
(voter.rs:638-647) and do not touch `last_finalized`. -/
def voterFinalizeCalls (lastFinalized : Block × Nat) :
    List VoterEvent → List (Block × Nat)
  | [] => []
  | .finalizedNote b n :: rest =>
    if lastFinalized.2 < n then (b, n) :: voterFinalizeCalls (b, n) rest
    else voterFinalizeCalls lastFinalized rest
  | .passiveCommit voters c :: rest =>
    match passiveCommitFinalize voters c with
    | some (some fb) => fb :: voterFinalizeCalls lastFinalized rest
    | _ => voterFinalizeCalls lastFinalized rest

/-! ## Well-formedness of a vote graph

The structural invariants maintained by the vote-graph API (spec §3,
"Vote-graph invariants"), all phrased over list members so that they are
decidable on concrete graphs. -/

/-- The ancestor-edge forced by the chain contract for an entry keyed `k`
holding `m` ancestors: element `i` is the block at height
`k.length − i − 1`, i.e. the `(i+1)`-fold parent of `k`. -/
def edgeList (k : Block) (m : Nat) : List Block :=
  (List.range m).map fun i => k.take (k.length - i - 1)

/-- The ancestor vote-node forced by the edge shape: `k`'s prefix of length
`k.length − m`. -/
def ancKey (k : Block) (m : Nat) : Block := k.take (k.length - m)

/-- Well-formedness of a vote graph: unique entry keys; the base is an
entry with an empty edge; numbers are heights; every entry descends from
the base; edges are the chain-forced parent runs, end at an existing
vote-node whose `descendents` list them back, and contain no vote-node
strictly inside; `descendents` lists are duplicate-free children;
`heads` is exactly the set of entries without descendents. -/
structure WF (g : VoteGraph) : Prop where
  nodup_keys : (g.entries.map Prod.fst).Nodup
  base_entry : (lookupE g.entries g.base).map Entry.ancestors = some []
  number_eq : ∀ p ∈ g.entries, p.2.number = bnum p.1
  base_prefix : ∀ p ∈ g.entries, g.base <+: p.1
  edge_shape : ∀ p ∈ g.entries, p.2.ancestors = edgeList p.1 p.2.ancestors.length
  edge_len : ∀ p ∈ g.entries, p.2.ancestors.length ≤ p.1.length - g.base.length
  nonbase_edge : ∀ p ∈ g.entries, p.1 ≠ g.base → p.2.ancestors ≠ []
  last_key : ∀ p ∈ g.entries, p.2.ancestors ≠ [] →
    ancKey p.1 p.2.ancestors.length ∈ g.entries.map Prod.fst
  interior_nonkey : ∀ p ∈ g.entries, ∀ a ∈ p.2.ancestors.dropLast,
    a ∉ g.entries.map Prod.fst
  desc_parent : ∀ p ∈ g.entries, ∀ d ∈ p.2.descendents,
    (lookupE g.entries d).map Entry.ancestorNode = some (some p.1)
  parent_desc : ∀ p ∈ g.entries, p.2.ancestors ≠ [] →
    (lookupE g.entries (ancKey p.1 p.2.ancestors.length)).map
      (fun e => decide (p.1 ∈ e.descendents)) = some true
  desc_nodup : ∀ p ∈ g.entries, p.2.descendents.Nodup
  heads_sub : ∀ k ∈ g.heads, (lookupE g.entries k).map Entry.descendents = some []
  heads_complete : ∀ p ∈ g.entries, p.2.descendents = [] → p.1 ∈ g.heads
  heads_nodup : g.heads.Nodup

/-! ## Measures used by the claims -/

/-- The cumulative weight carried on the chain of block `(b, m)`: the
entry's own cumulative vote when `b` is a vote-node, otherwise the sum of
the cumulative votes of the vote-nodes holding `(b, m)` inside their
ancestor-edges (in a well-formed graph those nodes root pairwise disjoint
subtrees). -/
def VoteGraph.blockWeight (g : VoteGraph) (b : Block) (m : Nat) : Nat :=
  match lookupE g.entries b with
  | some e => e.cumulative_vote
  | none =>
    ((g.entries.filter fun p => (p.2.inDirectAncestry b m).getD false).map
      fun p => p.2.cumulative_vote).sum

/-- Total vote value inserted directly at block `k` by a call sequence. -/
def insertedAt (l : List (Block × Nat × Nat)) (k : Block) : Nat :=
  ((l.filter fun t => decide (t.1 = k)).map fun t => t.2.2).sum

/-- Sum of the cumulative votes of an entry's direct descendent entries. -/
def childCumSum (m : EMap) (e : Entry) : Nat :=
  (e.descendents.map fun d => ((lookupE m d).map Entry.cumulative_vote).getD 0).sum

/-- The vote-independent part of an entry map: keys, numbers, edges and
descendent lists (everything except the cumulative votes). -/
def shape (m : EMap) : List (Block × Nat × List Block × List Block) :=
  m.map fun p => (p.1, p.2.number, p.2.ancestors, p.2.descendents)

/-- Block `(hash, number)` lies within the ancestor-edge of the vote-node
keyed `x`. -/
def containsBlock (m : EMap) (hash : Block) (number : Nat) (x : Block) : Prop :=
  ∃ e, lookupE m x = some e ∧ e.inDirectAncestry hash number = some true

/-- `j`-fold iteration of `ancestor_node` from a vote-node. -/
def ancIter (m : EMap) : Nat → Block → Option Block
  | 0, x => some x
  | j + 1, x =>
    match lookupE m x with
    | none => none
    | some e =>
      match e.ancestorNode with
      | none => none
      | some a => ancIter m j a

/-- The ancestors-truncation applied by `introduce_branch` to a containing
node (the split at `offset = entry.number - ancestor_number`). -/
def truncTo (n : Nat) (e : Entry) : Entry :=
  { e with ancestors := e.ancestors.take (e.number - n) }

/-- All containing nodes truncated. -/
def truncAll (n : Nat) (m : EMap) (C : List Block) : EMap :=
  C.foldl (fun m d => updateE m d (truncTo n)) m

/-- Sum of the cumulative votes of the given vote-nodes. -/
def sumCum (m : EMap) (C : List Block) : Nat :=
  (C.map fun d => ((lookupE m d).map Entry.cumulative_vote).getD 0).sum

/-- spec-modelled: the selection rule claimed for `RoundCommitter::commit`
stated in the spec's own words — "the first of that voter's precommits
that targets a descendant-or-equal of the finalized block" — kept separate
from `commitPrecommits` (the source translation) so the two can be
compared. -/
def specFirstQualifying (t : Block) (l : List (VoterId × Precommit × Sig)) (i : VoterId) :
    Option (Precommit × Sig) :=
  ((l.filter (fun x => decide (x.1 = i) && isEqualOrDescendentOf t x.2.1.target_hash)).head?).map
    (fun x => x.2)

/-- The cumulative weight read off an entry map at one block (0 when the
block has no vote-node). -/
def cumAt (m : EMap) (c : Block) : Nat :=
  ((lookupE m c).map Entry.cumulative_vote).getD 0

/-- Every block of the insertion history has a vote-node. -/
def keysClosed (g : VoteGraph) (l : List (Block × Nat × Nat)) : Prop :=
  ∀ t ∈ l, t.1 ∈ g.keys

/-- The cumulative-vote invariant of claim C4: every entry's cumulative
vote is the vote inserted directly at its block plus the cumulative votes
of its direct descendent entries. -/
def cumInv (g : VoteGraph) (l : List (Block × Nat × Nat)) : Prop :=
  ∀ k e, lookupE g.entries k = some e →
    e.cumulative_vote = insertedAt l k + childCumSum g.entries e

/-- The graph of one concrete insert history, used to instantiate the
invariant claims on concrete data. -/
def c4Graph : VoteGraph :=
  match (VoteGraph.new [] 0).insertMany [([0], 1, 2)] with
  | .ok g => g
  | .error _ => VoteGraph.new [] 0

/-- The graph after a first concrete insert, used to instantiate the
double-insert claim on concrete data. -/
def c5Graph : VoteGraph :=
  match (VoteGraph.new [] 0).insertT [0] 1 1 with
  | .ok g => g
  | .error _ => VoteGraph.new [] 0

/-!
# Lemmas and theorems
-/

/-! ## Association-list toolkit -/

theorem lookupE_isSome_iff {m : EMap} {k : Block} :
    (lookupE m k).isSome ↔ k ∈ m.map Prod.fst := by
  induction m with
  | nil => simp [lookupE]
  | cons p t ih =>
    obtain ⟨k', e⟩ := p
    by_cases h : k' = k <;> simp [lookupE, h, ih]
    exact fun hk => (h hk.symm).elim

theorem lookupE_eq_none_iff {m : EMap} {k : Block} :
    lookupE m k = none ↔ k ∉ m.map Prod.fst := by
  rw [← lookupE_isSome_iff, Option.isSome_iff_exists]
  cases lookupE m k <;> simp

theorem lookupE_mem {m : EMap} {k : Block} {e : Entry} (h : lookupE m k = some e) :
    (k, e) ∈ m := by
  induction m with
  | nil => simp [lookupE] at h
  | cons p t ih =>
    obtain ⟨k', e'⟩ := p
    by_cases hk : k' = k
    · subst hk
      simp [lookupE] at h
      simp [h]
    · simp [lookupE, hk] at h
      exact List.mem_cons_of_mem _ (ih h)

theorem mem_lookupE {m : EMap} (hn : (m.map Prod.fst).Nodup) {k : Block} {e : Entry}
    (h : (k, e) ∈ m) : lookupE m k = some e := by
  induction m with
  | nil => simp at h
  | cons p t ih =>
    obtain ⟨k', e'⟩ := p
    simp only [List.map_cons, List.nodup_cons] at hn
    rcases List.mem_cons.mp h with h1 | h1
    · cases h1
      simp [lookupE]
    · have hk : k' ≠ k := by
        rintro rfl
        exact hn.1 (List.mem_map.mpr ⟨(k', e), h1, rfl⟩)
      simp only [lookupE, if_neg hk]
      exact ih hn.2 h1

theorem lookupE_updateE_self (m : EMap) (k : Block) (f : Entry → Entry) :
    lookupE (updateE m k f) k = (lookupE m k).map f := by
  induction m with
  | nil => simp [lookupE, updateE]
  | cons p t ih =>
    obtain ⟨k', e⟩ := p
    by_cases h : k' = k <;> simp [lookupE, updateE, h, ih]

theorem lookupE_updateE_ne (m : EMap) {k k' : Block} (h : k' ≠ k) (f : Entry → Entry) :
    lookupE (updateE m k f) k' = lookupE m k' := by
  induction m with
  | nil => simp [updateE]
  | cons p t ih =>
    obtain ⟨k'', e⟩ := p
    by_cases h2 : k'' = k
    · subst h2
      simp [lookupE, updateE, Ne.symm h]
    · by_cases h3 : k'' = k'
      · subst h3
        simp [lookupE, updateE, h2]
      · simp [lookupE, updateE, h2, h3, ih]

theorem updateE_keys (m : EMap) (k : Block) (f : Entry → Entry) :
    (updateE m k f).map Prod.fst = m.map Prod.fst := by
  induction m with
  | nil => rfl
  | cons p t ih =>
    obtain ⟨k', e⟩ := p
    by_cases h : k' = k <;> simp [updateE, h, ih]

theorem updateE_updateE (m : EMap) (k : Block) (f g : Entry → Entry) :
    updateE (updateE m k f) k g = updateE m k (fun e => g (f e)) := by
  induction m with
  | nil => rfl
  | cons p t ih =>
    obtain ⟨k', e⟩ := p
    by_cases h : k' = k <;> simp [updateE, h, ih]

theorem updateE_comm (m : EMap) {k k' : Block} (h : k ≠ k') (f g : Entry → Entry) :
    updateE (updateE m k f) k' g = updateE (updateE m k' g) k f := by
  induction m with
  | nil => rfl
  | cons p t ih =>
    obtain ⟨k'', e⟩ := p
    by_cases h1 : k'' = k
    · subst h1
      simp [updateE, h]
    · by_cases h2 : k'' = k'
      · subst h2
        simp [updateE, h1, Ne.symm h]
      · simp [updateE, h1, h2, ih]

theorem shape_updateE_bump (m : EMap) (k : Block) (v : Nat) :
    shape (updateE m k (bumpVote v)) = shape m := by
  induction m with
  | nil => rfl
  | cons p t ih =>
    obtain ⟨k', e⟩ := p
    by_cases h : k' = k
    · simp [updateE, shape, bumpVote, h]
    · simp only [updateE, if_neg h]
      simpa [shape] using ih

theorem shape_keys {m m' : EMap} (h : shape m' = shape m) :
    m'.map Prod.fst = m.map Prod.fst := by
  have := congrArg (List.map Prod.fst) h
  simpa [shape, Function.comp] using this

theorem shape_lookup {m m' : EMap} (h : shape m' = shape m) (q : Block) :
    (lookupE m' q).map (fun e => (e.number, e.ancestors, e.descendents)) =
    (lookupE m q).map (fun e => (e.number, e.ancestors, e.descendents)) := by
  induction m generalizing m' with
  | nil =>
    cases m' with
    | nil => rfl
    | cons hd t' => simp [shape] at h
  | cons p t ih =>
    cases m' with
    | nil => simp [shape] at h
    | cons p' t' =>
      obtain ⟨k, e⟩ := p
      obtain ⟨k', e'⟩ := p'
      simp only [shape, List.map_cons, List.cons.injEq, Prod.mk.injEq] at h
      obtain ⟨⟨hk, hn, ha, hd⟩, ht⟩ := h
      subst hk
      by_cases hkk : k' = q
      · simp [lookupE, hkk, hn, ha, hd]
      · simp only [lookupE, if_neg hkk]
        exact ih (by simpa [shape] using ht)

/-! ## Propagation lemmas (the cumulative-vote loop of `insert`) -/

theorem updateE_congr {f g : Entry → Entry} (hfg : ∀ e, f e = g e) (m : EMap) (k : Block) :
    updateE m k f = updateE m k g := by
  induction m with
  | nil => rfl
  | cons p t ih =>
    obtain ⟨k', e⟩ := p
    by_cases h : k' = k
    · simp [updateE, h, hfg]
    · simp [updateE, h, ih]

theorem bump_bump (v1 v2 : Nat) (e : Entry) :
    bumpVote v2 (bumpVote v1 e) = bumpVote (v1 + v2) e := by
  simp [bumpVote, Nat.add_assoc]

theorem propagateLoop_shape {h0 : Block} {v fuel : Nat} :
    ∀ {m m' : EMap}, propagateLoop m h0 v fuel = some m' → shape m' = shape m := by
  induction fuel generalizing h0 with
  | zero => intro m m' h; simp [propagateLoop] at h
  | succ fuel ih =>
    intro m m' h
    cases he : lookupE m h0 with
    | none => simp [propagateLoop, he] at h
    | some e =>
      cases han : e.ancestorNode with
      | some parent =>
        simp only [propagateLoop, he, han] at h
        calc shape m' = shape (updateE m h0 (bumpVote v)) := ih h
          _ = shape m := shape_updateE_bump ..
      | none =>
        simp only [propagateLoop, he, han, Option.some.injEq] at h
        rw [← h]
        exact shape_updateE_bump ..

theorem propagateLoop_bump_comm (k : Block) {h0 : Block} {v w fuel : Nat} :
    ∀ m : EMap, propagateLoop (updateE m k (bumpVote w)) h0 v fuel =
      (propagateLoop m h0 v fuel).map (fun r => updateE r k (bumpVote w)) := by
  induction fuel generalizing h0 with
  | zero => intro m; rfl
  | succ fuel ih =>
    intro m
    have hswap : updateE (updateE m k (bumpVote w)) h0 (bumpVote v) =
        updateE (updateE m h0 (bumpVote v)) k (bumpVote w) := by
      by_cases hk : h0 = k
      · subst hk
        rw [updateE_updateE, updateE_updateE]
        refine updateE_congr (fun e => ?_) ..
        rw [bump_bump, bump_bump, Nat.add_comm w v]
      · exact updateE_comm _ (fun h => hk h.symm) ..
    by_cases hk : h0 = k
    · subst hk
      cases he : lookupE m h0 with
      | none =>
        simp [propagateLoop, lookupE_updateE_self, he]
      | some e =>
        have he' : lookupE (updateE m h0 (bumpVote w)) h0 = some (bumpVote w e) := by
          rw [lookupE_updateE_self, he]; rfl
        have hanc : (bumpVote w e).ancestorNode = e.ancestorNode := by
          simp [bumpVote, Entry.ancestorNode]
        cases han : e.ancestorNode with
        | some parent =>
          simp only [propagateLoop, he, han, he', hanc, hswap, ih]
        | none =>
          simp only [propagateLoop, he, han, he', hanc, hswap, Option.map_some']
    · cases he : lookupE m h0 with
      | none =>
        simp [propagateLoop, lookupE_updateE_ne _ hk, he]
      | some e =>
        have he' : lookupE (updateE m k (bumpVote w)) h0 = some e := by
          rw [lookupE_updateE_ne _ hk, he]
        cases han : e.ancestorNode with
        | some parent =>
          simp only [propagateLoop, he, han, he', hswap, ih]
        | none =>
          simp only [propagateLoop, he, han, he', hswap, Option.map_some']

theorem propagateLoop_add {h0 : Block} {v1 v2 fuel : Nat} :
    ∀ {m m1 : EMap}, propagateLoop m h0 v1 fuel = some m1 →
      propagateLoop m1 h0 v2 fuel = propagateLoop m h0 (v1 + v2) fuel := by
  induction fuel generalizing h0 with
  | zero => intro m m1 h; simp [propagateLoop] at h
  | succ fuel ih =>
    intro m m1 h
    cases he : lookupE m h0 with
    | none => simp [propagateLoop, he] at h
    | some e =>
      have hsh : shape m1 = shape m := by
        have h2 : shape m1 = shape (updateE m h0 (bumpVote v1)) := by
          cases han : e.ancestorNode with
          | some parent =>
            simp only [propagateLoop, he, han] at h
            exact propagateLoop_shape h
          | none =>
            simp only [propagateLoop, he, han, Option.some.injEq] at h
            rw [h]
        rw [h2, shape_updateE_bump]
      have hlk := shape_lookup hsh h0
      rw [he] at hlk
      cases he1 : lookupE m1 h0 with
      | none => rw [he1] at hlk; exact absurd hlk (by simp)
      | some e1 =>
        rw [he1] at hlk
        simp only [Option.map_some', Option.some.injEq, Prod.mk.injEq] at hlk
        have hanc : e1.ancestorNode = e.ancestorNode := by
          simp [Entry.ancestorNode, hlk.2.1]
        cases han : e.ancestorNode with
        | some parent =>
          simp only [propagateLoop, he, han] at h
          have hanc1 : e1.ancestorNode = some parent := hanc.trans han
          simp only [propagateLoop, he1, hanc1, he, han]
          rw [propagateLoop_bump_comm, ih h, propagateLoop_bump_comm,
            propagateLoop_bump_comm]
          cases propagateLoop m parent (v1 + v2) fuel with
          | none => rfl
          | some r =>
            simp only [Option.map_some', Option.some.injEq]
            rw [updateE_updateE, updateE_congr (fun e => bump_bump v1 v2 e)]
        | none =>
          simp only [propagateLoop, he, han, Option.some.injEq] at h
          have hanc1 : e1.ancestorNode = none := hanc.trans han
          simp only [propagateLoop, he1, hanc1, he, han, Option.some.injEq]
          rw [← h, updateE_updateE, updateE_congr (fun e => bump_bump v1 v2 e)]

/-! ## Facts about well-formed entries -/

theorem edgeList_length (k : Block) (m : Nat) : (edgeList k m).length = m := by
  simp [edgeList]

theorem edgeList_get? (k : Block) (m i : Nat) :
    (edgeList k m).get? i = if i < m then some (k.take (k.length - i - 1)) else none := by
  by_cases h : i < m
  · simp [edgeList, List.get?_map, List.get?_range h, h]
  · simp only [edgeList, List.get?_map]
    rw [List.get?_eq_none.mpr (by simpa using Nat.le_of_not_lt h)]
    simp [h]

theorem edgeList_getLast? (k : Block) {m : Nat} (hm : 0 < m) :
    (edgeList k m).getLast? = some (ancKey k m) := by
  rw [List.getLast?_eq_get? ]
  rw [edgeList_length, edgeList_get?]
  simp only [ancKey]
  rw [if_pos (by omega)]
  congr 2
  omega

theorem edgeList_dropLast (k : Block) (m : Nat) :
    (edgeList k m).dropLast = edgeList k (m - 1) := by
  cases m with
  | zero => rfl
  | succ n =>
    unfold edgeList
    rw [List.range_succ, List.map_append]
    simp [List.dropLast_concat]

/-- Unpacked entry facts: lookup, height, prefix, edge data. -/
theorem WF.entry_facts {g : VoteGraph} (hWF : WF g) {k : Block} {e : Entry}
    (h : lookupE g.entries k = some e) :
    e.number = k.length ∧ g.base <+: k ∧
    e.ancestors = edgeList k e.ancestors.length ∧
    e.ancestors.length ≤ k.length - g.base.length := by
  have hm := lookupE_mem h
  exact ⟨(hWF.number_eq _ hm).trans rfl, hWF.base_prefix _ hm, hWF.edge_shape _ hm,
    hWF.edge_len _ hm⟩

/-- `ancestor_block` under well-formedness: defined exactly on the heights
covered by the edge, returning the chain block at that height. -/
theorem WF.ancestorBlock_eq {g : VoteGraph} (hWF : WF g) {k : Block} {e : Entry}
    (h : lookupE g.entries k = some e) (num : Nat) :
    e.ancestorBlock num =
      if k.length - e.ancestors.length ≤ num ∧ num < k.length
      then some (k.take num) else none := by
  obtain ⟨hn, _hpre, hshape, _hlen⟩ := hWF.entry_facts h
  unfold Entry.ancestorBlock
  rw [hn, hshape, edgeList_length, edgeList_get?]
  by_cases h1 : num < k.length
  · rw [if_neg (by omega)]
    by_cases h2 : k.length - e.ancestors.length ≤ num
    · rw [if_pos (by omega), if_pos ⟨h2, h1⟩]
      have hx : k.length - (k.length - num - 1) - 1 = num := by omega
      rw [hx]
    · rw [if_neg (by omega), if_neg (fun hc => h2 hc.1)]
  · rw [if_pos (by omega), if_neg (fun hc => h1 hc.2)]

theorem WF.inDirectAncestry_eq_some_true {g : VoteGraph} (hWF : WF g) {k : Block} {e : Entry}
    (h : lookupE g.entries k = some e) {hash : Block} {num : Nat} :
    e.inDirectAncestry hash num = some true ↔
      (k.length - e.ancestors.length ≤ num ∧ num < k.length ∧ k.take num = hash) := by
  unfold Entry.inDirectAncestry
  rw [hWF.ancestorBlock_eq h]
  by_cases h1 : k.length - e.ancestors.length ≤ num ∧ num < k.length
  · rw [if_pos h1]
    simp only [Option.map_some', Option.some.injEq, decide_eq_true_eq]
    constructor
    · intro hc; exact ⟨h1.1, h1.2, hc⟩
    · intro hc; exact hc.2.2
  · rw [if_neg h1]
    simp only [Option.map_none']
    constructor
    · intro hc; exact absurd hc (by simp)
    · intro hc; exact absurd ⟨hc.1, hc.2.1⟩ h1

theorem WF.inDirectAncestry_eq_none {g : VoteGraph} (hWF : WF g) {k : Block} {e : Entry}
    (h : lookupE g.entries k = some e) {hash : Block} {num : Nat} :
    e.inDirectAncestry hash num = none ↔
      (num < k.length - e.ancestors.length ∨ k.length ≤ num) := by
  unfold Entry.inDirectAncestry
  rw [hWF.ancestorBlock_eq h]
  by_cases h1 : k.length - e.ancestors.length ≤ num ∧ num < k.length
  · rw [if_pos h1]
    simp only [Option.map_some']
    constructor
    · intro hc; exact absurd hc (by simp)
    · intro _; exfalso; omega
  · rw [if_neg h1]
    simp only [Option.map_none', eq_self_iff_true, true_iff]
    omega

/-- `ancestor_node` under well-formedness: the prefix at the edge's bottom. -/
theorem WF.ancestorNode_eq {g : VoteGraph} (hWF : WF g) {k : Block} {e : Entry}
    (h : lookupE g.entries k = some e) :
    e.ancestorNode = if e.ancestors.length = 0 then none
      else some (ancKey k e.ancestors.length) := by
  obtain ⟨_hn, _hpre, hshape, _hlen⟩ := hWF.entry_facts h
  unfold Entry.ancestorNode
  by_cases hm : e.ancestors.length = 0
  · rw [if_pos hm, List.length_eq_zero.mp hm]
    rfl
  · conv_lhs => rw [hshape]
    rw [if_neg hm, edgeList_getLast? _ (by omega)]

theorem ancKey_length {k : Block} {m : Nat} (_hm : m ≤ k.length) :
    (ancKey k m).length = k.length - m := by
  simp [ancKey]

theorem ancKey_prefix (k : Block) (m : Nat) : ancKey k m <+: k := List.take_prefix _ _

/-- The ancestor vote-node of a non-base entry: an entry key, strictly
shorter, holding the child in its `descendents`. -/
theorem WF.parent_of {g : VoteGraph} (hWF : WF g) {k : Block} {e : Entry}
    (h : lookupE g.entries k = some e) {a : Block} (ha : e.ancestorNode = some a) :
    a ∈ g.entries.map Prod.fst ∧ a.length < k.length ∧ a <+: k ∧
    ∃ ea, lookupE g.entries a = some ea ∧ k ∈ ea.descendents := by
  have hmem := lookupE_mem h
  rw [hWF.ancestorNode_eq h] at ha
  by_cases hm : e.ancestors.length = 0
  · simp [hm] at ha
  · rw [if_neg hm] at ha
    obtain ⟨hn, hpre, _hshape, hlen⟩ := hWF.entry_facts h
    have hbase : g.base.length ≤ k.length := hpre.length_le
    have hmk : e.ancestors.length ≤ k.length := by omega
    have hne : e.ancestors ≠ [] := fun hnil => hm (by rw [hnil]; rfl)
    have hk := hWF.last_key _ hmem hne
    have hd := hWF.parent_desc _ hmem hne
    cases ha
    refine ⟨hk, by rw [ancKey_length hmk]; omega, ancKey_prefix .., ?_⟩
    cases hea : lookupE g.entries (ancKey k e.ancestors.length) with
    | none => rw [hea] at hd; exact absurd hd (by simp)
    | some ea =>
      rw [hea] at hd
      simp only [Option.map_some', Option.some.injEq] at hd
      exact ⟨ea, rfl, by simpa using hd⟩

/-- A member of a `descendents` list is an entry whose `ancestor_node` is
the parent, strictly longer than the parent. -/
theorem WF.child_of {g : VoteGraph} (hWF : WF g) {k : Block} {e : Entry}
    (h : lookupE g.entries k = some e) {d : Block} (hd : d ∈ e.descendents) :
    ∃ ed, lookupE g.entries d = some ed ∧ ed.ancestorNode = some k ∧
      k.length < d.length ∧ k <+: d := by
  have hmem := lookupE_mem h
  have := hWF.desc_parent _ hmem d hd
  cases hed : lookupE g.entries d with
  | none => rw [hed] at this; exact absurd this (by simp)
  | some ed =>
    rw [hed] at this
    simp only [Option.map_some', Option.some.injEq] at this
    have hp := hWF.parent_of hed this
    exact ⟨ed, rfl, this, hp.2.1, hp.2.2.1⟩

theorem mem_maxNum {g : VoteGraph} {k : Block} {e : Entry}
    (h : lookupE g.entries k = some e) : e.number ≤ g.maxNum := by
  have hm := lookupE_mem h
  unfold VoteGraph.maxNum
  have : e.number ∈ g.entries.map (fun p => p.2.number) :=
    List.mem_map.mpr ⟨(k, e), hm, rfl⟩
  revert this
  generalize g.entries.map (fun p => p.2.number) = l
  intro hl
  induction l with
  | nil => simp at hl
  | cons x t ih =>
    rcases List.mem_cons.mp hl with h1 | h1
    · subst h1; simp [List.foldr]
    · simp only [List.foldr_cons]
      exact le_trans (ih h1) (Nat.le_max_right ..)

/-! ## Characterization of `find_containing_nodes` -/

theorem keys_eq (g : VoteGraph) : g.keys = g.entries.map Prod.fst := rfl

theorem nodup_subset_length_le {l₁ l₂ : List Block} (hn : l₁.Nodup) (hs : ∀ x ∈ l₁, x ∈ l₂) :
    l₁.length ≤ l₂.length :=
  (hn.subperm hs).length_le

/-- Specification of one head-walk of `find_containing_nodes`
(vote_graph.rs:361-386): the walk terminates, only grows the visited set
with entry keys, records the head as visited, keeps the visited set closed
under the continue-step, and keeps `containing` equal to the visited nodes
whose edge holds the block. -/
theorem walkHead_spec {g : VoteGraph} (hWF : WF g) (hash : Block) (number : Nat) :
    ∀ (fuel : Nat) (head : Block) (vs cs : List Block),
      head ∈ g.keys →
      vs.Nodup → (∀ x ∈ vs, x ∈ g.keys) → cs.Nodup →
      (∀ x ∈ vs, ∀ e, lookupE g.entries x = some e →
        e.inDirectAncestry hash number = none →
        ∀ a, e.ancestorNode = some a → a ∈ vs ∨ a = head) →
      (∀ x, x ∈ cs ↔ x ∈ vs ∧ containsBlock g.entries hash number x) →
      g.keys.length - vs.length < fuel →
      ∃ vs' cs', walkHead g.entries hash number fuel head vs cs = some (vs', cs') ∧
        (∀ x ∈ vs, x ∈ vs') ∧ vs'.Nodup ∧ (∀ x ∈ vs', x ∈ g.keys) ∧
        cs'.Nodup ∧ head ∈ vs' ∧
        (∀ x ∈ vs', ∀ e, lookupE g.entries x = some e →
          e.inDirectAncestry hash number = none →
          ∀ a, e.ancestorNode = some a → a ∈ vs') ∧
        (∀ x, x ∈ cs' ↔ x ∈ vs' ∧ containsBlock g.entries hash number x) := by
  intro fuel
  induction fuel with
  | zero =>
    intro head vs cs _ _ _ _ _ _ hfuel
    omega
  | succ fuel ih =>
    intro head vs cs hhead hvsn hvsk hcsn hclosed hcs hfuel
    have he : ∃ e, lookupE g.entries head = some e := by
      rw [← Option.isSome_iff_exists, lookupE_isSome_iff]
      exact hhead
    obtain ⟨e, he⟩ := he
    by_cases hmem : head ∈ vs
    · refine ⟨vs, cs, ?_, fun x hx => hx, hvsn, hvsk, hcsn, hmem, ?_, hcs⟩
      · simp only [walkHead, he, if_pos hmem]
      · intro x hx e' he' hnone a ha
        rcases hclosed x hx e' he' hnone a ha with h | h
        · exact h
        · rw [h]; exact hmem
    · have hvs1n : (head :: vs).Nodup := List.nodup_cons.mpr ⟨hmem, hvsn⟩
      have hvs1k : ∀ x ∈ head :: vs, x ∈ g.keys := by
        intro x hx
        rcases List.mem_cons.mp hx with h | h
        · rw [h]; exact hhead
        · exact hvsk x h
      cases hin : e.inDirectAncestry hash number with
      | some b =>
        cases b with
        | true =>
          refine ⟨head :: vs, head :: cs, ?_, fun x hx => List.mem_cons_of_mem _ hx,
            hvs1n, hvs1k, ?_, List.mem_cons_self .., ?_, ?_⟩
          · simp only [walkHead, he, if_neg hmem, hin]
          · refine List.nodup_cons.mpr ⟨fun hc => hmem ((hcs head).mp hc).1, hcsn⟩
          · intro x hx e' he' hnone a ha
            rcases List.mem_cons.mp hx with h | h
            · subst h
              rw [he'] at he
              cases he
              rw [hnone] at hin
              cases hin
            · rcases hclosed x h e' he' hnone a ha with h2 | h2
              · exact List.mem_cons_of_mem _ h2
              · rw [h2]; exact List.mem_cons_self ..
          · intro x
            constructor
            · intro hx
              rcases List.mem_cons.mp hx with h | h
              · subst h
                exact ⟨List.mem_cons_self .., e, he, hin⟩
              · obtain ⟨h1, h2⟩ := (hcs x).mp h
                exact ⟨List.mem_cons_of_mem _ h1, h2⟩
            · intro ⟨h1, h2⟩
              rcases List.mem_cons.mp h1 with h | h
              · rw [h]; exact List.mem_cons_self ..
              · exact List.mem_cons_of_mem _ ((hcs x).mpr ⟨h, h2⟩)
        | false =>
          refine ⟨head :: vs, cs, ?_, fun x hx => List.mem_cons_of_mem _ hx,
            hvs1n, hvs1k, hcsn, List.mem_cons_self .., ?_, ?_⟩
          · simp only [walkHead, he, if_neg hmem, hin]
          · intro x hx e' he' hnone a ha
            rcases List.mem_cons.mp hx with h | h
            · subst h
              rw [he'] at he
              cases he
              rw [hnone] at hin
              cases hin
            · rcases hclosed x h e' he' hnone a ha with h2 | h2
              · exact List.mem_cons_of_mem _ h2
              · rw [h2]; exact List.mem_cons_self ..
          · intro x
            constructor
            · intro hx
              obtain ⟨h1, h2⟩ := (hcs x).mp hx
              exact ⟨List.mem_cons_of_mem _ h1, h2⟩
            · intro ⟨h1, h2⟩
              rcases List.mem_cons.mp h1 with h | h
              · subst h
                obtain ⟨e', he', hin'⟩ := h2
                rw [he'] at he
                cases he
                rw [hin'] at hin
                cases hin
              · exact (hcs x).mpr ⟨h, h2⟩
      | none =>
        cases han : e.ancestorNode with
        | some prev =>
          have hprev : prev ∈ g.keys := (hWF.parent_of he han).1
          have hlen1 : (head :: vs).length ≤ g.keys.length :=
            nodup_subset_length_le hvs1n hvs1k
          have hclosed1 : ∀ x ∈ head :: vs, ∀ e', lookupE g.entries x = some e' →
              e'.inDirectAncestry hash number = none →
              ∀ a, e'.ancestorNode = some a → a ∈ head :: vs ∨ a = prev := by
            intro x hx e' he' hnone a ha
            rcases List.mem_cons.mp hx with h | h
            · subst h
              rw [he'] at he
              cases he
              rw [ha] at han
              cases han
              exact Or.inr rfl
            · rcases hclosed x h e' he' hnone a ha with h2 | h2
              · exact Or.inl (List.mem_cons_of_mem _ h2)
              · rw [h2]; exact Or.inl (List.mem_cons_self ..)
          have hcs1 : ∀ x, x ∈ cs ↔ x ∈ head :: vs ∧ containsBlock g.entries hash number x := by
            intro x
            constructor
            · intro hx
              obtain ⟨h1, h2⟩ := (hcs x).mp hx
              exact ⟨List.mem_cons_of_mem _ h1, h2⟩
            · intro ⟨h1, h2⟩
              rcases List.mem_cons.mp h1 with h | h
              · subst h
                obtain ⟨e', he', hin'⟩ := h2
                rw [he'] at he
                cases he
                rw [hin'] at hin
                cases hin
              · exact (hcs x).mpr ⟨h, h2⟩
          obtain ⟨vs', cs', hw, hsub, h1, h2, h3, h4, h5, h6⟩ :=
            ih prev (head :: vs) cs hprev hvs1n hvs1k hcsn hclosed1 hcs1
              (by simp only [List.length_cons] at hlen1 ⊢; omega)
          refine ⟨vs', cs', ?_, ?_, h1, h2, h3, ?_, h5, h6⟩
          · simp only [walkHead, he, if_neg hmem, hin, han]
            exact hw
          · intro x hx
            exact hsub x (List.mem_cons_of_mem _ hx)
          · exact hsub head (List.mem_cons_self ..)
        | none =>
          refine ⟨head :: vs, cs, ?_, fun x hx => List.mem_cons_of_mem _ hx,
            hvs1n, hvs1k, hcsn, List.mem_cons_self .., ?_, ?_⟩
          · simp only [walkHead, he, if_neg hmem, hin, han]
          · intro x hx e' he' hnone a ha
            rcases List.mem_cons.mp hx with h | h
            · subst h
              rw [he'] at he
              cases he
              rw [ha] at han
              cases han
            · rcases hclosed x h e' he' hnone a ha with h2 | h2
              · exact List.mem_cons_of_mem _ h2
              · rw [h2]; exact List.mem_cons_self ..
          · intro x
            constructor
            · intro hx
              obtain ⟨h1, h2⟩ := (hcs x).mp hx
              exact ⟨List.mem_cons_of_mem _ h1, h2⟩
            · intro ⟨h1, h2⟩
              rcases List.mem_cons.mp h1 with h | h
              · subst h
                obtain ⟨e', he', hin'⟩ := h2
                rw [he'] at he
                cases he
                rw [hin'] at hin
                cases hin
              · exact (hcs x).mpr ⟨h, h2⟩

/-- The head-fold of `find_containing_nodes` terminates and yields a
visited set covering all processed heads, closed under the continue-step,
with `containing` equal to the visited nodes whose edge holds the block. -/
theorem walkAllHeads_spec {g : VoteGraph} (hWF : WF g) (hash : Block) (number : Nat) :
    ∀ (heads vs cs : List Block),
      (∀ h ∈ heads, h ∈ g.keys) →
      vs.Nodup → (∀ x ∈ vs, x ∈ g.keys) → cs.Nodup →
      (∀ x ∈ vs, ∀ e, lookupE g.entries x = some e →
        e.inDirectAncestry hash number = none →
        ∀ a, e.ancestorNode = some a → a ∈ vs) →
      (∀ x, x ∈ cs ↔ x ∈ vs ∧ containsBlock g.entries hash number x) →
      ∃ (vs' cs' : List Block),
        walkAllHeads g.entries hash number (g.entries.length + 1) heads vs cs = some cs' ∧
        (∀ x ∈ vs, x ∈ vs') ∧ vs'.Nodup ∧ (∀ x ∈ vs', x ∈ g.keys) ∧
        cs'.Nodup ∧ (∀ h ∈ heads, h ∈ vs') ∧
        (∀ x ∈ vs', ∀ e, lookupE g.entries x = some e →
          e.inDirectAncestry hash number = none →
          ∀ a, e.ancestorNode = some a → a ∈ vs') ∧
        (∀ x, x ∈ cs' ↔ x ∈ vs' ∧ containsBlock g.entries hash number x) := by
  intro heads
  induction heads with
  | nil =>
    intro vs cs _ hvsn hvsk hcsn hclosed hcs
    exact ⟨vs, cs, rfl, fun x hx => hx, hvsn, hvsk, hcsn, by simp, hclosed, hcs⟩
  | cons head rest ih =>
    intro vs cs hheads hvsn hvsk hcsn hclosed hcs
    have hkeyslen : g.keys.length = g.entries.length := by
      rw [keys_eq]; exact List.length_map ..
    obtain ⟨vs1, cs1, hw, hsub1, hn1, hk1, hcn1, hhd1, hcl1, hcs1⟩ :=
      walkHead_spec hWF hash number (g.entries.length + 1) head vs cs
        (hheads head (List.mem_cons_self ..)) hvsn hvsk hcsn
        (fun x hx e he hnone a ha => Or.inl (hclosed x hx e he hnone a ha)) hcs
        (by
          have := nodup_subset_length_le hvsn hvsk
          omega)
    obtain ⟨vs', cs', hw', hsub', hn', hk', hcn', hhd', hcl', hcs'⟩ :=
      ih vs1 cs1 (fun h hh => hheads h (List.mem_cons_of_mem _ hh)) hn1 hk1 hcn1 hcl1 hcs1
    refine ⟨vs', cs', ?_, ?_, hn', hk', hcn', ?_, hcl', hcs'⟩
    · simp only [walkAllHeads, hw]
      exact hw'
    · intro x hx
      exact hsub' x (hsub1 x hx)
    · intro h hh
      rcases List.mem_cons.mp hh with h1 | h1
      · rw [h1]; exact hsub' head hhd1
      · exact hhd' h h1

/-- `ancestor_node` iterates shorten the block. -/
theorem ancIter_length {g : VoteGraph} (hWF : WF g) :
    ∀ (j : Nat) (x y : Block), ancIter g.entries j x = some y → y.length ≤ x.length := by
  intro j
  induction j with
  | zero =>
    intro x y h
    cases h
    exact le_refl _
  | succ j ih =>
    intro x y h
    cases he : lookupE g.entries x with
    | none => simp [ancIter, he] at h
    | some e =>
      cases han : e.ancestorNode with
      | none => simp [ancIter, he, han] at h
      | some a =>
        simp only [ancIter, he, han] at h
        have := (hWF.parent_of he han).2.1
        exact le_trans (ih a y h) (le_of_lt this)

/-- If a block inside some vote-node's edge sits `j` ancestor-steps below a
visited node, and the visited set is closed under the continue-step, the
holding node is visited too (the chain above it answers `None`). -/
theorem descend_visited {g : VoteGraph} (hWF : WF g) {hash : Block} {number : Nat}
    {vs : List Block}
    (hclosed : ∀ x ∈ vs, ∀ e, lookupE g.entries x = some e →
      e.inDirectAncestry hash number = none →
      ∀ a, e.ancestorNode = some a → a ∈ vs) :
    ∀ (j : Nat) (hd x : Block), hd ∈ vs → ancIter g.entries j hd = some x →
      containsBlock g.entries hash number x → x ∈ vs := by
  intro j
  induction j with
  | zero =>
    intro hd x hhd h _
    cases h
    exact hhd
  | succ j ih =>
    intro hd x hhd h hcb
    cases he : lookupE g.entries hd with
    | none => simp [ancIter, he] at h
    | some e =>
      cases han : e.ancestorNode with
      | none => simp [ancIter, he, han] at h
      | some a =>
        simp only [ancIter, he, han] at h
        -- the edge of `hd` lies strictly above `number`
        obtain ⟨ex, hex, hin⟩ := hcb
        have hnum : number < x.length := by
          have := (hWF.inDirectAncestry_eq_some_true hex).mp hin
          exact this.2.1
        have hxa : x.length ≤ a.length := ancIter_length hWF j a x h
        have hbottom : hd.length - e.ancestors.length = a.length := by
          rw [hWF.ancestorNode_eq he] at han
          by_cases hm : e.ancestors.length = 0
          · rw [if_pos hm] at han; cases han
          · rw [if_neg hm] at han
            obtain ⟨hn, hpre, _, hlen⟩ := hWF.entry_facts he
            have : g.base.length ≤ hd.length := hpre.length_le
            cases han
            rw [ancKey_length (by omega)]
        have hnone : e.inDirectAncestry hash number = none := by
          rw [hWF.inDirectAncestry_eq_none he]
          omega
        exact ih a x (hclosed hd hhd e he hnone a han) h ⟨ex, hex, hin⟩

/-- Every vote-node lies on the ancestor chain of some head. -/
theorem reach_from_head {g : VoteGraph} (hWF : WF g) :
    ∀ (x : Block), x ∈ g.keys →
      ∃ hd ∈ g.heads, ∃ j, ancIter g.entries j hd = some x := by
  -- strong induction on the height gap up to the tallest entry
  suffices h : ∀ (n : Nat) (x : Block), x ∈ g.keys → g.maxNum - x.length < n →
      ∃ hd ∈ g.heads, ∃ j, ancIter g.entries j hd = some x by
    intro x hx
    exact h (g.maxNum + 1) x hx (by omega)
  intro n
  induction n with
  | zero =>
    intro x _ h
    omega
  | succ n ih =>
    intro x hx hn
    have hex : ∃ e, lookupE g.entries x = some e := by
      rw [← Option.isSome_iff_exists, lookupE_isSome_iff]
      exact hx
    obtain ⟨e, he⟩ := hex
    cases hdesc : e.descendents with
    | nil =>
      refine ⟨x, hWF.heads_complete _ (lookupE_mem he) hdesc, 0, rfl⟩
    | cons d ds =>
      have hd : d ∈ e.descendents := by rw [hdesc]; exact List.mem_cons_self ..
      obtain ⟨ed, hed, hanc, hlt, _⟩ := hWF.child_of he hd
      have hdk : d ∈ g.keys := by
        rw [keys_eq, ← lookupE_isSome_iff, hed]; rfl
      have hdmax : d.length ≤ g.maxNum := by
        have := mem_maxNum hed
        have h2 := (hWF.entry_facts hed).1
        omega
      obtain ⟨hd', hhd', j, hj⟩ := ih d hdk (by omega)
      refine ⟨hd', hhd', j + 1, ?_⟩
      -- extend the iterate by one step at the bottom
      clear hhd' hn hx
      induction j generalizing hd' with
      | zero =>
        cases hj
        simp [ancIter, hed, hanc]
      | succ j ihj =>
        cases he' : lookupE g.entries hd' with
        | none => simp [ancIter, he'] at hj
        | some e' =>
          cases han' : e'.ancestorNode with
          | none => simp [ancIter, he', han'] at hj
          | some a' =>
            simp only [ancIter, he', han'] at hj
            simp only [ancIter, he', han']
            exact ihj a' hj

/-- Full characterization of `find_containing_nodes` on a well-formed
graph: `some none` exactly on existing entries, and otherwise the
duplicate-free list of exactly those vote-nodes whose ancestor-edge holds
the block. -/
theorem findContainingNodes_spec {g : VoteGraph} (hWF : WF g) (hash : Block) (number : Nat) :
    (hash ∈ g.keys → g.findContainingNodes hash number = some none) ∧
    (hash ∉ g.keys → ∃ C, g.findContainingNodes hash number = some (some C) ∧
      C.Nodup ∧ ∀ x, x ∈ C ↔ containsBlock g.entries hash number x) := by
  constructor
  · intro hx
    unfold VoteGraph.findContainingNodes
    rw [if_pos (lookupE_isSome_iff.mpr hx)]
  · intro hx
    unfold VoteGraph.findContainingNodes
    rw [if_neg (by rw [lookupE_isSome_iff]; exact hx)]
    have hheads : ∀ h ∈ g.heads, h ∈ g.keys := by
      intro h hh
      have := hWF.heads_sub h hh
      cases hl : lookupE g.entries h with
      | none => rw [hl] at this; cases this
      | some e => rw [keys_eq, ← lookupE_isSome_iff, hl]; rfl
    obtain ⟨vs', cs', hw, _, _, _, hcn', hhd', hcl', hcs'⟩ :=
      walkAllHeads_spec hWF hash number g.heads [] [] hheads List.nodup_nil
        (by simp) List.nodup_nil (by simp) (by simp)
    refine ⟨cs', by rw [hw]; rfl, hcn', ?_⟩
    intro x
    rw [hcs' x]
    constructor
    · intro h; exact h.2
    · intro h
      refine ⟨?_, h⟩
      obtain ⟨e, he, hi⟩ := h
      have hxk : x ∈ g.keys := by
        rw [keys_eq, ← lookupE_isSome_iff, he]; rfl
      obtain ⟨hd, hhd, j, hj⟩ := reach_from_head hWF x hxk
      exact descend_visited hWF hcl' j hd x (hhd' hd hhd) hj ⟨e, he, hi⟩

/-! ## Edge arithmetic for the structural operations -/

theorem take_take_prefix {d : Block} {n j : Nat} (h : j ≤ n) :
    (d.take n).take j = d.take j := by
  rw [List.take_take, Nat.min_eq_left h]

theorem edgeList_take (k : Block) (m o : Nat) (h : o ≤ m) :
    (edgeList k m).take o = edgeList k o := by
  unfold edgeList
  rw [← List.map_take, List.take_range, Nat.min_eq_left h]

theorem edgeList_drop {k : Block} {m o n : Nat} (hn : n = k.length - o) (ho : o ≤ m)
    (hm : m ≤ k.length) :
    (edgeList k m).drop o = edgeList (k.take n) (m - o) := by
  apply List.ext_get?
  intro i
  rw [List.get?_drop, edgeList_get?, edgeList_get?]
  by_cases hi : i < m - o
  · rw [if_pos (by omega), if_pos hi]
    have h1 : k.length - (o + i) - 1 ≤ n := by omega
    have h2 : (k.take n).length = n := List.length_take_of_le (by omega)
    rw [ take_take_prefix h1 |>.symm]
    congr 2
    omega
  · rw [if_neg (by omega), if_neg hi]

theorem ancestryToAux_eq (base : Block) :
    ∀ (fuel : Nat) (block : Block),
      ancestryToAux base fuel block = edgeList block (min fuel (block.length - base.length)) := by
  intro fuel
  induction fuel with
  | zero =>
    intro block
    simp [ancestryToAux, edgeList]
  | succ fuel ih =>
    intro block
    unfold ancestryToAux
    by_cases h : block.length ≤ base.length
    · rw [if_pos h]
      have : block.length - base.length = 0 := by omega
      simp [this, edgeList]
    · rw [if_neg h, ih]
      have hlen : block.dropLast.length = block.length - 1 := List.length_dropLast ..
      apply List.ext_get?
      intro i
      rw [edgeList_get?]
      cases i with
      | zero =>
        rw [if_pos (by omega)]
        simp only [List.get?_cons_zero, Option.some.injEq]
        rw [List.dropLast_eq_take]
        congr 1
      | succ i =>
        simp only [List.get?_cons_succ, edgeList_get?, hlen]
        by_cases hi : i < min fuel (block.length - 1 - base.length)
        · rw [if_pos hi, if_pos (by omega)]
          have h2 : block.length - 1 - i - 1 ≤ block.length - 1 := by omega
          rw [List.dropLast_eq_take, take_take_prefix h2]
          congr 2
          omega
        · rw [if_neg hi, if_neg (by omega)]

theorem ancestryTo_eq (base block : Block) (h : base.length ≤ block.length) :
    ancestryTo base block = edgeList block (block.length - base.length) := by
  unfold ancestryTo
  rw [ancestryToAux_eq, Nat.min_eq_right (by omega)]

theorem mem_edgeList {k : Block} {m : Nat} {a : Block} :
    a ∈ edgeList k m ↔ ∃ i, i < m ∧ a = k.take (k.length - i - 1) := by
  simp only [edgeList, List.mem_map, List.mem_range]
  constructor
  · rintro ⟨i, hi, rfl⟩; exact ⟨i, hi, rfl⟩
  · rintro ⟨i, hi, rfl⟩; exact ⟨i, hi, rfl⟩

/-- Positions in an edge determine heights: a block can appear in
`edgeList k m` only at the index corresponding to its own length. -/
theorem edgeList_mem_length {k : Block} {m : Nat} {a : Block} (hm : m ≤ k.length)
    (h : a ∈ edgeList k m) : a = k.take a.length ∧
      k.length - m ≤ a.length ∧ a.length < k.length := by
  obtain ⟨i, hi, rfl⟩ := mem_edgeList.mp h
  have hl : (k.take (k.length - i - 1)).length = k.length - i - 1 :=
    List.length_take_of_le (by omega)
  rw [hl]
  exact ⟨rfl, by omega, by omega⟩

/-! ## Well-formedness transfer along vote-only updates -/

theorem shape_lookup_anc {m m' : EMap} (h : shape m' = shape m) (q : Block) :
    (lookupE m' q).map Entry.ancestors = (lookupE m q).map Entry.ancestors := by
  have := shape_lookup h q
  cases h1 : lookupE m' q with
  | none =>
    rw [h1] at this
    cases h2 : lookupE m q with
    | none => rfl
    | some e => rw [h2] at this; cases this
  | some e' =>
    rw [h1] at this
    cases h2 : lookupE m q with
    | none => rw [h2] at this; cases this
    | some e =>
      rw [h2] at this
      simp only [Option.map_some', Option.some.injEq, Prod.mk.injEq] at this ⊢
      exact this.2.1

theorem shape_mem_transfer {m m' : EMap} (hsh : shape m' = shape m)
    (hn : (m.map Prod.fst).Nodup) {p' : Block × Entry} (hp : p' ∈ m') :
    ∃ e, (p'.1, e) ∈ m ∧ e.number = p'.2.number ∧ e.ancestors = p'.2.ancestors ∧
      e.descendents = p'.2.descendents := by
  have hn' : (m'.map Prod.fst).Nodup := by rw [shape_keys hsh]; exact hn
  have hl : lookupE m' p'.1 = some p'.2 := by
    obtain ⟨a, b⟩ := p'
    exact mem_lookupE hn' hp
  have := shape_lookup hsh p'.1
  rw [hl] at this
  cases h2 : lookupE m p'.1 with
  | none => rw [h2] at this; cases this
  | some e =>
    rw [h2] at this
    simp only [Option.map_some', Option.some.injEq, Prod.mk.injEq] at this
    exact ⟨e, lookupE_mem h2, this.1.symm, this.2.1.symm, this.2.2.symm⟩

/-- Well-formedness only depends on the vote-independent shape, the heads
and the base. -/
theorem WF_of_shape {g g' : VoteGraph} (hWF : WF g)
    (hsh : shape g'.entries = shape g.entries)
    (hh : g'.heads = g.heads) (hb : g'.base = g.base) : WF g' := by
  have hkeys : g'.entries.map Prod.fst = g.entries.map Prod.fst := shape_keys hsh
  have hanc : ∀ q, (lookupE g'.entries q).map Entry.ancestors =
      (lookupE g.entries q).map Entry.ancestors := shape_lookup_anc hsh
  refine ⟨?_, ?_, ?_, ?_, ?_, ?_, ?_, ?_, ?_, ?_, ?_, ?_, ?_, ?_, ?_⟩
  · rw [hkeys]; exact hWF.nodup_keys
  · rw [hb, hanc g.base]; exact hWF.base_entry
  · intro p hp
    obtain ⟨e, hm, hn, _, _⟩ := shape_mem_transfer hsh hWF.nodup_keys hp
    rw [← hn]
    exact hWF.number_eq (p.1, e) hm
  · intro p hp
    obtain ⟨e, hm, _, _, _⟩ := shape_mem_transfer hsh hWF.nodup_keys hp
    rw [hb]
    exact hWF.base_prefix (p.1, e) hm
  · intro p hp
    obtain ⟨e, hm, _, ha, _⟩ := shape_mem_transfer hsh hWF.nodup_keys hp
    rw [← ha]
    exact hWF.edge_shape (p.1, e) hm
  · intro p hp
    obtain ⟨e, hm, _, ha, _⟩ := shape_mem_transfer hsh hWF.nodup_keys hp
    rw [← ha, hb]
    exact hWF.edge_len (p.1, e) hm
  · intro p hp hpb
    obtain ⟨e, hm, _, ha, _⟩ := shape_mem_transfer hsh hWF.nodup_keys hp
    rw [← ha]
    exact hWF.nonbase_edge (p.1, e) hm (by rw [← hb]; exact hpb)
  · intro p hp hne
    obtain ⟨e, hm, _, ha, _⟩ := shape_mem_transfer hsh hWF.nodup_keys hp
    rw [← ha, hkeys]
    exact hWF.last_key (p.1, e) hm (by rw [ha]; exact hne)
  · intro p hp a hda
    obtain ⟨e, hm, _, ha, _⟩ := shape_mem_transfer hsh hWF.nodup_keys hp
    rw [hkeys]
    exact hWF.interior_nonkey (p.1, e) hm a (by rw [ha]; exact hda)
  · intro p hp d hd
    obtain ⟨e, hm, _, _, hde⟩ := shape_mem_transfer hsh hWF.nodup_keys hp
    have := hWF.desc_parent (p.1, e) hm d (by rw [hde]; exact hd)
    have h2 := hanc d
    cases h3 : lookupE g.entries d with
    | none => rw [h3] at this; cases this
    | some ed =>
      rw [h3] at this h2
      cases h4 : lookupE g'.entries d with
      | none => rw [h4] at h2; cases h2
      | some ed' =>
        rw [h4] at h2
        simp only [Option.map_some', Option.some.injEq] at this h2 ⊢
        rw [Entry.ancestorNode, h2, ← Entry.ancestorNode, this]
  · intro p hp hne
    obtain ⟨e, hm, _, ha, _⟩ := shape_mem_transfer hsh hWF.nodup_keys hp
    have := hWF.parent_desc (p.1, e) hm (by rw [ha]; exact hne)
    rw [← ha]
    have h2 := shape_lookup hsh (ancKey p.1 e.ancestors.length)
    cases h3 : lookupE g.entries (ancKey p.1 e.ancestors.length) with
    | none => rw [h3] at this; cases this
    | some ea =>
      rw [h3] at this h2
      cases h4 : lookupE g'.entries (ancKey p.1 e.ancestors.length) with
      | none => rw [h4] at h2; cases h2
      | some ea' =>
        rw [h4] at h2
        simp only [Option.map_some', Option.some.injEq, Prod.mk.injEq] at this h2 ⊢
        rw [h2.2.2]
        exact this
  · intro p hp
    obtain ⟨e, hm, _, _, hde⟩ := shape_mem_transfer hsh hWF.nodup_keys hp
    rw [← hde]
    exact hWF.desc_nodup (p.1, e) hm
  · intro k hk
    rw [hh] at hk
    have := hWF.heads_sub k hk
    have h2 := shape_lookup hsh k
    cases h3 : lookupE g.entries k with
    | none => rw [h3] at this; cases this
    | some e =>
      rw [h3] at this h2
      cases h4 : lookupE g'.entries k with
      | none => rw [h4] at h2; cases h2
      | some e' =>
        rw [h4] at h2
        simp only [Option.map_some', Option.some.injEq, Prod.mk.injEq] at this h2 ⊢
        rw [h2.2.2, this]
  · intro p hp hde
    obtain ⟨e, hm, _, _, hde'⟩ := shape_mem_transfer hsh hWF.nodup_keys hp
    rw [hh]
    exact hWF.heads_complete (p.1, e) hm (by rw [hde', hde])
  · rw [hh]; exact hWF.heads_nodup

/-- The base graph is well-formed. -/
theorem new_WF (b : Block) : WF (VoteGraph.new b (bnum b)) := by
  refine ⟨?_, ?_, ?_, ?_, ?_, ?_, ?_, ?_, ?_, ?_, ?_, ?_, ?_, ?_, ?_⟩ <;>
    simp [VoteGraph.new, lookupE, bnum, edgeList]

/-! ## The `append` path of `insert` -/

theorem mem_updateE {m : EMap} {a : Block} {f : Entry → Entry}
    (hn : (m.map Prod.fst).Nodup) {p : Block × Entry} :
    p ∈ updateE m a f ↔
      ((p ∈ m ∧ p.1 ≠ a) ∨ (∃ e, (a, e) ∈ m ∧ p = (a, f e))) := by
  induction m with
  | nil => simp [updateE]
  | cons q t ih =>
    obtain ⟨k, e⟩ := q
    simp only [List.map_cons, List.nodup_cons] at hn
    by_cases hk : k = a
    · subst hk
      simp only [updateE, if_pos rfl]
      constructor
      · intro hp
        rcases List.mem_cons.mp hp with h1 | h1
        · exact Or.inr ⟨e, List.mem_cons_self .., h1⟩
        · have hne : p.1 ≠ k := by
            intro heq
            exact hn.1 (List.mem_map.mpr ⟨p, h1, heq⟩)
          exact Or.inl ⟨List.mem_cons_of_mem _ h1, hne⟩
      · intro hp
        rcases hp with ⟨h1, h2⟩ | ⟨e', h1, h2⟩
        · rcases List.mem_cons.mp h1 with h3 | h3
          · exact absurd (congrArg Prod.fst h3) h2
          · exact List.mem_cons_of_mem _ h3
        · rcases List.mem_cons.mp h1 with h3 | h3
          · cases h3
            rw [h2]
            exact List.mem_cons_self ..
          · exact absurd (List.mem_map.mpr ⟨(k, e'), h3, rfl⟩) hn.1
    · simp only [updateE, if_neg hk]
      constructor
      · intro hp
        rcases List.mem_cons.mp hp with h1 | h1
        · exact Or.inl ⟨by rw [h1]; exact List.mem_cons_self .., by rw [h1]; exact hk⟩
        · rcases (ih hn.2).mp h1 with ⟨h2, h3⟩ | ⟨e', h2, h3⟩
          · exact Or.inl ⟨List.mem_cons_of_mem _ h2, h3⟩
          · exact Or.inr ⟨e', List.mem_cons_of_mem _ h2, h3⟩
      · intro hp
        rcases hp with ⟨h1, h2⟩ | ⟨e', h1, h2⟩
        · rcases List.mem_cons.mp h1 with h3 | h3
          · rw [h3]; exact List.mem_cons_self ..
          · exact List.mem_cons_of_mem _ ((ih hn.2).mpr (Or.inl ⟨h3, h2⟩))
        · rcases List.mem_cons.mp h1 with h3 | h3
          · cases h3; exact absurd rfl hk
          · exact List.mem_cons_of_mem _ ((ih hn.2).mpr (Or.inr ⟨e', h3, h2⟩))

theorem prefix_take_eq {base h : Block} (hpre : base <+: h) :
    h.take base.length = base :=
  (List.prefix_iff_eq_take.mp hpre).symm

theorem firstEntryIndex_none {m : EMap} :
    ∀ {l : List Block}, firstEntryIndex m l = none → ∀ x ∈ l, x ∉ m.map Prod.fst := by
  intro l
  induction l with
  | nil => intro _ x hx; cases hx
  | cons b t ih =>
    intro hf x hx
    unfold firstEntryIndex at hf
    by_cases hb : (lookupE m b).isSome
    · rw [if_pos hb] at hf; cases hf
    · rw [if_neg hb] at hf
      rcases List.mem_cons.mp hx with h1 | h1
      · rw [h1, ← lookupE_isSome_iff]
        exact fun hc => hb hc
      · cases ht : firstEntryIndex m t with
        | none => exact ih ht x h1
        | some j => rw [ht] at hf; cases hf

theorem firstEntryIndex_some {m : EMap} :
    ∀ {l : List Block} {i : Nat}, firstEntryIndex m l = some i →
      ∃ a, l.get? i = some a ∧ a ∈ m.map Prod.fst ∧
        ∀ j, j < i → ∀ b, l.get? j = some b → b ∉ m.map Prod.fst := by
  intro l
  induction l with
  | nil => intro i h; cases h
  | cons b t ih =>
    intro i hf
    unfold firstEntryIndex at hf
    by_cases hb : (lookupE m b).isSome
    · rw [if_pos hb] at hf
      cases hf
      exact ⟨b, rfl, lookupE_isSome_iff.mp hb, fun j hj => by omega⟩
    · rw [if_neg hb] at hf
      cases ht : firstEntryIndex m t with
      | none => rw [ht] at hf; cases hf
      | some j =>
        rw [ht] at hf
        simp only [Option.map_some', Option.some.injEq] at hf
        obtain ⟨a, h1, h2, h3⟩ := ih ht
        refine ⟨a, ?_, h2, ?_⟩
        · rw [← hf]; exact h1
        · intro j' hj' b' hb'
          cases j' with
          | zero =>
            simp only [List.get?_cons_zero, Option.some.injEq] at hb'
            rw [← hb', ← lookupE_isSome_iff]
            exact fun hc => hb hc
          | succ j'' =>
            simp only [List.get?_cons_succ] at hb'
            exact h3 j'' (by omega) b' hb'

/-- The construction performed by `append` on the canonical chain:
a fresh entry at `h` whose edge reaches down to the nearest existing
vote-node `a` (the longest proper prefix of `h` that is a key). -/
theorem append_construct {g : VoteGraph} (hWF : WF g) {h : Block}
    (_hkey : h ∉ g.keys) (hpre : g.base <+: h) (hneq : h ≠ g.base) :
    ∃ (g' : VoteGraph) (i : Nat),
      g.append h h.length treeAncestry = some (some g') ∧
      i + 1 ≤ h.length - g.base.length ∧ ancKey h (i + 1) ∈ g.keys ∧
      (∀ t, h.length - i - 1 < t → t < h.length → h.take t ∉ g.keys) ∧
      g'.entries = (h, { number := h.length, ancestors := edgeList h (i + 1),
                         descendents := [], cumulative_vote := 0 }) ::
        updateE g.entries (ancKey h (i + 1))
          (fun e => { e with descendents := e.descendents ++ [h] }) ∧
      g'.heads = (g.heads.filter (· ≠ ancKey h (i + 1))) ++ [h] ∧
      g'.base = g.base := by
  have hlen : g.base.length < h.length := by
    rcases List.prefix_iff_eq_take.mp hpre with hb
    rcases Nat.lt_or_ge g.base.length h.length with h1 | h1
    · exact h1
    · exfalso
      apply hneq
      have : h.length ≤ g.base.length := h1
      have h2 := hpre.length_le
      have h3 : g.base.length = h.length := by omega
      rw [hb, h3, List.take_length]
  have hanc : treeAncestry g.base h = some (edgeList h (h.length - g.base.length)) := by
    unfold treeAncestry
    rw [if_pos ⟨hpre, fun hc => hneq hc.symm⟩, ancestryTo_eq _ _ (by omega)]
  have hbase_at : (edgeList h (h.length - g.base.length)).get?
      (h.length - g.base.length - 1) = some g.base := by
    rw [edgeList_get?, if_pos (by omega)]
    have : h.length - (h.length - g.base.length - 1) - 1 = g.base.length := by omega
    rw [this, prefix_take_eq hpre]
  have hbasek : g.base ∈ g.keys := by
    have := hWF.base_entry
    cases hb : lookupE g.entries g.base with
    | none => rw [hb] at this; cases this
    | some e => rw [keys_eq, ← lookupE_isSome_iff, hb]; rfl
  have hsome : (firstEntryIndex g.entries (edgeList h (h.length - g.base.length))).isSome := by
    cases hf : firstEntryIndex g.entries (edgeList h (h.length - g.base.length)) with
    | some i => rfl
    | none =>
      exfalso
      have := firstEntryIndex_none hf g.base (by
        have := hbase_at
        exact List.get?_mem this)
      exact this hbasek
  obtain ⟨i, hi⟩ := Option.isSome_iff_exists.mp hsome
  obtain ⟨a, hga, hak, hmin⟩ := firstEntryIndex_some hi
  have hiM : i < h.length - g.base.length := by
    have := hga
    rw [edgeList_get?] at this
    by_cases hc : i < h.length - g.base.length
    · exact hc
    · rw [if_neg hc] at this; cases this
  have haval : a = ancKey h (i + 1) := by
    have hga' := hga
    rw [edgeList_get?, if_pos hiM] at hga'
    simp only [Option.some.injEq] at hga'
    rw [← hga']
    unfold ancKey
    congr 1
  refine ⟨{ entries := (h, { number := h.length, ancestors := edgeList h (i + 1),
                             descendents := [], cumulative_vote := 0 }) ::
              updateE g.entries (ancKey h (i + 1))
                (fun e => { e with descendents := e.descendents ++ [h] }),
            heads := (g.heads.filter (· ≠ ancKey h (i + 1))) ++ [h],
            base := g.base },
    i, ?_, by omega, by rw [← haval]; exact hak, ?_, rfl, rfl, rfl⟩
  · simp only [VoteGraph.append, hanc, hi, hga, Option.some.injEq]
    rw [edgeList_take _ _ _ (by omega), haval]
  · intro t ht1 ht2
    have hj : h.length - t - 1 < i := by omega
    have := hmin (h.length - t - 1) hj (h.take t) (by
      rw [edgeList_get?, if_pos (by omega)]
      congr 2
      omega)
    exact this

theorem not_in_edge_interior {g : VoteGraph} (hWF : WF g) {h : Block}
    (hnc : ∀ x, ¬ containsBlock g.entries h h.length x)
    {k : Block} {e : Entry} (hl : lookupE g.entries k = some e) :
    h ∉ e.ancestors.dropLast := by
  intro hmem
  obtain ⟨_hn, hp, hsh, _hlen⟩ := hWF.entry_facts hl
  rw [hsh, edgeList_dropLast] at hmem
  have hb : g.base.length ≤ k.length := hp.length_le
  obtain ⟨heq, h1, h2⟩ := edgeList_mem_length (by omega) hmem
  apply hnc k
  exact ⟨e, hl, (hWF.inDirectAncestry_eq_some_true hl).mpr ⟨by omega, by omega, heq.symm⟩⟩

theorem WF.desc_mem_keys {g : VoteGraph} (hWF : WF g) {k : Block} {e : Entry}
    (hl : lookupE g.entries k = some e) {d : Block} (hd : d ∈ e.descendents) :
    d ∈ g.keys := by
  obtain ⟨ed, hed, _⟩ := hWF.child_of hl hd
  rw [keys_eq, ← lookupE_isSome_iff, hed]
  rfl

theorem WF.base_mem_keys {g : VoteGraph} (hWF : WF g) : g.base ∈ g.keys := by
  have := hWF.base_entry
  cases hb : lookupE g.entries g.base with
  | none => rw [hb] at this; cases this
  | some e => rw [keys_eq, ← lookupE_isSome_iff, hb]; rfl

/-- Well-formedness of the graph built by `append`. -/
theorem append_WF {g : VoteGraph} (hWF : WF g) {h : Block} {i : Nat}
    (hkey : h ∉ g.keys) (hpre : g.base <+: h)
    (hnc : ∀ x, ¬ containsBlock g.entries h h.length x)
    (hiM : i + 1 ≤ h.length - g.base.length)
    (hak : ancKey h (i + 1) ∈ g.keys)
    (hmin : ∀ t, h.length - i - 1 < t → t < h.length → h.take t ∉ g.keys) :
    WF { entries := (h, { number := h.length, ancestors := edgeList h (i + 1),
                          descendents := [], cumulative_vote := 0 }) ::
           updateE g.entries (ancKey h (i + 1))
             (fun e => { e with descendents := e.descendents ++ [h] }),
         heads := (g.heads.filter (· ≠ ancKey h (i + 1))) ++ [h],
         base := g.base } := by
  have hblen : g.base.length < h.length := by omega
  set a := ancKey h (i + 1) with hadef
  set newE : Entry := { number := h.length, ancestors := edgeList h (i + 1),
                        descendents := [], cumulative_vote := 0 } with hnewE
  set f : Entry → Entry := fun e => { e with descendents := e.descendents ++ [h] } with hf
  obtain ⟨ea, hea⟩ : ∃ ea, lookupE g.entries a = some ea := by
    rw [← Option.isSome_iff_exists, lookupE_isSome_iff]
    exact hak
  have hah : a ≠ h := fun hc => hkey (hc ▸ hak)
  have halen : a.length = h.length - (i + 1) := ancKey_length (by omega)
  have hapre : a <+: h := ancKey_prefix ..
  have hlook : ∀ q, lookupE ((h, newE) :: updateE g.entries a f) q =
      if h = q then some newE
      else if q = a then some (f ea) else lookupE g.entries q := by
    intro q
    by_cases hq : h = q
    · simp [lookupE, hq]
    · rw [show lookupE ((h, newE) :: updateE g.entries a f) q =
        lookupE (updateE g.entries a f) q by simp [lookupE, hq], if_neg hq]
      by_cases hq2 : q = a
      · rw [if_pos hq2, hq2, lookupE_updateE_self, hea]
        rfl
      · rw [if_neg hq2, lookupE_updateE_ne _ hq2]
  have hkeys' : ((h, newE) :: updateE g.entries a f).map Prod.fst =
      h :: g.entries.map Prod.fst := by
    simp [updateE_keys]
  have hmem' : ∀ p : Block × Entry, p ∈ (h, newE) :: updateE g.entries a f ↔
      (p = (h, newE) ∨ (p ∈ g.entries ∧ p.1 ≠ a) ∨ p = (a, f ea)) := by
    intro p
    rw [List.mem_cons, mem_updateE hWF.nodup_keys]
    constructor
    · rintro (h1 | h1 | ⟨e', h2, h3⟩)
      · exact Or.inl h1
      · exact Or.inr (Or.inl h1)
      · have : e' = ea := by
          have := mem_lookupE hWF.nodup_keys h2
          rw [hea] at this
          cases this
          rfl
        rw [this] at h3
        exact Or.inr (Or.inr h3)
    · rintro (h1 | h1 | h1)
      · exact Or.inl h1
      · exact Or.inr (Or.inl h1)
      · exact Or.inr (Or.inr ⟨ea, lookupE_mem hea, h1⟩)
  have hfa : ∀ e : Entry, (f e).ancestors = e.ancestors := fun _ => rfl
  have hfn : ∀ e : Entry, (f e).number = e.number := fun _ => rfl
  have hfd : ∀ e : Entry, (f e).descendents = e.descendents ++ [h] := fun _ => rfl
  refine ⟨?_, ?_, ?_, ?_, ?_, ?_, ?_, ?_, ?_, ?_, ?_, ?_, ?_, ?_, ?_⟩
  · rw [hkeys']
    exact List.nodup_cons.mpr ⟨by rw [← keys_eq]; exact hkey, hWF.nodup_keys⟩
  · show (lookupE _ g.base).map Entry.ancestors = some []
    rw [hlook g.base, if_neg (fun hc => hkey (by rw [hc]; exact hWF.base_mem_keys))]
    by_cases hb : g.base = a
    · rw [if_pos hb]
      have hbe := hWF.base_entry
      rw [hb, hea] at hbe
      simp only [Option.map_some', Option.some.injEq] at hbe
      simp only [Option.map_some', Option.some.injEq, hfa]
      exact hbe
    · rw [if_neg hb]
      exact hWF.base_entry
  · intro p hp
    rcases (hmem' p).mp hp with h1 | h1 | h1
    · rw [h1]; rfl
    · exact hWF.number_eq p h1.1
    · rw [h1, hfn]
      exact hWF.number_eq (a, ea) (lookupE_mem hea)
  · intro p hp
    rcases (hmem' p).mp hp with h1 | h1 | h1
    · rw [h1]; exact hpre
    · exact hWF.base_prefix p h1.1
    · rw [h1]; exact hWF.base_prefix (a, ea) (lookupE_mem hea)
  · intro p hp
    rcases (hmem' p).mp hp with h1 | h1 | h1
    · rw [h1]
      show newE.ancestors = edgeList h newE.ancestors.length
      rw [hnewE]
      simp [edgeList_length]
    · exact hWF.edge_shape p h1.1
    · rw [h1]
      show (f ea).ancestors = edgeList a (f ea).ancestors.length
      rw [hfa]
      exact hWF.edge_shape (a, ea) (lookupE_mem hea)
  · intro p hp
    rcases (hmem' p).mp hp with h1 | h1 | h1
    · rw [h1]
      show newE.ancestors.length ≤ h.length - g.base.length
      rw [hnewE]
      simp only [edgeList_length]
      omega
    · exact hWF.edge_len p h1.1
    · rw [h1]
      show (f ea).ancestors.length ≤ a.length - g.base.length
      rw [hfa]
      exact hWF.edge_len (a, ea) (lookupE_mem hea)
  · intro p hp hb
    rcases (hmem' p).mp hp with h1 | h1 | h1
    · rw [h1]
      show newE.ancestors ≠ []
      rw [hnewE]
      simp only [ne_eq]
      intro hc
      have := congrArg List.length hc
      rw [edgeList_length] at this
      simp at this
    · exact hWF.nonbase_edge p h1.1 hb
    · rw [h1]
      rw [h1] at hb
      show (f ea).ancestors ≠ []
      rw [hfa]
      exact hWF.nonbase_edge (a, ea) (lookupE_mem hea) hb
  · intro p hp hne
    rw [hkeys']
    rcases (hmem' p).mp hp with h1 | h1 | h1
    · rw [h1]
      show ancKey h newE.ancestors.length ∈ _
      rw [hnewE]
      simp only [edgeList_length]
      exact List.mem_cons_of_mem _ hak
    · exact List.mem_cons_of_mem _ (hWF.last_key p h1.1 hne)
    · rw [h1]
      rw [h1] at hne
      exact List.mem_cons_of_mem _ (hWF.last_key (a, ea) (lookupE_mem hea) hne)
  · intro p hp x hx
    rw [hkeys']
    rcases (hmem' p).mp hp with h1 | h1 | h1
    · rw [h1] at hx
      replace hx : x ∈ newE.ancestors.dropLast := hx
      rw [hnewE] at hx
      simp only [edgeList_dropLast] at hx
      obtain ⟨j, hj, rfl⟩ := mem_edgeList.mp hx
      intro hcx
      rcases List.mem_cons.mp hcx with h2 | h2
      · have := congrArg List.length h2
        rw [List.length_take_of_le (by omega)] at this
        omega
      · exact hmin (h.length - j - 1) (by omega) (by omega) (by rw [keys_eq]; exact h2)
    · have hlp := mem_lookupE hWF.nodup_keys h1.1
      intro hcx
      rcases List.mem_cons.mp hcx with h2 | h2
      · exact not_in_edge_interior hWF hnc hlp (h2 ▸ hx)
      · exact hWF.interior_nonkey p h1.1 x hx h2
    · rw [h1] at hx
      replace hx : x ∈ (f ea).ancestors.dropLast := hx
      rw [hfa] at hx
      intro hcx
      rcases List.mem_cons.mp hcx with h2 | h2
      · exact not_in_edge_interior hWF hnc hea (h2 ▸ hx)
      · exact hWF.interior_nonkey (a, ea) (lookupE_mem hea) x hx h2
  · -- desc_parent
    have hanc2 : ∀ q, q ≠ h →
        (lookupE ((h, newE) :: updateE g.entries a f) q).map Entry.ancestorNode =
        (lookupE g.entries q).map Entry.ancestorNode := by
      intro q hq
      rw [hlook q, if_neg (fun hc => hq hc.symm)]
      by_cases hq2 : q = a
      · rw [if_pos hq2, hq2, hea]
        rfl
      · rw [if_neg hq2]
    intro p hp d hd
    rcases (hmem' p).mp hp with h1 | h1 | h1
    · rw [h1] at hd
      cases hd
    · have hlp := mem_lookupE hWF.nodup_keys h1.1
      have hdk := hWF.desc_mem_keys hlp hd
      have hdh : d ≠ h := fun hc => hkey (hc ▸ hdk)
      rw [hanc2 d hdh]
      exact hWF.desc_parent p h1.1 d hd
    · rw [h1] at hd
      replace hd : d ∈ ea.descendents ++ [h] := hd
      rcases List.mem_append.mp hd with h2 | h2
      · have hdk := hWF.desc_mem_keys hea h2
        have hdh : d ≠ h := fun hc => hkey (hc ▸ hdk)
        rw [hanc2 d hdh, h1]
        exact hWF.desc_parent (a, ea) (lookupE_mem hea) d h2
      · have hdh : d = h := by simpa using h2
        rw [hdh, hlook h, if_pos rfl, h1]
        show some newE.ancestorNode = some (some a)
        rw [hnewE]
        show some (edgeList h (i + 1)).getLast? = some (some a)
        rw [edgeList_getLast? _ (by omega)]
  · -- parent_desc
    intro p hp hne
    rcases (hmem' p).mp hp with h1 | h1 | h1
    · rw [h1]
      show (lookupE _ (ancKey h newE.ancestors.length)).map
        (fun e => decide (h ∈ e.descendents)) = some true
      rw [hnewE]
      simp only [edgeList_length]
      rw [hlook a, if_neg (fun hc => hah hc.symm), if_pos rfl]
      simp [hfd]
    · have hlp := mem_lookupE hWF.nodup_keys h1.1
      have hq := hWF.last_key p h1.1 hne
      have hqh : ancKey p.1 p.2.ancestors.length ≠ h := fun hc =>
        hkey (hc ▸ (by rw [keys_eq]; exact hq))
      have hold := hWF.parent_desc p h1.1 hne
      rw [hlook _, if_neg (fun hc => hqh hc.symm)]
      by_cases hq2 : ancKey p.1 p.2.ancestors.length = a
      · rw [if_pos hq2]
        rw [hq2, hea] at hold
        simp only [Option.map_some', Option.some.injEq, decide_eq_true_eq] at hold
        simp only [Option.map_some', Option.some.injEq, decide_eq_true_eq, hfd]
        exact List.mem_append.mpr (Or.inl hold)
      · rw [if_neg hq2]
        exact hold
    · rw [h1]
      rw [h1] at hne
      replace hne : (f ea).ancestors ≠ [] := hne
      rw [hfa] at hne
      show (lookupE _ (ancKey a (f ea).ancestors.length)).map
        (fun e => decide (a ∈ e.descendents)) = some true
      rw [hfa]
      have hq := hWF.last_key (a, ea) (lookupE_mem hea) hne
      have hqh : ancKey a ea.ancestors.length ≠ h := fun hc =>
        hkey (hc ▸ (by rw [keys_eq]; exact hq))
      have hold := hWF.parent_desc (a, ea) (lookupE_mem hea) hne
      rw [hlook _, if_neg (fun hc => hqh hc.symm)]
      have hqa : ancKey a ea.ancestors.length ≠ a := by
        intro hc
        have h2 := hWF.entry_facts hea
        have hlen2 := congrArg List.length hc
        rw [ancKey_length (by
          have := h2.2.2.2
          have := h2.2.1.length_le
          omega)] at hlen2
        have h3 := hWF.nonbase_edge (a, ea) (lookupE_mem hea)
        by_cases hb2 : a = g.base
        · have := hWF.base_entry
          rw [← hb2, hea] at this
          simp only [Option.map_some', Option.some.injEq] at this
          exact hne this
        · have := h3 hb2
          have h4 : 0 < ea.ancestors.length := List.length_pos.mpr this
          omega
      rw [if_neg hqa]
      exact hold
  · -- desc_nodup
    intro p hp
    rcases (hmem' p).mp hp with h1 | h1 | h1
    · rw [h1]; exact List.nodup_nil
    · exact hWF.desc_nodup p h1.1
    · rw [h1, hfd]
      rw [List.nodup_append]
      refine ⟨hWF.desc_nodup (a, ea) (lookupE_mem hea), List.nodup_singleton _, ?_⟩
      intro x hx hx2
      have : x = h := by simpa using hx2
      exact hkey (this ▸ hWF.desc_mem_keys hea hx)
  · -- heads_sub
    intro k hk
    rcases List.mem_append.mp hk with h1 | h1
    · have h2 := List.mem_filter.mp h1
      have hka : k ≠ a := by simpa using h2.2
      have hold := hWF.heads_sub k h2.1
      have hkk : k ∈ g.keys := by
        cases hl : lookupE g.entries k with
        | none => rw [hl] at hold; cases hold
        | some e => rw [keys_eq, ← lookupE_isSome_iff, hl]; rfl
      have hkh : k ≠ h := fun hc => hkey (hc ▸ hkk)
      rw [hlook k, if_neg (fun hc => hkh hc.symm), if_neg hka]
      exact hold
    · have : k = h := by simpa using h1
      rw [this, hlook h, if_pos rfl]
      rfl
  · -- heads_complete
    intro p hp hd
    rcases (hmem' p).mp hp with h1 | h1 | h1
    · rw [h1]
      exact List.mem_append.mpr (Or.inr (List.mem_singleton.mpr rfl))
    · have hold := hWF.heads_complete p h1.1 hd
      exact List.mem_append.mpr (Or.inl (List.mem_filter.mpr ⟨hold, by simpa using h1.2⟩))
    · exfalso
      rw [h1] at hd
      replace hd : (f ea).descendents = [] := hd
      rw [hfd] at hd
      simp at hd
  · -- heads_nodup
    rw [List.nodup_append]
    refine ⟨hWF.heads_nodup.filter _, List.nodup_singleton _, ?_⟩
    intro x hx hx2
    have hxh : x = h := by simpa using hx2
    have hxk : x ∈ g.heads := (List.mem_filter.mp hx).1
    have : x ∈ g.keys := by
      have hold := hWF.heads_sub x hxk
      cases hl : lookupE g.entries x with
      | none => rw [hl] at hold; cases hold
      | some e => rw [keys_eq, ← lookupE_isSome_iff, hl]; rfl
    exact hkey (hxh ▸ this)

/-! ## The `introduce_branch` path of `insert` -/

/-- Per-member facts for a node whose edge holds `(h, |h|)`. -/
theorem containing_member_facts {g : VoteGraph} (hWF : WF g) {h : Block}
    (hkey : h ∉ g.keys) {d : Block} (hd : containsBlock g.entries h h.length d) :
    ∃ ed, lookupE g.entries d = some ed ∧
      h.length < d.length ∧ d.take h.length = h ∧
      1 ≤ ed.ancestors.length ∧
      d.length - ed.ancestors.length < h.length ∧
      h.take (d.length - ed.ancestors.length) ∈ g.keys ∧
      (∀ j, d.length - ed.ancestors.length < j → j < h.length → h.take j ∉ g.keys) := by
  obtain ⟨ed, hed, hin⟩ := hd
  obtain ⟨hb1, hb2, hb3⟩ := (hWF.inDirectAncestry_eq_some_true hed).mp hin
  obtain ⟨hn, hp, hsh, hlen⟩ := hWF.entry_facts hed
  have hbase : g.base.length ≤ d.length := hp.length_le
  have hm1 : 1 ≤ ed.ancestors.length := by omega
  have hlast : ancKey d ed.ancestors.length ∈ g.entries.map Prod.fst :=
    hWF.last_key (d, ed) (lookupE_mem hed) (by
      intro hc
      rw [hc] at hm1
      simp at hm1)
  have htake : ∀ j, j ≤ h.length → d.take j = h.take j := by
    intro j hj
    rw [← hb3, take_take_prefix hj]
  have hbd : d.length - ed.ancestors.length ≠ h.length := by
    intro hc
    apply hkey
    have := hlast
    unfold ancKey at this
    rw [show d.length - ed.ancestors.length = h.length from hc] at this
    rw [htake h.length (le_refl _), List.take_length] at this
    rw [keys_eq]
    exact this
  refine ⟨ed, hed, hb2, hb3, hm1, by omega, ?_, ?_⟩
  · have := hlast
    unfold ancKey at this
    rw [htake _ (by omega)] at this
    rw [keys_eq]
    exact this
  · intro j hj1 hj2 hjk
    have hmem : h.take j ∈ ed.ancestors.dropLast := by
      rw [hsh, edgeList_dropLast, mem_edgeList]
      refine ⟨d.length - j - 1, by omega, ?_⟩
      rw [show d.length - (d.length - j - 1) - 1 = j by omega]
      exact (htake j (by omega)).symm
    exact hWF.interior_nonkey (d, ed) (lookupE_mem hed) _ hmem (by rw [← keys_eq]; exact hjk)

/-- All containing nodes share the same edge-bottom: the nearest existing
vote-node strictly below `h` on its chain. -/
theorem containing_uniform {g : VoteGraph} (hWF : WF g) {h : Block}
    (hkey : h ∉ g.keys) {C : List Block}
    (hC : ∀ x, x ∈ C ↔ containsBlock g.entries h h.length x) (hne : C ≠ []) :
    ∃ b, b < h.length ∧ h.take b ∈ g.keys ∧
      (∀ j, b < j → j < h.length → h.take j ∉ g.keys) ∧
      (∀ d ∈ C, ∃ ed, lookupE g.entries d = some ed ∧
        h.length < d.length ∧ d.take h.length = h ∧ 1 ≤ ed.ancestors.length ∧
        d.length - ed.ancestors.length = b) := by
  obtain ⟨d0, hd0⟩ : ∃ d0, d0 ∈ C := by
    cases C with
    | nil => exact absurd rfl hne
    | cons x t => exact ⟨x, List.mem_cons_self ..⟩
  obtain ⟨e0, he0, hl0, ht0, hm0, hb0, hk0, hmin0⟩ :=
    containing_member_facts hWF hkey ((hC d0).mp hd0)
  refine ⟨d0.length - e0.ancestors.length, hb0, hk0, hmin0, ?_⟩
  intro d hd
  obtain ⟨ed, hed, hl, ht, hm, hb, hk, hmin⟩ :=
    containing_member_facts hWF hkey ((hC d).mp hd)
  refine ⟨ed, hed, hl, ht, hm, ?_⟩
  rcases Nat.lt_trichotomy (d.length - ed.ancestors.length)
      (d0.length - e0.ancestors.length) with hlt | heq | hgt
  · exact absurd hk0 (hmin _ hlt hb0)
  · exact heq
  · exact absurd hk (hmin0 _ hgt hb)

/-- `updateE` only evaluates its update function at the stored entry. -/
theorem updateE_eq_of_lookup {k : Block} {e : Entry} {f f' : Entry → Entry}
    (hf : f e = f' e) {m : EMap} (hl : lookupE m k = some e) :
    updateE m k f = updateE m k f' := by
  induction m with
  | nil => rfl
  | cons p t ih =>
    obtain ⟨a, ea⟩ := p
    simp only [lookupE] at hl
    simp only [updateE]
    by_cases ha : a = k
    · rw [if_pos ha] at hl
      have : ea = e := Option.some.inj hl
      subst this
      rw [if_pos ha, if_pos ha, hf]
    · rw [if_neg ha] at hl
      rw [if_neg ha, if_neg ha, ih hl]

/-- Truncating the containing nodes preserves the key list. -/
theorem truncAll_keys (n : Nat) (C : List Block) :
    ∀ m : EMap, (truncAll n m C).map Prod.fst = m.map Prod.fst := by
  induction C with
  | nil => intro m; rfl
  | cons d rest ih =>
    intro m
    rw [show truncAll n m (d :: rest) = truncAll n (updateE m d (truncTo n)) rest from rfl,
      ih, updateE_keys]

/-- Lookup through the truncation of a duplicate-free containing set. -/
theorem lookup_truncAll (n : Nat) (q : Block) :
    ∀ C : List Block, C.Nodup → ∀ m : EMap,
      lookupE (truncAll n m C) q =
        if q ∈ C then (lookupE m q).map (truncTo n) else lookupE m q
  | [], _, m => by simp [truncAll]
  | d :: rest, hnd, m => by
    rw [show truncAll n m (d :: rest) = truncAll n (updateE m d (truncTo n)) rest from rfl,
      lookup_truncAll n q rest hnd.of_cons (updateE m d (truncTo n))]
    by_cases hq : q = d
    · subst hq
      have hnotin : q ∉ rest := (List.nodup_cons.mp hnd).1
      rw [if_neg hnotin, if_pos (List.mem_cons_self ..), lookupE_updateE_self]
    · rw [lookupE_updateE_ne _ hq]
      by_cases hqr : q ∈ rest
      · rw [if_pos hqr, if_pos (List.mem_cons_of_mem _ hqr)]
      · rw [if_neg hqr, if_neg (by simp [hq, hqr])]

/-- Updating a node outside the list does not change the vote sum. -/
theorem sumCum_updateE_notmem {d : Block} {rest : List Block} (hd : d ∉ rest)
    (m : EMap) (f : Entry → Entry) :
    sumCum (updateE m d f) rest = sumCum m rest := by
  unfold sumCum
  congr 1
  apply List.map_congr_left
  intro x hx
  rw [lookupE_updateE_ne _ (fun hc : x = d => hd (hc ▸ hx))]

/-- The `introduce_branch` fold with a nonempty accumulator: each containing
node is truncated, appended to the accumulated descendents, and its
cumulative vote added. -/
theorem branchFold_some (n : Nat) :
    ∀ C : List Block, C.Nodup → ∀ (m : EMap) (ne : Entry) (pa : Option Block),
      (∀ d ∈ C, (lookupE m d).isSome) →
      C.foldl (branchStep n) (m, some (ne, pa)) =
        (truncAll n m C,
         some ({ ne with
                  descendents := ne.descendents ++ C
                  cumulative_vote := ne.cumulative_vote + sumCum m C }, pa))
  | [], _, m, ne, pa, _ => by simp [truncAll, sumCum]
  | d :: rest, hnd, m, ne, pa, hlk => by
    obtain ⟨ed, hed⟩ := Option.isSome_iff_exists.mp (hlk d (List.mem_cons_self ..))
    have hupd : updateE m d (fun e => { e with ancestors := e.ancestors.take (ed.number - n) })
        = updateE m d (truncTo n) := by
      apply updateE_eq_of_lookup _ hed
      rfl
    have hstep : branchStep n (m, some (ne, pa)) d =
        (updateE m d (truncTo n),
         some ({ ne with
                  descendents := ne.descendents ++ [d]
                  cumulative_vote := ne.cumulative_vote + ed.cumulative_vote }, pa)) := by
      simp only [branchStep, hed, hupd]
    have hdr : d ∉ rest := (List.nodup_cons.mp hnd).1
    rw [List.foldl_cons, hstep,
      branchFold_some n rest hnd.of_cons (updateE m d (truncTo n)) _ pa (fun x hx => by
        rw [lookupE_updateE_ne _ (fun hc : x = d => hdr (hc ▸ hx))]
        exact hlk x (List.mem_cons_of_mem _ hx))]
    rw [show truncAll n m (d :: rest) = truncAll n (updateE m d (truncTo n)) rest from rfl]
    rw [sumCum_updateE_notmem hdr]
    simp [sumCum, hed, Nat.add_assoc]

theorem truncAll_cons (n : Nat) (m : EMap) (d : Block) (C : List Block) :
    truncAll n m (d :: C) = truncAll n (updateE m d (truncTo n)) C := rfl

/-- Structure of `introduce_branch` on the containing set of a missing
block `h` at height `|h|`: the graph gains the entry for `h` with its edge
running down to the shared bottom `p = h.take b`, descendents `C` and the
summed cumulative vote; each containing node's edge is truncated at `h`;
`p`'s descendents are rewired to drop `C` and gain `h`.  Heads and base
are unchanged. -/
theorem introduceBranch_spec {g : VoteGraph} (hWF : WF g) {h : Block}
    (hkey : h ∉ g.keys) {C : List Block} (hCn : C.Nodup)
    (hC : ∀ x, x ∈ C ↔ containsBlock g.entries h h.length x) (hne : C ≠ []) :
    ∃ b, b < h.length ∧ h.take b ∈ g.keys ∧
      (∀ j, b < j → j < h.length → h.take j ∉ g.keys) ∧
      (∀ d ∈ C, ∃ ed, lookupE g.entries d = some ed ∧
        h.length < d.length ∧ d.take h.length = h ∧ 1 ≤ ed.ancestors.length ∧
        d.length - ed.ancestors.length = b) ∧
      g.introduceBranch C h h.length =
        { entries := (h,
            { number := h.length
              ancestors := edgeList h (h.length - b)
              descendents := C
              cumulative_vote := sumCum g.entries C }) ::
            updateE (truncAll h.length g.entries C) (h.take b) (fun e =>
              { e with descendents := (e.descendents.filter (fun x => x ∉ C)) ++ [h] })
          heads := g.heads
          base := g.base } := by
  obtain ⟨b, hb, hpk, hmin, hmem⟩ := containing_uniform hWF hkey hC hne
  refine ⟨b, hb, hpk, hmin, hmem, ?_⟩
  cases C with
  | nil => exact absurd rfl hne
  | cons d0 rest =>
    obtain ⟨e0, he0, hl0, ht0, hm0, hb0⟩ := hmem d0 (List.mem_cons_self ..)
    obtain ⟨hn0, hpre0, hsh0, hel0⟩ := hWF.entry_facts he0
    have hbl : g.base.length ≤ d0.length := hpre0.length_le
    have hanc : e0.ancestors.drop (e0.number - h.length) = edgeList h (h.length - b) := by
      rw [hn0, hsh0]
      rw [edgeList_drop (show h.length = d0.length - (d0.length - h.length) by omega)
        (by omega) (by omega)]
      rw [ht0]
      congr 1
      omega
    have hpa : e0.ancestorNode = some (h.take b) := by
      rw [hWF.ancestorNode_eq he0, if_neg (by omega)]
      congr 1
      unfold ancKey
      rw [show d0.length - e0.ancestors.length = b by omega]
      rw [← ht0, take_take_prefix (le_of_lt hb)]
    have hupd0 : updateE g.entries d0
          (fun e => { e with ancestors := e.ancestors.take (e0.number - h.length) })
        = updateE g.entries d0 (truncTo h.length) := by
      apply updateE_eq_of_lookup _ he0
      rfl
    have hstep : branchStep h.length (g.entries, none) d0 =
        (updateE g.entries d0 (truncTo h.length),
         some ({ number := h.length
                 ancestors := edgeList h (h.length - b)
                 descendents := [d0]
                 cumulative_vote := e0.cumulative_vote }, some (h.take b))) := by
      simp only [branchStep, he0, hupd0, hanc, hpa, List.nil_append, Nat.zero_add]
    have hlk1 : ∀ x ∈ rest, (lookupE (updateE g.entries d0 (truncTo h.length)) x).isSome := by
      intro x hx
      have hxd0 : x ≠ d0 := fun hc => (List.nodup_cons.mp hCn).1 (hc ▸ hx)
      rw [lookupE_updateE_ne _ hxd0]
      obtain ⟨ex, hex, -⟩ := hmem x (List.mem_cons_of_mem _ hx)
      rw [hex]
      rfl
    have hfold := branchFold_some h.length rest hCn.of_cons
      (updateE g.entries d0 (truncTo h.length))
      { number := h.length
        ancestors := edgeList h (h.length - b)
        descendents := [d0]
        cumulative_vote := e0.cumulative_vote } (some (h.take b)) hlk1
    have hsum : e0.cumulative_vote + sumCum (updateE g.entries d0 (truncTo h.length)) rest
        = sumCum g.entries (d0 :: rest) := by
      rw [sumCum_updateE_notmem (List.nodup_cons.mp hCn).1]
      simp [sumCum, he0]
    simp only [VoteGraph.introduceBranch, List.foldl_cons, hstep, hfold]
    rw [← truncAll_cons]
    simp only [List.singleton_append, hsum]


/-- Well-formedness is preserved by the `introduce_branch` restructuring. -/
theorem branchResult_WF {g : VoteGraph} (hWF : WF g) {h : Block} {b : Nat}
    (hkey : h ∉ g.keys) {C : List Block} (hCn : C.Nodup) (hne : C ≠ [])
    (hC : ∀ x, x ∈ C ↔ containsBlock g.entries h h.length x)
    (hb : b < h.length) (hpk : h.take b ∈ g.keys)
    (hmin : ∀ j, b < j → j < h.length → h.take j ∉ g.keys)
    (hmem : ∀ d ∈ C, ∃ ed, lookupE g.entries d = some ed ∧
      h.length < d.length ∧ d.take h.length = h ∧ 1 ≤ ed.ancestors.length ∧
      d.length - ed.ancestors.length = b) :
    WF { entries := (h,
            { number := h.length
              ancestors := edgeList h (h.length - b)
              descendents := C
              cumulative_vote := sumCum g.entries C }) ::
          updateE (truncAll h.length g.entries C) (h.take b) (fun e =>
            { e with descendents := (e.descendents.filter (fun x => x ∉ C)) ++ [h] })
         heads := g.heads
         base := g.base } := by
  set p := h.take b with hpdef
  set NE : Entry :=
    { number := h.length
      ancestors := edgeList h (h.length - b)
      descendents := C
      cumulative_vote := sumCum g.entries C } with hNEdef
  set f : Entry → Entry := fun e =>
    { e with descendents := (e.descendents.filter (fun x => x ∉ C)) ++ [h] } with hfdef
  set M : EMap := truncAll h.length g.entries C with hM
  obtain ⟨ep, hep⟩ : ∃ ep, lookupE g.entries p = some ep := by
    rw [← Option.isSome_iff_exists, lookupE_isSome_iff]
    exact hpk
  have hplen : p.length = b := by
    rw [hpdef, List.length_take]
    omega
  have hph : p ≠ h := by
    intro hc
    have := congrArg List.length hc
    omega
  have hpC : p ∉ C := by
    intro hc
    obtain ⟨-, -, hlt, -⟩ := hmem p hc
    omega
  have hCk : ∀ d ∈ C, d ∈ g.keys := by
    intro d hd
    obtain ⟨ed, hed, -⟩ := hmem d hd
    rw [keys_eq, ← lookupE_isSome_iff, hed]
    rfl
  have hCh : ∀ d ∈ C, d ≠ h := by
    intro d hd hc
    obtain ⟨-, -, hlt, -⟩ := hmem d hd
    rw [hc] at hlt
    omega
  have hCp : ∀ d ∈ C, d ≠ p := by
    intro d hd hc
    obtain ⟨-, -, hlt, -⟩ := hmem d hd
    rw [hc] at hlt
    omega
  obtain ⟨hnp, hprp, hshp, help⟩ := hWF.entry_facts hep
  have hblen : g.base.length ≤ b := by
    have := hprp.length_le
    omega
  have hlenle : ep.ancestors.length ≤ p.length := by omega
  have hpreh : p <+: h := by
    rw [hpdef]
    exact List.take_prefix ..
  have hbh : g.base <+: h := hprp.trans hpreh
  have hbne : g.base ≠ h := fun hc => hkey (hc ▸ hWF.base_mem_keys)
  have hbnC : g.base ∉ C := by
    intro hc
    obtain ⟨-, -, hlt, -⟩ := hmem _ hc
    omega
  have hfacts : ∀ d ∈ C, ∃ ed, lookupE g.entries d = some ed ∧
      h.length < d.length ∧ d.take h.length = h ∧
      ed.ancestors.length = d.length - b ∧
      ed.ancestorNode = some p ∧
      (truncTo h.length ed).ancestors = edgeList d (d.length - h.length) ∧
      d ∈ ep.descendents := by
    intro d hd
    obtain ⟨ed, hed, hlt, htk, hm1, hbd⟩ := hmem d hd
    obtain ⟨hnd, hprd, hshd, held⟩ := hWF.entry_facts hed
    have hbld : g.base.length ≤ d.length := hprd.length_le
    have hmd : ed.ancestors.length = d.length - b := by omega
    have hand : ed.ancestorNode = some p := by
      rw [hWF.ancestorNode_eq hed, if_neg (by omega)]
      congr 1
      unfold ancKey
      rw [hmd, show d.length - (d.length - b) = b by omega, hpdef]
      rw [← htk, take_take_prefix (le_of_lt hb)]
    have htr : (truncTo h.length ed).ancestors = edgeList d (d.length - h.length) := by
      show ed.ancestors.take (ed.number - h.length) = _
      rw [hnd, hshd, edgeList_take _ _ _ (by omega)]
    obtain ⟨-, -, -, ea, hea, hdin⟩ := hWF.parent_of hed hand
    have heq : ea = ep := by
      rw [hep] at hea
      exact (Option.some.inj hea).symm
    exact ⟨ed, hed, hlt, htk, hmd, hand, htr, heq ▸ hdin⟩
  have hlook : ∀ q, lookupE ((h, NE) :: updateE M p f) q =
      if h = q then some NE
      else if q = p then some (f ep)
      else if q ∈ C then (lookupE g.entries q).map (truncTo h.length)
      else lookupE g.entries q := by
    intro q
    by_cases hq : h = q
    · simp [lookupE, hq]
    · rw [show lookupE ((h, NE) :: updateE M p f) q =
        lookupE (updateE M p f) q by simp [lookupE, hq], if_neg hq]
      by_cases hq2 : q = p
      · rw [if_pos hq2, hq2, lookupE_updateE_self, hM,
          lookup_truncAll h.length p C hCn, if_neg hpC, hep]
        rfl
      · rw [if_neg hq2, lookupE_updateE_ne _ hq2, hM]
        exact lookup_truncAll h.length q C hCn g.entries
  have hkeys' : (((h, NE) :: updateE M p f).map Prod.fst) = h :: g.entries.map Prod.fst := by
    simp only [List.map_cons]
    rw [updateE_keys, hM, truncAll_keys]
  have hnodup' : ((((h, NE) :: updateE M p f)).map Prod.fst).Nodup := by
    rw [hkeys']
    exact List.nodup_cons.mpr ⟨by rw [← keys_eq]; exact hkey, hWF.nodup_keys⟩
  have hcase : ∀ pr : Block × Entry, pr ∈ (h, NE) :: updateE M p f →
      pr = (h, NE) ∨ pr = (p, f ep) ∨
      (∃ dd ed, pr = (dd, truncTo h.length ed) ∧ dd ∈ C ∧ lookupE g.entries dd = some ed) ∨
      (∃ dd ee, pr = (dd, ee) ∧ dd ≠ h ∧ dd ≠ p ∧ dd ∉ C ∧
        lookupE g.entries dd = some ee) := by
    intro pr hpr
    obtain ⟨a, e⟩ := pr
    have hlk : lookupE ((h, NE) :: updateE M p f) a = some e := mem_lookupE hnodup' hpr
    rw [hlook a] at hlk
    by_cases h1 : h = a
    · rw [if_pos h1] at hlk
      have h2 : e = NE := (Option.some.inj hlk).symm
      exact Or.inl (by rw [← h1, h2])
    · rw [if_neg h1] at hlk
      by_cases h2 : a = p
      · rw [if_pos h2] at hlk
        have h3 : e = f ep := (Option.some.inj hlk).symm
        exact Or.inr (Or.inl (by rw [h2, h3]))
      · rw [if_neg h2] at hlk
        by_cases h3 : a ∈ C
        · rw [if_pos h3] at hlk
          obtain ⟨ed, hed, -⟩ := hmem a h3
          rw [hed] at hlk
          simp only [Option.map_some'] at hlk
          have h4 : e = truncTo h.length ed := (Option.some.inj hlk).symm
          exact Or.inr (Or.inr (Or.inl ⟨a, ed, by rw [h4], h3, hed⟩))
        · rw [if_neg h3] at hlk
          exact Or.inr (Or.inr (Or.inr ⟨a, e, rfl, fun hc => h1 hc.symm, h2, h3, hlk⟩))
  have hfa : ∀ e : Entry, (f e).ancestors = e.ancestors := fun _ => rfl
  have hfn : ∀ e : Entry, (f e).number = e.number := fun _ => rfl
  have hfd : ∀ e : Entry,
      (f e).descendents = (e.descendents.filter (fun x => x ∉ C)) ++ [h] := fun _ => rfl
  have hta : ∀ (n : Nat) (e : Entry), (truncTo n e).number = e.number := fun _ _ => rfl
  have htd : ∀ (n : Nat) (e : Entry), (truncTo n e).descendents = e.descendents :=
    fun _ _ => rfl
  have hNEa : NE.ancestors = edgeList h (h.length - b) := rfl
  have hNEl : NE.ancestors.length = h.length - b := by rw [hNEa, edgeList_length]
  have hNEd : NE.descendents = C := rfl
  have hNEn : NE.number = h.length := rfl
  have hNEan : NE.ancestorNode = some p := by
    show NE.ancestors.getLast? = some p
    rw [hNEa, edgeList_getLast? h (by omega)]
    unfold ancKey
    rw [hpdef]
    congr 2
    omega
  have hint : ∀ x ex, lookupE g.entries x = some ex → x ∉ C → h ∉ ex.ancestors.dropLast := by
    intro x ex hex hxC hmm
    apply hxC
    rw [hC x]
    obtain ⟨hnx, hprex, hshx, helx⟩ := hWF.entry_facts hex
    have hblx : g.base.length ≤ x.length := hprex.length_le
    rw [hshx, edgeList_dropLast, mem_edgeList] at hmm
    obtain ⟨i, hi, hhe⟩ := hmm
    have hhl : h.length = x.length - i - 1 := by
      rw [hhe, List.length_take]
      omega
    refine ⟨ex, hex, (hWF.inDirectAncestry_eq_some_true hex).mpr
      ⟨by omega, by omega, ?_⟩⟩
    rw [hhl]
    exact hhe.symm
  refine ⟨?_, ?_, ?_, ?_, ?_, ?_, ?_, ?_, ?_, ?_, ?_, ?_, ?_, ?_, ?_⟩
  · exact hnodup'
  · show (lookupE _ g.base).map Entry.ancestors = some []
    rw [hlook g.base, if_neg (fun hc => hbne hc.symm)]
    by_cases hbp : g.base = p
    · rw [if_pos hbp]
      have hbe := hWF.base_entry
      rw [hbp, hep] at hbe
      simp only [Option.map_some', Option.some.injEq] at hbe
      simp only [Option.map_some', Option.some.injEq, hfa]
      exact hbe
    · rw [if_neg hbp, if_neg hbnC]
      exact hWF.base_entry
  · intro pr hpr
    rcases hcase pr hpr with h1 | h1 | ⟨dd, ed, h1, hqC, hed⟩ | ⟨dd, ee, h1, hq1, hq2, hq3, hold⟩
    · subst h1
      exact hNEn
    · subst h1
      show (f ep).number = bnum p
      rw [hfn]
      exact hWF.number_eq (p, ep) (lookupE_mem hep)
    · subst h1
      show (truncTo h.length ed).number = bnum dd
      rw [hta]
      exact hWF.number_eq (dd, ed) (lookupE_mem hed)
    · subst h1
      exact hWF.number_eq (dd, ee) (lookupE_mem hold)
  · intro pr hpr
    rcases hcase pr hpr with h1 | h1 | ⟨dd, ed, h1, hqC, hed⟩ | ⟨dd, ee, h1, hq1, hq2, hq3, hold⟩
    · subst h1
      exact hbh
    · subst h1
      exact hWF.base_prefix (p, ep) (lookupE_mem hep)
    · subst h1
      exact hWF.base_prefix (dd, ed) (lookupE_mem hed)
    · subst h1
      exact hWF.base_prefix (dd, ee) (lookupE_mem hold)
  · intro pr hpr
    rcases hcase pr hpr with h1 | h1 | ⟨dd, ed, h1, hqC, hed⟩ | ⟨dd, ee, h1, hq1, hq2, hq3, hold⟩
    · subst h1
      show NE.ancestors = edgeList h NE.ancestors.length
      rw [hNEl, hNEa]
    · subst h1
      show (f ep).ancestors = edgeList p (f ep).ancestors.length
      rw [hfa]
      exact hWF.edge_shape (p, ep) (lookupE_mem hep)
    · subst h1
      obtain ⟨ed2, hed2, hltq, htkq, hmdq, handq, htrq, hdinq⟩ := hfacts dd hqC
      have he2 : ed2 = ed := by
        rw [hed] at hed2
        exact (Option.some.inj hed2).symm
      subst he2
      show (truncTo h.length ed2).ancestors = edgeList dd (truncTo h.length ed2).ancestors.length
      rw [htrq, edgeList_length]
    · subst h1
      exact hWF.edge_shape (dd, ee) (lookupE_mem hold)
  · intro pr hpr
    rcases hcase pr hpr with h1 | h1 | ⟨dd, ed, h1, hqC, hed⟩ | ⟨dd, ee, h1, hq1, hq2, hq3, hold⟩
    · subst h1
      show NE.ancestors.length ≤ h.length - g.base.length
      rw [hNEl]
      omega
    · subst h1
      show (f ep).ancestors.length ≤ p.length - g.base.length
      rw [hfa]
      exact hWF.edge_len (p, ep) (lookupE_mem hep)
    · subst h1
      obtain ⟨ed2, hed2, hltq, htkq, hmdq, handq, htrq, hdinq⟩ := hfacts dd hqC
      have he2 : ed2 = ed := by
        rw [hed] at hed2
        exact (Option.some.inj hed2).symm
      subst he2
      show (truncTo h.length ed2).ancestors.length ≤ dd.length - g.base.length
      have hbld : g.base.length ≤ dd.length :=
        (hWF.base_prefix (dd, ed2) (lookupE_mem hed)).length_le
      rw [htrq, edgeList_length]
      omega
    · subst h1
      exact hWF.edge_len (dd, ee) (lookupE_mem hold)
  · intro pr hpr hnb
    rcases hcase pr hpr with h1 | h1 | ⟨dd, ed, h1, hqC, hed⟩ | ⟨dd, ee, h1, hq1, hq2, hq3, hold⟩
    · subst h1
      show NE.ancestors ≠ []
      rw [hNEa]
      intro hc
      have := congrArg List.length hc
      rw [edgeList_length] at this
      simp at this
      omega
    · subst h1
      show (f ep).ancestors ≠ []
      rw [hfa]
      exact hWF.nonbase_edge (p, ep) (lookupE_mem hep) hnb
    · subst h1
      obtain ⟨ed2, hed2, hltq, htkq, hmdq, handq, htrq, hdinq⟩ := hfacts dd hqC
      have he2 : ed2 = ed := by
        rw [hed] at hed2
        exact (Option.some.inj hed2).symm
      subst he2
      show (truncTo h.length ed2).ancestors ≠ []
      rw [htrq]
      intro hc
      have := congrArg List.length hc
      rw [edgeList_length] at this
      simp at this
      omega
    · subst h1
      exact hWF.nonbase_edge (dd, ee) (lookupE_mem hold) hnb
  · intro pr hpr hnE
    rw [hkeys']
    rcases hcase pr hpr with h1 | h1 | ⟨dd, ed, h1, hqC, hed⟩ | ⟨dd, ee, h1, hq1, hq2, hq3, hold⟩
    · subst h1
      show ancKey h NE.ancestors.length ∈ _
      rw [hNEl]
      apply List.mem_cons_of_mem
      have hak : ancKey h (h.length - b) = p := by
        unfold ancKey
        rw [hpdef]
        congr 1
        omega
      rw [hak, ← keys_eq]
      exact hpk
    · subst h1
      exact List.mem_cons_of_mem _ (hWF.last_key (p, ep) (lookupE_mem hep) hnE)
    · subst h1
      obtain ⟨ed2, hed2, hltq, htkq, hmdq, handq, htrq, hdinq⟩ := hfacts dd hqC
      have he2 : ed2 = ed := by
        rw [hed] at hed2
        exact (Option.some.inj hed2).symm
      subst he2
      show ancKey dd (truncTo h.length ed2).ancestors.length ∈ _
      rw [htrq, edgeList_length]
      have hak : ancKey dd (dd.length - h.length) = h := by
        unfold ancKey
        rw [show dd.length - (dd.length - h.length) = h.length by omega]
        exact htkq
      rw [hak]
      exact List.mem_cons_self ..
    · subst h1
      exact List.mem_cons_of_mem _ (hWF.last_key (dd, ee) (lookupE_mem hold) hnE)
  · intro pr hpr x hx
    rw [hkeys']
    rcases hcase pr hpr with h1 | h1 | ⟨dd, ed, h1, hqC, hed⟩ | ⟨dd, ee, h1, hq1, hq2, hq3, hold⟩
    · subst h1
      replace hx : x ∈ NE.ancestors.dropLast := hx
      rw [hNEa, edgeList_dropLast, mem_edgeList] at hx
      obtain ⟨j, hj, rfl⟩ := hx
      intro hcx
      rcases List.mem_cons.mp hcx with h2 | h2
      · have := congrArg List.length h2
        rw [List.length_take_of_le (by omega)] at this
        omega
      · exact hmin (h.length - j - 1) (by omega) (by omega) (by rw [keys_eq]; exact h2)
    · subst h1
      replace hx : x ∈ (f ep).ancestors.dropLast := hx
      rw [hfa] at hx
      intro hcx
      rcases List.mem_cons.mp hcx with h2 | h2
      · exact hint p ep hep hpC (h2 ▸ hx)
      · exact hWF.interior_nonkey (p, ep) (lookupE_mem hep) x hx h2
    · subst h1
      obtain ⟨ed2, hed2, hltq, htkq, hmdq, handq, htrq, hdinq⟩ := hfacts dd hqC
      have he2 : ed2 = ed := by
        rw [hed] at hed2
        exact (Option.some.inj hed2).symm
      subst he2
      obtain ⟨hnq, hprq, hshq, helq⟩ := hWF.entry_facts hed
      have hblq : g.base.length ≤ dd.length := hprq.length_le
      replace hx : x ∈ (truncTo h.length ed2).ancestors.dropLast := hx
      rw [htrq, edgeList_dropLast, mem_edgeList] at hx
      obtain ⟨j, hj, rfl⟩ := hx
      intro hcx
      rcases List.mem_cons.mp hcx with h2 | h2
      · have := congrArg List.length h2
        rw [List.length_take_of_le (by omega)] at this
        omega
      · have hxo : dd.take (dd.length - j - 1) ∈ ed2.ancestors.dropLast := by
          rw [hshq, edgeList_dropLast, mem_edgeList]
          exact ⟨j, by omega, rfl⟩
        exact hWF.interior_nonkey (dd, ed2) (lookupE_mem hed) _ hxo h2
    · subst h1
      intro hcx
      rcases List.mem_cons.mp hcx with h2 | h2
      · exact hint dd ee hold hq3 (h2 ▸ hx)
      · exact hWF.interior_nonkey (dd, ee) (lookupE_mem hold) x hx h2
  · intro pr hpr c hc
    rcases hcase pr hpr with h1 | h1 | ⟨dd, ed, h1, hqC, hed⟩ | ⟨dd, ee, h1, hq1, hq2, hq3, hold⟩
    · subst h1
      replace hc : c ∈ C := hc
      obtain ⟨ec, hec, hltc, htkc, hmdc, handc, htrc, hdinc⟩ := hfacts c hc
      rw [hlook c, if_neg (fun h2 => (hCh c hc) h2.symm), if_neg (hCp c hc), if_pos hc, hec]
      simp only [Option.map_some', Option.some.injEq]
      show (truncTo h.length ec).ancestors.getLast? = some h
      rw [htrc, edgeList_getLast? c (by omega)]
      unfold ancKey
      rw [show c.length - (c.length - h.length) = h.length by omega]
      rw [htkc]
    · subst h1
      replace hc : c ∈ (ep.descendents.filter (fun x => x ∉ C)) ++ [h] := hc
      rcases List.mem_append.mp hc with h2 | h2
      · have h3 := List.mem_filter.mp h2
        have hcd : c ∈ ep.descendents := h3.1
        have hcC : c ∉ C := by simpa using h3.2
        have hdp := hWF.desc_parent (p, ep) (lookupE_mem hep) c hcd
        obtain ⟨ec, hec⟩ : ∃ ec, lookupE g.entries c = some ec := by
          cases hlc : lookupE g.entries c with
          | none => rw [hlc] at hdp; cases hdp
          | some e => exact ⟨e, rfl⟩
        rw [hec] at hdp
        simp only [Option.map_some', Option.some.injEq] at hdp
        have hch : c ≠ h := fun hc2 => hkey (hc2 ▸ hWF.desc_mem_keys hep hcd)
        have hcp : c ≠ p := by
          intro hc2
          obtain ⟨-, hlen2, -, -⟩ := hWF.parent_of hec hdp
          rw [hc2] at hlen2
          omega
        rw [hlook c, if_neg (fun h4 => hch h4.symm), if_neg hcp, if_neg hcC, hec]
        simp only [Option.map_some', Option.some.injEq]
        exact hdp
      · have hch : c = h := by simpa using h2
        subst hch
        rw [hlook c, if_pos rfl]
        simp only [Option.map_some', Option.some.injEq]
        exact hNEan
    · subst h1
      obtain ⟨ed2, hed2, hltq, htkq, hmdq, handq, htrq, hdinq⟩ := hfacts dd hqC
      have he2 : ed2 = ed := by
        rw [hed] at hed2
        exact (Option.some.inj hed2).symm
      subst he2
      replace hc : c ∈ ed2.descendents := hc
      have hdp := hWF.desc_parent (dd, ed2) (lookupE_mem hed) c hc
      obtain ⟨ec, hec⟩ : ∃ ec, lookupE g.entries c = some ec := by
        cases hlc : lookupE g.entries c with
        | none => rw [hlc] at hdp; cases hdp
        | some e => exact ⟨e, rfl⟩
      rw [hec] at hdp
      simp only [Option.map_some', Option.some.injEq] at hdp
      have hch : c ≠ h := fun hc2 => hkey (hc2 ▸ hWF.desc_mem_keys hed hc)
      have hcC : c ∉ C := by
        intro hc2
        obtain ⟨ec2, hec2, -, -, -, hanc2, -, -⟩ := hfacts c hc2
        have he3 : ec2 = ec := by
          rw [hec] at hec2
          exact (Option.some.inj hec2).symm
        subst he3
        rw [hdp] at hanc2
        exact hpC ((Option.some.inj hanc2) ▸ hqC)
      have hcp : c ≠ p := by
        intro hc2
        have hl2 : dd.length < c.length := (hWF.parent_of hec hdp).2.1
        rw [hc2] at hl2
        obtain ⟨-, -, hltq2, -⟩ := hmem dd hqC
        omega
      rw [hlook c, if_neg (fun h4 => hch h4.symm), if_neg hcp, if_neg hcC, hec]
      simp only [Option.map_some', Option.some.injEq]
      exact hdp
    · subst h1
      have hdp := hWF.desc_parent (dd, ee) (lookupE_mem hold) c hc
      obtain ⟨ec, hec⟩ : ∃ ec, lookupE g.entries c = some ec := by
        cases hlc : lookupE g.entries c with
        | none => rw [hlc] at hdp; cases hdp
        | some e => exact ⟨e, rfl⟩
      rw [hec] at hdp
      simp only [Option.map_some', Option.some.injEq] at hdp
      have hch : c ≠ h := fun hc2 => hkey (hc2 ▸ hWF.desc_mem_keys hold hc)
      have hcC : c ∉ C := by
        intro hc2
        obtain ⟨ec2, hec2, -, -, -, hanc2, -, -⟩ := hfacts c hc2
        have he3 : ec2 = ec := by
          rw [hec] at hec2
          exact (Option.some.inj hec2).symm
        subst he3
        rw [hdp] at hanc2
        exact hq2 (Option.some.inj hanc2)
      by_cases hcp : c = p
      · subst hcp
        rw [hlook p, if_neg (fun h4 => hch h4.symm), if_pos rfl]
        simp only [Option.map_some', Option.some.injEq]
        have he4 : ec = ep := by
          rw [hep] at hec
          exact (Option.some.inj hec).symm
        rw [he4] at hdp
        exact hdp
      · rw [hlook c, if_neg (fun h4 => hch h4.symm), if_neg hcp, if_neg hcC, hec]
        simp only [Option.map_some', Option.some.injEq]
        exact hdp
  · intro pr hpr hnE
    rcases hcase pr hpr with h1 | h1 | ⟨dd, ed, h1, hqC, hed⟩ | ⟨dd, ee, h1, hq1, hq2, hq3, hold⟩
    · subst h1
      show (lookupE _ (ancKey h NE.ancestors.length)).map _ = some true
      rw [hNEl]
      have hak : ancKey h (h.length - b) = p := by
        unfold ancKey
        rw [hpdef]
        congr 1
        omega
      rw [hak, hlook p, if_neg (fun h2 => hph h2.symm), if_pos rfl]
      simp only [Option.map_some', Option.some.injEq, decide_eq_true_eq, hfd]
      exact List.mem_append.mpr (Or.inr (List.mem_singleton.mpr rfl))
    · subst h1
      replace hnE : ep.ancestors ≠ [] := hnE
      have hpd := hWF.parent_desc (p, ep) (lookupE_mem hep) hnE
      obtain ⟨eq2, heq2⟩ : ∃ eq2,
          lookupE g.entries (ancKey p ep.ancestors.length) = some eq2 := by
        cases hlc : lookupE g.entries (ancKey p ep.ancestors.length) with
        | none => rw [hlc] at hpd; cases hpd
        | some e => exact ⟨e, rfl⟩
      rw [heq2] at hpd
      simp only [Option.map_some', Option.some.injEq, decide_eq_true_eq] at hpd
      have hqkK : ancKey p ep.ancestors.length ∈ g.keys := by
        rw [keys_eq, ← lookupE_isSome_iff, heq2]
        rfl
      have hqkh : ancKey p ep.ancestors.length ≠ h := fun hc => hkey (hc ▸ hqkK)
      have hqkl : (ancKey p ep.ancestors.length).length = p.length - ep.ancestors.length :=
        ancKey_length hlenle
      have hqkp : ancKey p ep.ancestors.length ≠ p := by
        intro hc
        have := congrArg List.length hc
        rw [hqkl] at this
        have hlen0 : ep.ancestors.length = 0 := by omega
        exact hnE (List.eq_nil_of_length_eq_zero hlen0)
      have hqkC : ancKey p ep.ancestors.length ∉ C := by
        intro hc
        obtain ⟨-, -, hlt2, -⟩ := hmem _ hc
        omega
      show (lookupE _ (ancKey p (f ep).ancestors.length)).map _ = some true
      rw [hfa, hlook _, if_neg (fun h2 => hqkh h2.symm), if_neg hqkp, if_neg hqkC, heq2]
      simp only [Option.map_some', Option.some.injEq, decide_eq_true_eq]
      exact hpd
    · subst h1
      obtain ⟨ed2, hed2, hltq, htkq, hmdq, handq, htrq, hdinq⟩ := hfacts dd hqC
      have he2 : ed2 = ed := by
        rw [hed] at hed2
        exact (Option.some.inj hed2).symm
      subst he2
      show (lookupE _ (ancKey dd (truncTo h.length ed2).ancestors.length)).map _ = some true
      rw [htrq, edgeList_length]
      have hak : ancKey dd (dd.length - h.length) = h := by
        unfold ancKey
        rw [show dd.length - (dd.length - h.length) = h.length by omega]
        exact htkq
      rw [hak, hlook h, if_pos rfl]
      simp only [Option.map_some', Option.some.injEq, decide_eq_true_eq]
      exact hqC
    · subst h1
      replace hnE : ee.ancestors ≠ [] := hnE
      have hpd := hWF.parent_desc (dd, ee) (lookupE_mem hold) hnE
      obtain ⟨eq2, heq2⟩ : ∃ eq2,
          lookupE g.entries (ancKey dd ee.ancestors.length) = some eq2 := by
        cases hlc : lookupE g.entries (ancKey dd ee.ancestors.length) with
        | none => rw [hlc] at hpd; cases hpd
        | some e => exact ⟨e, rfl⟩
      rw [heq2] at hpd
      simp only [Option.map_some', Option.some.injEq, decide_eq_true_eq] at hpd
      have hqkK : ancKey dd ee.ancestors.length ∈ g.keys := by
        rw [keys_eq, ← lookupE_isSome_iff, heq2]
        rfl
      have hqkh : ancKey dd ee.ancestors.length ≠ h := fun hc => hkey (hc ▸ hqkK)
      rw [hlook _, if_neg (fun h2 => hqkh h2.symm)]
      by_cases hqkp : ancKey dd ee.ancestors.length = p
      · rw [if_pos hqkp]
        simp only [Option.map_some', Option.some.injEq, decide_eq_true_eq, hfd]
        have he4 : eq2 = ep := by
          rw [hqkp, hep] at heq2
          exact (Option.some.inj heq2).symm
        subst he4
        refine List.mem_append.mpr (Or.inl (List.mem_filter.mpr ⟨hpd, ?_⟩))
        simpa using hq3
      · rw [if_neg hqkp]
        by_cases hqkC : ancKey dd ee.ancestors.length ∈ C
        · rw [if_pos hqkC, heq2]
          simp only [Option.map_some', Option.some.injEq, decide_eq_true_eq, htd]
          exact hpd
        · rw [if_neg hqkC, heq2]
          simp only [Option.map_some', Option.some.injEq, decide_eq_true_eq]
          exact hpd
  · intro pr hpr
    rcases hcase pr hpr with h1 | h1 | ⟨dd, ed, h1, hqC, hed⟩ | ⟨dd, ee, h1, hq1, hq2, hq3, hold⟩
    · subst h1
      exact hCn
    · subst h1
      show ((ep.descendents.filter (fun x => x ∉ C)) ++ [h]).Nodup
      rw [List.nodup_append]
      refine ⟨(hWF.desc_nodup (p, ep) (lookupE_mem hep)).filter _, List.nodup_singleton _, ?_⟩
      intro x hx hx2
      have hxh : x = h := by simpa using hx2
      subst hxh
      exact hkey (hWF.desc_mem_keys hep (List.mem_filter.mp hx).1)
    · subst h1
      show ed.descendents.Nodup
      exact hWF.desc_nodup (dd, ed) (lookupE_mem hed)
    · subst h1
      exact hWF.desc_nodup (dd, ee) (lookupE_mem hold)
  · intro k hk
    have hold := hWF.heads_sub k hk
    obtain ⟨ek, hek⟩ : ∃ ek, lookupE g.entries k = some ek := by
      cases hlc : lookupE g.entries k with
      | none => rw [hlc] at hold; cases hold
      | some e => exact ⟨e, rfl⟩
    rw [hek] at hold
    simp only [Option.map_some', Option.some.injEq] at hold
    have hkk : k ∈ g.keys := by
      rw [keys_eq, ← lookupE_isSome_iff, hek]
      rfl
    have hkh : k ≠ h := fun hc => hkey (hc ▸ hkk)
    have hkp : k ≠ p := by
      intro hc
      subst hc
      have hee : ep = ek := by
        rw [hep] at hek
        exact Option.some.inj hek
      obtain ⟨d0, hd0⟩ : ∃ d0, d0 ∈ C := by
        cases C with
        | nil => exact absurd rfl hne
        | cons x t => exact ⟨x, List.mem_cons_self ..⟩
      obtain ⟨-, -, -, -, -, -, -, hdin0⟩ := hfacts d0 hd0
      rw [← hee] at hold
      rw [hold] at hdin0
      simp at hdin0
    rw [hlook k, if_neg (fun h2 => hkh h2.symm), if_neg hkp]
    by_cases hkC : k ∈ C
    · rw [if_pos hkC, hek]
      simp only [Option.map_some', Option.some.injEq, htd]
      exact hold
    · rw [if_neg hkC, hek]
      simp only [Option.map_some', Option.some.injEq]
      exact hold
  · intro pr hpr hd
    rcases hcase pr hpr with h1 | h1 | ⟨dd, ed, h1, hqC, hed⟩ | ⟨dd, ee, h1, hq1, hq2, hq3, hold⟩
    · subst h1
      exfalso
      replace hd : NE.descendents = [] := hd
      rw [hNEd] at hd
      exact hne hd
    · subst h1
      exfalso
      replace hd : (ep.descendents.filter (fun x => x ∉ C)) ++ [h] = [] := hd
      simp at hd
    · subst h1
      replace hd : ed.descendents = [] := hd
      exact hWF.heads_complete (dd, ed) (lookupE_mem hed) hd
    · subst h1
      exact hWF.heads_complete (dd, ee) (lookupE_mem hold) hd
  · exact hWF.heads_nodup

/-- `ancIter` only depends on the vote-independent shape of the map. -/
theorem ancIter_shape {m m' : EMap} (hsh : shape m' = shape m) :
    ∀ (j : Nat) (x : Block), ancIter m' j x = ancIter m j x := by
  intro j
  induction j with
  | zero => intro x; rfl
  | succ j ih =>
    intro x
    have hl := shape_lookup hsh x
    cases h1 : lookupE m' x with
    | none =>
      rw [h1] at hl
      cases h2 : lookupE m x with
      | none => simp [ancIter, h1, h2]
      | some e => rw [h2] at hl; cases hl
    | some e =>
      rw [h1] at hl
      cases h2 : lookupE m x with
      | none => rw [h2] at hl; cases hl
      | some e2 =>
        rw [h2] at hl
        simp only [Option.map_some', Option.some.injEq, Prod.mk.injEq] at hl
        have hanc : e.ancestorNode = e2.ancestorNode := by
          unfold Entry.ancestorNode
          rw [hl.2.1]
        simp only [ancIter, h1, h2, hanc]
        cases e2.ancestorNode with
        | none => rfl
        | some a => exact ih a

/-- One `ancestor_node` step appended at the far end of an iteration. -/
theorem ancIter_succ (m : EMap) :
    ∀ (j : Nat) (x : Block), ancIter m (j + 1) x =
      (ancIter m j x).bind (fun y =>
        match lookupE m y with
        | none => none
        | some e => e.ancestorNode) := by
  intro j
  induction j with
  | zero =>
    intro x
    cases h1 : lookupE m x with
    | none => simp [ancIter, h1]
    | some e =>
      cases h2 : e.ancestorNode with
      | none => simp [ancIter, h1, h2]
      | some a => simp [ancIter, h1, h2]
  | succ j ih =>
    intro x
    cases h1 : lookupE m x with
    | none => simp [ancIter, h1]
    | some e =>
      cases h2 : e.ancestorNode with
      | none => simp [ancIter, h1, h2]
      | some a =>
        simp only [ancIter, h1, h2]
        exact ih a

/-- Splitting an iteration count. -/
theorem ancIter_add (m : EMap) :
    ∀ (j t : Nat) (x : Block), ancIter m (j + t) x = (ancIter m j x).bind (ancIter m t) := by
  intro j
  induction j with
  | zero =>
    intro t x
    rw [Nat.zero_add]
    rfl
  | succ j ih =>
    intro t x
    rw [Nat.succ_add]
    cases h1 : lookupE m x with
    | none => simp [ancIter, h1]
    | some e =>
      cases h2 : e.ancestorNode with
      | none => simp [ancIter, h1, h2]
      | some a =>
        simp only [ancIter, h1, h2]
        exact ih t a

/-- Effect of the cumulative-vote propagation loop: every vote-node on the
iterated-ancestor path of `h` is bumped by `v`, every other entry is
untouched.  The fuel need only exceed the number of the starting entry. -/
theorem propagate_effect :
    ∀ (fuel : Nat) (g : VoteGraph), WF g → ∀ {h : Block} {e : Entry},
      lookupE g.entries h = some e → e.number + 1 ≤ fuel → ∀ v : Nat,
      ∃ m', propagateLoop g.entries h v fuel = some m' ∧
        (∀ k, (∃ j, ancIter g.entries j h = some k) →
          lookupE m' k = (lookupE g.entries k).map (bumpVote v)) ∧
        (∀ k, (∀ j, ancIter g.entries j h ≠ some k) →
          lookupE m' k = lookupE g.entries k) := by
  intro fuel
  induction fuel with
  | zero =>
    intro g hWF h e he hf v
    omega
  | succ fuel ih =>
    intro g hWF h e he hf v
    cases han : e.ancestorNode with
    | none =>
      refine ⟨updateE g.entries h (bumpVote v), ?_, ?_, ?_⟩
      · simp only [propagateLoop, he, han]
      · intro k hk
        obtain ⟨j, hj⟩ := hk
        cases j with
        | zero =>
          simp only [ancIter, Option.some.injEq] at hj
          subst hj
          rw [lookupE_updateE_self]
        | succ j =>
          simp [ancIter, he, han] at hj
      · intro k hk
        have hkh : k ≠ h := by
          intro hc
          exact hk 0 (by rw [hc]; rfl)
        rw [lookupE_updateE_ne _ hkh]
    | some parent =>
      obtain ⟨hpk, hplen, hppre, ep, hep, hpin⟩ := hWF.parent_of he han
      have hph : parent ≠ h := by
        intro hc
        rw [hc] at hplen
        omega
      have hsh2 : shape (updateE g.entries h (bumpVote v)) = shape g.entries :=
        shape_updateE_bump ..
      have hWF2 : WF { entries := updateE g.entries h (bumpVote v)
                       heads := g.heads
                       base := g.base } := WF_of_shape hWF hsh2 rfl rfl
      have hlk2 : lookupE (updateE g.entries h (bumpVote v)) parent = some ep := by
        rw [lookupE_updateE_ne _ hph]
        exact hep
      have hnum : ep.number < e.number := by
        have h1 := hWF.number_eq _ (lookupE_mem he)
        have h2 := hWF.number_eq _ (lookupE_mem hep)
        simp only [bnum] at h1 h2
        omega
      obtain ⟨m', hm', hyes, hno⟩ := ih _ hWF2 hlk2 (by omega) v
      have hanc2 : ∀ (j : Nat) (x : Block),
          ancIter (updateE g.entries h (bumpVote v)) j x = ancIter g.entries j x :=
        ancIter_shape hsh2
      refine ⟨m', ?_, ?_, ?_⟩
      · simp only [propagateLoop, he, han]
        exact hm'
      · intro k hk
        obtain ⟨j, hj⟩ := hk
        by_cases hkh : k = h
        · have hnot : ∀ j2, ancIter (updateE g.entries h (bumpVote v)) j2 parent ≠ some k := by
            intro j2 hc
            rw [hanc2] at hc
            have := ancIter_length hWF j2 parent k hc
            rw [hkh] at this
            omega
          rw [hno k hnot, hkh, lookupE_updateE_self]
        · have hj2 : ∃ j2, ancIter g.entries j2 parent = some k := by
            cases j with
            | zero =>
              simp only [ancIter, Option.some.injEq] at hj
              exact absurd hj.symm hkh
            | succ j =>
              refine ⟨j, ?_⟩
              simpa only [ancIter, he, han] using hj
          obtain ⟨j2, hj2⟩ := hj2
          rw [hyes k ⟨j2, by rw [hanc2]; exact hj2⟩, lookupE_updateE_ne _ hkh]
      · intro k hk
        have hkh : k ≠ h := by
          intro hc
          exact hk 0 (by rw [hc]; rfl)
        have hknot : ∀ j2, ancIter (updateE g.entries h (bumpVote v)) j2 parent ≠ some k := by
          intro j2 hc
          rw [hanc2] at hc
          apply hk (j2 + 1)
          simp only [ancIter, he, han]
          exact hc
        rw [hno k hknot, lookupE_updateE_ne _ hkh]

/-- A descendent on the iterated-ancestor path of `h` forces its parent
onto the path one position further, and the parent is not `h` itself. -/
theorem path_lift {g : VoteGraph} (hWF : WF g) {h k c : Block} {ek : Entry}
    (hk : lookupE g.entries k = some ek) (hc : c ∈ ek.descendents)
    {j : Nat} (hj : ancIter g.entries j h = some c) :
    ancIter g.entries (j + 1) h = some k ∧ k ≠ h := by
  obtain ⟨ec, hec, hanc, hlen, hpre⟩ := hWF.child_of hk hc
  constructor
  · rw [ancIter_succ, hj]
    simp only [Option.some_bind, hec]
    exact hanc
  · intro hkh
    have hch := ancIter_length hWF j h c hj
    rw [hkh] at hlen
    omega

/-- The iterated-ancestor path of `h` visits each node's descendent set at
most once. -/
theorem path_child_unique {g : VoteGraph} (hWF : WF g) {h k : Block} {ek : Entry}
    (hk : lookupE g.entries k = some ek) {c1 c2 : Block}
    (hc1 : c1 ∈ ek.descendents) (hc2 : c2 ∈ ek.descendents)
    {j1 j2 : Nat} (hj1 : ancIter g.entries j1 h = some c1)
    (hj2 : ancIter g.entries j2 h = some c2) : c1 = c2 := by
  have haux : ∀ (ca cb : Block) (ja jb : Nat), ca ∈ ek.descendents → cb ∈ ek.descendents →
      ancIter g.entries ja h = some ca → ancIter g.entries jb h = some cb →
      ja < jb → False := by
    intro ca cb ja jb hca hcb hja hjb hlt
    have hstep := (path_lift hWF hk hca hja).1
    have harith : jb = (ja + 1) + (jb - ja - 1) := by omega
    rw [harith, ancIter_add, hstep] at hjb
    simp only [Option.some_bind] at hjb
    have hlen := ancIter_length hWF (jb - ja - 1) k cb hjb
    obtain ⟨ecb, -, -, hlb, -⟩ := hWF.child_of hk hcb
    omega
  rcases Nat.lt_trichotomy j1 j2 with hlt | heq | hgt
  · exact (haux c1 c2 j1 j2 hc1 hc2 hj1 hj2 hlt).elim
  · rw [heq, hj2] at hj1
    exact (Option.some.inj hj1).symm
  · exact (haux c2 c1 j2 j1 hc2 hc1 hj2 hj1 hgt).elim

/-- An on-path node other than `h` has an on-path descendent. -/
theorem path_down {g : VoteGraph} (hWF : WF g) {h k : Block} {ek : Entry}
    (hk : lookupE g.entries k = some ek) {j : Nat}
    (hj : ancIter g.entries j h = some k) (hkh : k ≠ h) :
    ∃ c ∈ ek.descendents, ∃ j2, ancIter g.entries j2 h = some c := by
  cases j with
  | zero =>
    simp only [ancIter, Option.some.injEq] at hj
    exact absurd hj.symm hkh
  | succ j =>
    rw [ancIter_succ] at hj
    cases hj0 : ancIter g.entries j h with
    | none => simp [hj0] at hj
    | some c =>
      rw [hj0] at hj
      simp only [Option.some_bind] at hj
      cases hec : lookupE g.entries c with
      | none => simp [hec] at hj
      | some ec =>
        simp only [hec] at hj
        obtain ⟨-, -, -, ea, hea, hdin⟩ := hWF.parent_of hec hj
        have hee : ea = ek := by
          rw [hk] at hea
          exact (Option.some.inj hea).symm
        exact ⟨c, hee ▸ hdin, j, hj0⟩

/-- Summation over a duplicate-free list where exactly one element is
bumped by `v`. -/
theorem sum_map_bump_single {f f2 : Block → Nat} {v : Nat} :
    ∀ l : List Block, l.Nodup → ∀ c0 ∈ l,
      (∀ c ∈ l, f2 c = if c = c0 then f c + v else f c) →
      (l.map f2).sum = (l.map f).sum + v := by
  intro l
  induction l with
  | nil =>
    intro _ c0 hc0
    simp at hc0
  | cons x t ih =>
    intro hnd c0 hc0 hf
    rcases List.mem_cons.mp hc0 with h1 | h1
    · simp only [List.map_cons, List.sum_cons]
      rw [hf x (List.mem_cons_self ..), if_pos h1.symm]
      have ht : (t.map f2).sum = (t.map f).sum := by
        congr 1
        apply List.map_congr_left
        intro c hcq
        rw [hf c (List.mem_cons_of_mem _ hcq)]
        exact if_neg (fun hc : c = c0 =>
          (List.nodup_cons.mp hnd).1 (by rw [← h1, ← hc]; exact hcq))
      rw [ht]
      omega
    · simp only [List.map_cons, List.sum_cons]
      have hx : f2 x = f x := by
        rw [hf x (List.mem_cons_self ..)]
        exact if_neg (fun hc : x = c0 => (List.nodup_cons.mp hnd).1 (by rw [hc]; exact h1))
      rw [hx, ih (List.nodup_cons.mp hnd).2 c0 h1
        (fun c hcq => hf c (List.mem_cons_of_mem _ hcq))]
      omega

theorem childCumSum_eq (m : EMap) (e : Entry) :
    childCumSum m e = (e.descendents.map (cumAt m)).sum := rfl

theorem sumCum_eq (m : EMap) (C : List Block) : sumCum m C = (C.map (cumAt m)).sum := rfl

theorem insertedAt_append (l1 l2 : List (Block × Nat × Nat)) (k : Block) :
    insertedAt (l1 ++ l2) k = insertedAt l1 k + insertedAt l2 k := by
  simp [insertedAt, List.filter_append]

theorem insertedAt_single (h : Block) (n v : Nat) (k : Block) :
    insertedAt [(h, n, v)] k = if h = k then v else 0 := by
  by_cases hk : h = k <;> simp [insertedAt, hk]

theorem insertedAt_zero (k : Block) :
    ∀ l : List (Block × Nat × Nat), (∀ t ∈ l, t.1 ≠ k) → insertedAt l k = 0
  | [], _ => rfl
  | t :: ts, h => by
    have ht := h t (List.mem_cons_self ..)
    show insertedAt (t :: ts) k = 0
    unfold insertedAt
    rw [List.filter_cons, if_neg (by simpa using ht)]
    exact insertedAt_zero k ts (fun t2 h2 => h t2 (List.mem_cons_of_mem _ h2))

theorem sum_split_mem (C : List Block) (f : Block → Nat) :
    ∀ l : List Block, (l.map f).sum =
      ((l.filter (fun x => x ∉ C)).map f).sum + ((l.filter (fun x => x ∈ C)).map f).sum := by
  intro l
  induction l with
  | nil => rfl
  | cons x t ih =>
    by_cases hx : x ∈ C
    · simp only [List.map_cons, List.sum_cons, List.filter_cons]
      rw [if_neg (by simp [hx]), if_pos (by simp [hx])]
      simp only [List.map_cons, List.sum_cons]
      omega
    · simp only [List.map_cons, List.sum_cons, List.filter_cons]
      rw [if_pos (by simp [hx]), if_neg (by simp [hx])]
      simp only [List.map_cons, List.sum_cons]
      omega

theorem sum_map_perm_of_mem_iff {l1 l2 : List Block} (h1 : l1.Nodup) (h2 : l2.Nodup)
    (hiff : ∀ x, x ∈ l1 ↔ x ∈ l2) (f : Block → Nat) :
    (l1.map f).sum = (l2.map f).sum := by
  have hp : l1.Perm l2 :=
    (h1.subperm (fun x hx => (hiff x).mp hx)).antisymm
      (h2.subperm (fun x hx => (hiff x).mpr hx))
  exact (hp.map f).sum_eq

/-- The cumulative-vote propagation phase of `insert` preserves
well-formedness and establishes the C4 invariant for the extended
history. -/
theorem propagate_phase {g1 : VoteGraph} {l : List (Block × Nat × Nat)} (hWF1 : WF g1)
    (hkc1 : keysClosed g1 l) (hinv1 : cumInv g1 l) {h : Block} (hh : h ∈ g1.keys)
    (n v : Nat) :
    ∃ m', propagateLoop g1.entries h v (g1.maxNum + 1) = some m' ∧
      WF { entries := m', heads := g1.heads, base := g1.base } ∧
      keysClosed { entries := m', heads := g1.heads, base := g1.base } (l ++ [(h, n, v)]) ∧
      cumInv { entries := m', heads := g1.heads, base := g1.base } (l ++ [(h, n, v)]) := by
  obtain ⟨e, he⟩ : ∃ e, lookupE g1.entries h = some e := by
    rw [← Option.isSome_iff_exists, lookupE_isSome_iff]
    exact hh
  have hnum := mem_maxNum he
  obtain ⟨m', hm', hyes, hno⟩ := propagate_effect (g1.maxNum + 1) g1 hWF1 he (by omega) v
  have hsh : shape m' = shape g1.entries := propagateLoop_shape hm'
  have hWF' : WF { entries := m', heads := g1.heads, base := g1.base } :=
    WF_of_shape hWF1 hsh rfl rfl
  have hkeys : m'.map Prod.fst = g1.entries.map Prod.fst := shape_keys hsh
  refine ⟨m', hm', hWF', ?_, ?_⟩
  · intro t ht
    rcases List.mem_append.mp ht with h1 | h1
    · show t.1 ∈ m'.map Prod.fst
      rw [hkeys]
      exact hkc1 t h1
    · have ht2 : t = (h, n, v) := by simpa using h1
      rw [ht2]
      show h ∈ m'.map Prod.fst
      rw [hkeys]
      exact hh
  · intro k e' hk'
    replace hk' : lookupE m' k = some e' := hk'
    show e'.cumulative_vote = insertedAt (l ++ [(h, n, v)]) k + childCumSum m' e'
    by_cases hP : ∃ j, ancIter g1.entries j h = some k
    · have h1 := hyes k hP
      rw [hk'] at h1
      cases hk1 : lookupE g1.entries k with
      | none =>
        rw [hk1] at h1
        simp at h1
      | some e1 =>
        rw [hk1] at h1
        simp only [Option.map_some', Option.some.injEq] at h1
        have hInv1 := hinv1 k e1 hk1
        have hdesc : e'.descendents = e1.descendents := by rw [h1]; rfl
        have hcv : e'.cumulative_vote = e1.cumulative_vote + v := by rw [h1]; rfl
        by_cases hkh : k = h
        · have hchild : childCumSum m' e' = childCumSum g1.entries e1 := by
            rw [childCumSum_eq, childCumSum_eq, hdesc]
            congr 1
            apply List.map_congr_left
            intro c hcq
            have hoff : ∀ j, ancIter g1.entries j h ≠ some c := by
              intro j hj
              exact (path_lift hWF1 hk1 hcq hj).2 hkh
            show cumAt m' c = cumAt g1.entries c
            unfold cumAt
            rw [hno c hoff]
          rw [hcv, hchild, hInv1, insertedAt_append, insertedAt_single, if_pos hkh.symm]
          omega
        · obtain ⟨j, hj⟩ := hP
          obtain ⟨c0, hc0mem, j0, hj0⟩ := path_down hWF1 hk1 hj hkh
          have hchild : childCumSum m' e' = childCumSum g1.entries e1 + v := by
            rw [childCumSum_eq, childCumSum_eq, hdesc]
            apply sum_map_bump_single e1.descendents
              (hWF1.desc_nodup (k, e1) (lookupE_mem hk1)) c0 hc0mem
            intro c hcq
            by_cases hcc : c = c0
            · rw [if_pos hcc, hcc]
              have h2 := hyes c0 ⟨j0, hj0⟩
              obtain ⟨ec0, hec0, -, -, -⟩ := hWF1.child_of hk1 hc0mem
              unfold cumAt
              rw [h2, hec0]
              rfl
            · rw [if_neg hcc]
              have hoff : ∀ j2, ancIter g1.entries j2 h ≠ some c := by
                intro j2 hj2
                exact hcc (path_child_unique hWF1 hk1 hcq hc0mem hj2 hj0)
              unfold cumAt
              rw [hno c hoff]
          rw [hcv, hchild, hInv1, insertedAt_append, insertedAt_single,
            if_neg (fun hc => hkh hc.symm)]
          omega
    · push_neg at hP
      have h1 := hno k hP
      rw [hk'] at h1
      have hk1 : lookupE g1.entries k = some e' := h1.symm
      have hInv1 := hinv1 k e' hk1
      have hchild : childCumSum m' e' = childCumSum g1.entries e' := by
        rw [childCumSum_eq, childCumSum_eq]
        congr 1
        apply List.map_congr_left
        intro c hcq
        have hoff : ∀ j, ancIter g1.entries j h ≠ some c := by
          intro j hj
          exact hP (j + 1) (path_lift hWF1 hk1 hcq hj).1
        show cumAt m' c = cumAt g1.entries c
        unfold cumAt
        rw [hno c hoff]
      have hkh : h ≠ k := by
        intro hc
        exact hP 0 (by rw [hc]; rfl)
      rw [hchild, hInv1, insertedAt_append, insertedAt_single, if_neg hkh]
      omega

/-- Children of an entry always have vote-nodes, so their weights survive
a map change that only touches blocks outside the key set. -/
theorem childCumSum_congr_keys {g : VoteGraph} {m1 : EMap} {h : Block}
    (hkey : h ∉ g.keys)
    (hcum1 : ∀ c, c ≠ h → cumAt m1 c = cumAt g.entries c)
    {e : Entry} (hsub : ∀ c ∈ e.descendents, c ∈ g.keys) :
    childCumSum m1 e = childCumSum g.entries e := by
  rw [childCumSum_eq, childCumSum_eq]
  congr 1
  apply List.map_congr_left
  intro c hc
  exact hcum1 c (fun hch => hkey (by rw [← hch]; exact hsub c hc))

/-- The `append` restructuring leaves the C4 invariant intact: the new
entry carries no votes and the parent's descendent sum is unchanged. -/
theorem appendResult_inv {g : VoteGraph} {l : List (Block × Nat × Nat)} (hWF : WF g)
    (hkc : keysClosed g l) (hinv : cumInv g l) {h : Block} {i : Nat}
    (hkey : h ∉ g.keys) (hak : ancKey h (i + 1) ∈ g.keys) :
    keysClosed { entries := (h, { number := h.length, ancestors := edgeList h (i + 1),
                                  descendents := [], cumulative_vote := 0 }) ::
                   updateE g.entries (ancKey h (i + 1))
                     (fun e => { e with descendents := e.descendents ++ [h] }),
                 heads := (g.heads.filter (· ≠ ancKey h (i + 1))) ++ [h],
                 base := g.base } l ∧
    cumInv { entries := (h, { number := h.length, ancestors := edgeList h (i + 1),
                              descendents := [], cumulative_vote := 0 }) ::
               updateE g.entries (ancKey h (i + 1))
                 (fun e => { e with descendents := e.descendents ++ [h] }),
             heads := (g.heads.filter (· ≠ ancKey h (i + 1))) ++ [h],
             base := g.base } l := by
  set a := ancKey h (i + 1) with hadef
  set newE : Entry := { number := h.length, ancestors := edgeList h (i + 1),
                        descendents := [], cumulative_vote := 0 } with hnewE
  set f : Entry → Entry := fun e => { e with descendents := e.descendents ++ [h] } with hf
  obtain ⟨ea, hea⟩ : ∃ ea, lookupE g.entries a = some ea := by
    rw [← Option.isSome_iff_exists, lookupE_isSome_iff]
    exact hak
  have hah : a ≠ h := fun hc => hkey (hc ▸ hak)
  have hlook : ∀ q, lookupE ((h, newE) :: updateE g.entries a f) q =
      if h = q then some newE
      else if q = a then some (f ea) else lookupE g.entries q := by
    intro q
    by_cases hq : h = q
    · simp [lookupE, hq]
    · rw [show lookupE ((h, newE) :: updateE g.entries a f) q =
        lookupE (updateE g.entries a f) q by simp [lookupE, hq], if_neg hq]
      by_cases hq2 : q = a
      · rw [if_pos hq2, hq2, lookupE_updateE_self, hea]
        rfl
      · rw [if_neg hq2, lookupE_updateE_ne _ hq2]
  have hcum1 : ∀ c, c ≠ h → cumAt ((h, newE) :: updateE g.entries a f) c =
      cumAt g.entries c := by
    intro c hch
    unfold cumAt
    rw [hlook c, if_neg (fun hc => hch hc.symm)]
    by_cases hca : c = a
    · rw [if_pos hca, hca, hea]
      rfl
    · rw [if_neg hca]
  have hkeys' : (((h, newE) :: updateE g.entries a f).map Prod.fst) =
      h :: g.entries.map Prod.fst := by
    simp [updateE_keys]
  constructor
  · intro t ht
    show t.1 ∈ ((h, newE) :: updateE g.entries a f).map Prod.fst
    rw [hkeys']
    exact List.mem_cons_of_mem _ (hkc t ht)
  · intro k e1 hk1
    replace hk1 : lookupE ((h, newE) :: updateE g.entries a f) k = some e1 := hk1
    show e1.cumulative_vote = insertedAt l k +
      childCumSum ((h, newE) :: updateE g.entries a f) e1
    rw [hlook k] at hk1
    by_cases hkh : h = k
    · rw [if_pos hkh] at hk1
      have he1 : e1 = newE := (Option.some.inj hk1).symm
      rw [he1]
      have hzero : insertedAt l k = 0 := by
        apply insertedAt_zero
        intro t htl hc
        exact hkey (by rw [hkh, ← hc]; exact hkc t htl)
      rw [hzero, childCumSum_eq]
      rfl
    · rw [if_neg hkh] at hk1
      by_cases hka : k = a
      · rw [if_pos hka] at hk1
        have he1 : e1 = f ea := (Option.some.inj hk1).symm
        have hsub : ∀ c ∈ ea.descendents, c ∈ g.keys := by
          intro c hc
          exact hWF.desc_mem_keys hea hc
        have hdesc : e1.descendents = ea.descendents ++ [h] := by rw [he1]
        have hcv : e1.cumulative_vote = ea.cumulative_vote := by rw [he1]
        have hch : childCumSum ((h, newE) :: updateE g.entries a f) e1 =
            childCumSum g.entries ea := by
          rw [childCumSum_eq, hdesc, List.map_append, List.sum_append]
          have hh0 : cumAt ((h, newE) :: updateE g.entries a f) h = 0 := by
            unfold cumAt
            rw [hlook h, if_pos rfl]
            rfl
          simp only [List.map_cons, List.map_nil, List.sum_cons, List.sum_nil, hh0]
          rw [childCumSum_eq]
          have : (ea.descendents.map (cumAt ((h, newE) :: updateE g.entries a f))).sum =
              (ea.descendents.map (cumAt g.entries)).sum := by
            congr 1
            apply List.map_congr_left
            intro c hc
            exact hcum1 c (fun hc2 => hkey (by rw [← hc2]; exact hsub c hc))
          omega
        rw [hcv, hch, hka]
        exact hinv a ea hea
      · rw [if_neg hka] at hk1
        have hch : childCumSum ((h, newE) :: updateE g.entries a f) e1 =
            childCumSum g.entries e1 :=
          childCumSum_congr_keys hkey hcum1 (fun c hc => hWF.desc_mem_keys hk1 hc)
        rw [hch]
        exact hinv k e1 hk1

/-- The `introduce_branch` restructuring leaves the C4 invariant intact:
the new entry's vote equals its descendent sum, and the rewired parent
trades its containing children for the new entry carrying their sum. -/
theorem branchResult_inv {g : VoteGraph} {l : List (Block × Nat × Nat)} (hWF : WF g)
    (hkc : keysClosed g l) (hinv : cumInv g l) {h : Block} {b : Nat}
    (hkey : h ∉ g.keys) {C : List Block} (hCn : C.Nodup) (_hne : C ≠ [])
    (hb : b < h.length) (hpk : h.take b ∈ g.keys)
    (hmem : ∀ d ∈ C, ∃ ed, lookupE g.entries d = some ed ∧
      h.length < d.length ∧ d.take h.length = h ∧ 1 ≤ ed.ancestors.length ∧
      d.length - ed.ancestors.length = b) :
    keysClosed { entries := (h,
                    { number := h.length
                      ancestors := edgeList h (h.length - b)
                      descendents := C
                      cumulative_vote := sumCum g.entries C }) ::
                   updateE (truncAll h.length g.entries C) (h.take b) (fun e =>
                     { e with descendents := (e.descendents.filter (fun x => x ∉ C)) ++ [h] })
                 heads := g.heads
                 base := g.base } l ∧
    cumInv { entries := (h,
                { number := h.length
                  ancestors := edgeList h (h.length - b)
                  descendents := C
                  cumulative_vote := sumCum g.entries C }) ::
               updateE (truncAll h.length g.entries C) (h.take b) (fun e =>
                 { e with descendents := (e.descendents.filter (fun x => x ∉ C)) ++ [h] })
             heads := g.heads
             base := g.base } l := by
  set p := h.take b with hpdef
  set NE : Entry :=
    { number := h.length
      ancestors := edgeList h (h.length - b)
      descendents := C
      cumulative_vote := sumCum g.entries C } with hNEdef
  set f : Entry → Entry := fun e =>
    { e with descendents := (e.descendents.filter (fun x => x ∉ C)) ++ [h] } with hfdef
  set M : EMap := truncAll h.length g.entries C with hM
  obtain ⟨ep, hep⟩ : ∃ ep, lookupE g.entries p = some ep := by
    rw [← Option.isSome_iff_exists, lookupE_isSome_iff]
    exact hpk
  have hplen : p.length = b := by
    rw [hpdef, List.length_take]
    omega
  have hph : p ≠ h := by
    intro hc
    have := congrArg List.length hc
    omega
  have hpC : p ∉ C := by
    intro hc
    obtain ⟨-, -, hlt, -⟩ := hmem p hc
    omega
  have hCh : ∀ d ∈ C, d ≠ h := by
    intro d hd hc
    obtain ⟨-, -, hlt, -⟩ := hmem d hd
    rw [hc] at hlt
    omega
  have hdinC : ∀ d ∈ C, d ∈ ep.descendents := by
    intro d hd
    obtain ⟨ed, hed, hlt, htk, hm1, hbd⟩ := hmem d hd
    obtain ⟨hnd, hprd, hshd, held⟩ := hWF.entry_facts hed
    have hbld : g.base.length ≤ d.length := hprd.length_le
    have hmd : ed.ancestors.length = d.length - b := by omega
    have hand : ed.ancestorNode = some p := by
      rw [hWF.ancestorNode_eq hed, if_neg (by omega)]
      congr 1
      unfold ancKey
      rw [hmd, show d.length - (d.length - b) = b by omega, hpdef]
      rw [← htk, take_take_prefix (le_of_lt hb)]
    obtain ⟨-, -, -, ea, hea, hdin⟩ := hWF.parent_of hed hand
    have heq : ea = ep := by
      rw [hep] at hea
      exact (Option.some.inj hea).symm
    exact heq ▸ hdin
  have hlook : ∀ q, lookupE ((h, NE) :: updateE M p f) q =
      if h = q then some NE
      else if q = p then some (f ep)
      else if q ∈ C then (lookupE g.entries q).map (truncTo h.length)
      else lookupE g.entries q := by
    intro q
    by_cases hq : h = q
    · simp [lookupE, hq]
    · rw [show lookupE ((h, NE) :: updateE M p f) q =
        lookupE (updateE M p f) q by simp [lookupE, hq], if_neg hq]
      by_cases hq2 : q = p
      · rw [if_pos hq2, hq2, lookupE_updateE_self, hM,
          lookup_truncAll h.length p C hCn, if_neg hpC, hep]
        rfl
      · rw [if_neg hq2, lookupE_updateE_ne _ hq2, hM]
        exact lookup_truncAll h.length q C hCn g.entries
  have hkeys' : (((h, NE) :: updateE M p f).map Prod.fst) = h :: g.entries.map Prod.fst := by
    simp only [List.map_cons]
    rw [updateE_keys, hM, truncAll_keys]
  have hnodup' : ((((h, NE) :: updateE M p f)).map Prod.fst).Nodup := by
    rw [hkeys']
    exact List.nodup_cons.mpr ⟨by rw [← keys_eq]; exact hkey, hWF.nodup_keys⟩
  have hcum1 : ∀ c, c ≠ h → cumAt ((h, NE) :: updateE M p f) c = cumAt g.entries c := by
    intro c hch
    unfold cumAt
    rw [hlook c, if_neg (fun hc => hch hc.symm)]
    by_cases hcp : c = p
    · rw [if_pos hcp, hcp, hep]
      rfl
    · rw [if_neg hcp]
      by_cases hcC : c ∈ C
      · rw [if_pos hcC]
        obtain ⟨ed, hed, -⟩ := hmem c hcC
        rw [hed]
        rfl
      · rw [if_neg hcC]
  have hNEcum : cumAt ((h, NE) :: updateE M p f) h = sumCum g.entries C := by
    unfold cumAt
    rw [hlook h, if_pos rfl]
    rfl
  have hzero : insertedAt l h = 0 := by
    apply insertedAt_zero
    intro t htl hc
    exact hkey (by rw [← hc]; exact hkc t htl)
  constructor
  · intro t ht
    show t.1 ∈ ((h, NE) :: updateE M p f).map Prod.fst
    rw [hkeys']
    exact List.mem_cons_of_mem _ (hkc t ht)
  · intro k e1 hk1
    replace hk1 : lookupE ((h, NE) :: updateE M p f) k = some e1 := hk1
    show e1.cumulative_vote = insertedAt l k + childCumSum ((h, NE) :: updateE M p f) e1
    rw [hlook k] at hk1
    by_cases hkh : h = k
    · rw [if_pos hkh] at hk1
      have he1 : e1 = NE := (Option.some.inj hk1).symm
      have hCsum : (C.map (cumAt ((h, NE) :: updateE M p f))).sum =
          (C.map (cumAt g.entries)).sum := by
        congr 1
        apply List.map_congr_left
        intro c hc
        exact hcum1 c (hCh c hc)
      rw [he1, ← hkh, hzero, childCumSum_eq]
      show sumCum g.entries C = 0 + (C.map (cumAt ((h, NE) :: updateE M p f))).sum
      rw [hCsum, sumCum_eq]
      omega
    · rw [if_neg hkh] at hk1
      by_cases hkp : k = p
      · rw [if_pos hkp] at hk1
        have he1 : e1 = f ep := (Option.some.inj hk1).symm
        have hsub : ∀ c ∈ ep.descendents, c ∈ g.keys := by
          intro c hc
          exact hWF.desc_mem_keys hep hc
        have hsplit := sum_split_mem C (cumAt g.entries) ep.descendents
        have hperm : ((ep.descendents.filter (fun x => x ∈ C)).map (cumAt g.entries)).sum =
            (C.map (cumAt g.entries)).sum := by
          apply sum_map_perm_of_mem_iff
            ((hWF.desc_nodup (p, ep) (lookupE_mem hep)).filter _) hCn
          intro x
          constructor
          · intro hx
            have := (List.mem_filter.mp hx).2
            simpa using this
          · intro hx
            exact List.mem_filter.mpr ⟨hdinC x hx, by simpa using hx⟩
        have hfilt : ((ep.descendents.filter (fun x => x ∉ C)).map
            (cumAt ((h, NE) :: updateE M p f))).sum =
            ((ep.descendents.filter (fun x => x ∉ C)).map (cumAt g.entries)).sum := by
          congr 1
          apply List.map_congr_left
          intro c hc
          have hcd : c ∈ ep.descendents := (List.mem_filter.mp hc).1
          exact hcum1 c (fun hc2 => hkey (by rw [← hc2]; exact hsub c hcd))
        have hinvp := hinv p ep hep
        rw [he1, hkp]
        show (f ep).cumulative_vote = insertedAt l p +
          childCumSum ((h, NE) :: updateE M p f) (f ep)
        have hdesc : (f ep).descendents = (ep.descendents.filter (fun x => x ∉ C)) ++ [h] :=
          rfl
        rw [childCumSum_eq, hdesc, List.map_append, List.sum_append]
        simp only [List.map_cons, List.map_nil, List.sum_cons, List.sum_nil]
        rw [hNEcum, hfilt]
        show ep.cumulative_vote = _
        rw [hinvp, childCumSum_eq, hsplit, hperm, sumCum_eq]
        omega
      · rw [if_neg hkp] at hk1
        by_cases hkC : k ∈ C
        · rw [if_pos hkC] at hk1
          obtain ⟨ed, hed, -⟩ := hmem k hkC
          rw [hed] at hk1
          simp only [Option.map_some', Option.some.injEq] at hk1
          have he1 : e1 = truncTo h.length ed := hk1.symm
          have hch : childCumSum ((h, NE) :: updateE M p f) e1 =
              childCumSum g.entries e1 := by
            apply childCumSum_congr_keys hkey hcum1
            intro c hc
            rw [he1] at hc
            exact hWF.desc_mem_keys hed hc
          rw [hch, he1]
          show ed.cumulative_vote = insertedAt l k + childCumSum g.entries (truncTo h.length ed)
          have : childCumSum g.entries (truncTo h.length ed) = childCumSum g.entries ed := rfl
          rw [this]
          exact hinv k ed hed
        · rw [if_neg hkC] at hk1
          have hch : childCumSum ((h, NE) :: updateE M p f) e1 =
              childCumSum g.entries e1 :=
            childCumSum_congr_keys hkey hcum1 (fun c hc => hWF.desc_mem_keys hk1 hc)
          rw [hch]
          exact hinv k e1 hk1

/-- One successful `insert` of a base-descendant block: always returns
`ok`, preserves well-formedness, the base, and the C4 invariant for the
extended history, and leaves the block with a vote-node. -/
theorem insertT_step {g : VoteGraph} {l : List (Block × Nat × Nat)} (hWF : WF g)
    (hkc : keysClosed g l) (hinv : cumInv g l) {h : Block} (hpre : g.base <+: h)
    (v : Nat) :
    ∃ g', g.insertT h h.length v = .ok g' ∧ WF g' ∧ g'.base = g.base ∧
      h ∈ g'.keys ∧
      keysClosed g' (l ++ [(h, h.length, v)]) ∧ cumInv g' (l ++ [(h, h.length, v)]) := by
  by_cases hkk : h ∈ g.keys
  · have hfc := (findContainingNodes_spec hWF h h.length).1 hkk
    obtain ⟨m', hm', hWF', hkc', hinv'⟩ := propagate_phase hWF hkc hinv hkk h.length v
    refine ⟨{ entries := m', heads := g.heads, base := g.base }, ?_, hWF', rfl,
      hkc' (h, h.length, v) (List.mem_append.mpr (Or.inr (List.mem_singleton.mpr rfl))),
      hkc', hinv'⟩
    show g.insertT h h.length v = _
    simp only [VoteGraph.insertT, VoteGraph.insert, hfc, hm']
  · obtain ⟨C, hfc, hCn, hCiff⟩ := (findContainingNodes_spec hWF h h.length).2 hkk
    cases C with
    | nil =>
      have hnc : ∀ x, ¬ containsBlock g.entries h h.length x := by
        intro x hx
        have := (hCiff x).mpr hx
        simp at this
      have hneqb : h ≠ g.base := fun hc => hkk (hc ▸ hWF.base_mem_keys)
      obtain ⟨g1, i, happ, hiM, hak, hmin, hent, hheads, hbase⟩ :=
        append_construct hWF hkk hpre hneqb
      have hg1 : g1 = { entries := (h,
                          { number := h.length, ancestors := edgeList h (i + 1),
                            descendents := [], cumulative_vote := 0 }) ::
                          updateE g.entries (ancKey h (i + 1))
                            (fun e => { e with descendents := e.descendents ++ [h] }),
                        heads := (g.heads.filter (· ≠ ancKey h (i + 1))) ++ [h],
                        base := g.base } := by
        have heta : g1 = (⟨g1.entries, g1.heads, g1.base⟩ : VoteGraph) := rfl
        rw [heta, hent, hheads, hbase]
      subst hg1
      have hWF1 := append_WF hWF hkk hpre hnc hiM hak hmin
      obtain ⟨hkc1, hinv1⟩ := appendResult_inv hWF hkc hinv hkk hak
      have hh1 : h ∈ ({ entries := (h,
                          { number := h.length, ancestors := edgeList h (i + 1),
                            descendents := [], cumulative_vote := 0 }) ::
                          updateE g.entries (ancKey h (i + 1))
                            (fun e => { e with descendents := e.descendents ++ [h] }),
                        heads := (g.heads.filter (· ≠ ancKey h (i + 1))) ++ [h],
                        base := g.base } : VoteGraph).keys := by
        show h ∈ _
        simp [VoteGraph.keys]
      obtain ⟨m', hm', hWF', hkc', hinv'⟩ := propagate_phase hWF1 hkc1 hinv1 hh1 h.length v
      refine ⟨_, ?_, hWF', rfl,
        hkc' (h, h.length, v) (List.mem_append.mpr (Or.inr (List.mem_singleton.mpr rfl))),
        hkc', hinv'⟩
      show g.insertT h h.length v = _
      simp only [VoteGraph.insertT, VoteGraph.insert, hfc, List.isEmpty_nil, if_true,
        happ, hm']
    | cons d0 rest =>
      have hne' : (d0 :: rest) ≠ [] := by simp
      obtain ⟨b, hb, hpk, hmin, hmem, hIB⟩ :=
        introduceBranch_spec hWF hkk hCn hCiff hne'
      have hWF1 := branchResult_WF hWF hkk hCn hne' hCiff hb hpk hmin hmem
      obtain ⟨hkc1, hinv1⟩ := branchResult_inv hWF hkc hinv hkk hCn hne' hb hpk hmem
      have hh1 : h ∈ ({ entries := (h,
                          { number := h.length, ancestors := edgeList h (h.length - b),
                            descendents := d0 :: rest,
                            cumulative_vote := sumCum g.entries (d0 :: rest) }) ::
                          updateE (truncAll h.length g.entries (d0 :: rest)) (h.take b)
                            (fun e =>
                              { e with descendents :=
                                  (e.descendents.filter (fun x => x ∉ (d0 :: rest))) ++ [h] }),
                        heads := g.heads,
                        base := g.base } : VoteGraph).keys := by
        show h ∈ _
        simp [VoteGraph.keys]
      obtain ⟨m', hm', hWF', hkc', hinv'⟩ := propagate_phase hWF1 hkc1 hinv1 hh1 h.length v
      refine ⟨_, ?_, hWF', rfl,
        hkc' (h, h.length, v) (List.mem_append.mpr (Or.inr (List.mem_singleton.mpr rfl))),
        hkc', hinv'⟩
      show g.insertT h h.length v = _
      simp only [VoteGraph.insertT, VoteGraph.insert, hfc]
      rw [if_neg (show ¬((d0 :: rest).isEmpty = true) by simp)]
      simp only [hIB, hm']

/-- When the hash is not a descendant of the base, `insert` fails with
`NotDescendent` — the failure of the `chain.ancestry` call, the only error
the function returns. -/
theorem insertT_fail {g : VoteGraph} (hWF : WF g) {h : Block} (hpre : ¬ g.base <+: h)
    (v : Nat) : g.insertT h h.length v = .error .notDescendent := by
  have hkk : h ∉ g.keys := by
    intro hk
    obtain ⟨e, he⟩ : ∃ e, lookupE g.entries h = some e := by
      rw [← Option.isSome_iff_exists, lookupE_isSome_iff]
      exact hk
    exact hpre (hWF.base_prefix (h, e) (lookupE_mem he))
  obtain ⟨C, hfc, hCn, hCiff⟩ := (findContainingNodes_spec hWF h h.length).2 hkk
  have hCnil : C = [] := by
    cases hC0 : C with
    | nil => rfl
    | cons x t =>
      exfalso
      have hx : containsBlock g.entries h h.length x :=
        (hCiff x).mp (by rw [hC0]; exact List.mem_cons_self ..)
      obtain ⟨ex, hex, hin⟩ := hx
      obtain ⟨hb1, hb2, hb3⟩ := (hWF.inDirectAncestry_eq_some_true hex).mp hin
      obtain ⟨hnx, hprex, hshx, helx⟩ := hWF.entry_facts hex
      apply hpre
      have hxb := hprex.length_le
      have hbl : g.base.length ≤ h.length := by omega
      rw [List.prefix_iff_eq_take, ← hb3, take_take_prefix hbl]
      exact List.prefix_iff_eq_take.mp hprex
  subst hCnil
  have hTA : treeAncestry g.base h = none := by
    unfold treeAncestry
    rw [if_neg (fun hc => hpre hc.1)]
  show g.insertT h h.length v = _
  simp only [VoteGraph.insertT, VoteGraph.insert, hfc, List.isEmpty_nil, if_true,
    VoteGraph.append, hTA]

/-- A whole history of successful inserts preserves well-formedness and
the C4 cumulative-vote invariant. -/
theorem insertMany_inv :
    ∀ (l : List (Block × Nat × Nat)) (g : VoteGraph) (pre : List (Block × Nat × Nat)),
      WF g → keysClosed g pre → cumInv g pre → (∀ t ∈ l, t.2.1 = t.1.length) →
      ∀ g', g.insertMany l = .ok g' →
      WF g' ∧ keysClosed g' (pre ++ l) ∧ cumInv g' (pre ++ l) ∧ g'.base = g.base
  | [], g, pre, hWF, hkc, hinv, _, g', hok => by
    simp only [VoteGraph.insertMany] at hok
    injection hok with h1
    subst h1
    simpa using ⟨hWF, hkc, hinv⟩
  | (h, n, v) :: t, g, pre, hWF, hkc, hinv, hnum, g', hok => by
    have hn : n = h.length := hnum (h, n, v) (List.mem_cons_self ..)
    subst hn
    by_cases hpre : g.base <+: h
    · obtain ⟨g2, heq, hWF2, hbase2, hmem2, hkc2, hinv2⟩ := insertT_step hWF hkc hinv hpre v
      rw [show g.insertMany ((h, h.length, v) :: t) = g2.insertMany t from by
        simp only [VoteGraph.insertMany, heq]] at hok
      obtain ⟨hWF', hkc', hinv', hbase'⟩ := insertMany_inv t g2 (pre ++ [(h, h.length, v)])
        hWF2 hkc2 hinv2 (fun t2 h2 => hnum t2 (List.mem_cons_of_mem _ h2)) g' hok
      rw [List.append_assoc] at hkc' hinv'
      simp only [List.singleton_append] at hkc' hinv'
      exact ⟨hWF', hkc', hinv', hbase'.trans hbase2⟩
    · exfalso
      have hfail := insertT_fail hWF hpre v
      simp only [VoteGraph.insertMany, hfail] at hok
      exact Except.noConfusion hok

/-- The fresh single-entry graph satisfies the C4 invariant with the empty
history. -/
theorem new_inv (b : Block) :
    keysClosed (VoteGraph.new b (bnum b)) [] ∧ cumInv (VoteGraph.new b (bnum b)) [] := by
  constructor
  · intro t ht
    simp at ht
  · intro k e hk
    simp only [VoteGraph.new, lookupE] at hk
    by_cases hkb : b = k
    · rw [if_pos hkb] at hk
      have he : e = { number := bnum b, ancestors := [], descendents := [],
                      cumulative_vote := 0 } := (Option.some.inj hk).symm
      rw [he]
      rfl
    · rw [if_neg hkb] at hk
      cases hk

/-- The maximum entry number only depends on the shape. -/
theorem maxNum_shape {m m' : EMap} (hsh : shape m' = shape m) :
    (m'.map (fun p => p.2.number)).foldr max 0 = (m.map (fun p => p.2.number)).foldr max 0 := by
  have h2 := congrArg
    (List.map (fun q : Block × Nat × List Block × List Block => q.2.1)) hsh
  simp only [shape, List.map_map] at h2
  exact congrArg (fun l => List.foldr max 0 l) h2

/-- A second `insert` at a block that just received its votes only runs
the propagation loop again, and composing the two runs is a single run
with the summed vote. -/
theorem insert_second {G1 : VoteGraph} (hWF1 : WF G1) {h : Block} (hh : h ∈ G1.keys)
    (v1 v2 : Nat) {m1 : EMap}
    (hm1 : propagateLoop G1.entries h v1 (G1.maxNum + 1) = some m1) :
    ({ entries := m1, heads := G1.heads, base := G1.base } : VoteGraph).insertT h h.length v2 =
    (match propagateLoop G1.entries h (v1 + v2) (G1.maxNum + 1) with
     | none => .error .internal
     | some m2 => .ok { entries := m2, heads := G1.heads, base := G1.base }) := by
  have hsh : shape m1 = shape G1.entries := propagateLoop_shape hm1
  have hWF1' : WF { entries := m1, heads := G1.heads, base := G1.base } :=
    WF_of_shape hWF1 hsh rfl rfl
  have hh1 : h ∈ ({ entries := m1, heads := G1.heads, base := G1.base } : VoteGraph).keys := by
    show h ∈ m1.map Prod.fst
    rw [shape_keys hsh]
    exact hh
  have hfc1 := (findContainingNodes_spec hWF1' h h.length).1 hh1
  have hmax : ({ entries := m1, heads := G1.heads, base := G1.base } : VoteGraph).maxNum =
      G1.maxNum := maxNum_shape hsh
  have hadd := @propagateLoop_add h v1 v2 (G1.maxNum + 1) G1.entries m1 hm1
  simp only [VoteGraph.insertT, VoteGraph.insert, hfc1, hmax, hadd]

/-- Inserting at `(h, |h|)` twice with votes `v1` then `v2` yields exactly
the graph of a single insert with `v1 + v2`. -/
theorem insertT_twice {g : VoteGraph} (hWF : WF g) {h : Block} (hpre : g.base <+: h)
    (v1 v2 : Nat) {g1 : VoteGraph} (h1 : g.insertT h h.length v1 = .ok g1) :
    g1.insertT h h.length v2 = g.insertT h h.length (v1 + v2) := by
  by_cases hkk : h ∈ g.keys
  · have hfc := (findContainingNodes_spec hWF h h.length).1 hkk
    obtain ⟨e, he⟩ : ∃ e, lookupE g.entries h = some e := by
      rw [← Option.isSome_iff_exists, lookupE_isSome_iff]
      exact hkk
    obtain ⟨m1, hm1, -, -⟩ := propagate_effect (g.maxNum + 1) g hWF he
      (by have := mem_maxNum he; omega) v1
    have h1' : g.insertT h h.length v1 =
        .ok { entries := m1, heads := g.heads, base := g.base } := by
      simp only [VoteGraph.insertT, VoteGraph.insert, hfc, hm1]
    rw [h1'] at h1
    injection h1 with h1
    subst h1
    rw [insert_second hWF hkk v1 v2 hm1]
    simp only [VoteGraph.insertT, VoteGraph.insert, hfc]
  · obtain ⟨C, hfc, hCn, hCiff⟩ := (findContainingNodes_spec hWF h h.length).2 hkk
    cases C with
    | nil =>
      have hnc : ∀ x, ¬ containsBlock g.entries h h.length x := by
        intro x hx
        have := (hCiff x).mpr hx
        simp at this
      have hneqb : h ≠ g.base := fun hc => hkk (hc ▸ hWF.base_mem_keys)
      obtain ⟨gS, i, happ, hiM, hak, hmin, hent, hheads, hbase⟩ :=
        append_construct hWF hkk hpre hneqb
      have hgS : gS = { entries := (h,
                          { number := h.length, ancestors := edgeList h (i + 1),
                            descendents := [], cumulative_vote := 0 }) ::
                          updateE g.entries (ancKey h (i + 1))
                            (fun e => { e with descendents := e.descendents ++ [h] }),
                        heads := (g.heads.filter (· ≠ ancKey h (i + 1))) ++ [h],
                        base := g.base } := by
        have heta : gS = (⟨gS.entries, gS.heads, gS.base⟩ : VoteGraph) := rfl
        rw [heta, hent, hheads, hbase]
      subst hgS
      set G1 : VoteGraph :=
        { entries := (h,
            { number := h.length, ancestors := edgeList h (i + 1),
              descendents := [], cumulative_vote := 0 }) ::
            updateE g.entries (ancKey h (i + 1))
              (fun e => { e with descendents := e.descendents ++ [h] }),
          heads := (g.heads.filter (· ≠ ancKey h (i + 1))) ++ [h],
          base := g.base } with hG1
      have hWF1 : WF G1 := append_WF hWF hkk hpre hnc hiM hak hmin
      have hstep : ∀ w, g.insertT h h.length w =
          (match propagateLoop G1.entries h w (G1.maxNum + 1) with
           | none => .error .internal
           | some m2 => .ok { entries := m2, heads := G1.heads, base := G1.base }) := by
        intro w
        simp only [VoteGraph.insertT, VoteGraph.insert, hfc, List.isEmpty_nil, if_true, happ]
      have heS : lookupE G1.entries h =
          some { number := h.length, ancestors := edgeList h (i + 1),
                 descendents := [], cumulative_vote := 0 } := by
        rw [hG1]
        simp [lookupE]
      have hh1 : h ∈ G1.keys := by
        show h ∈ G1.entries.map Prod.fst
        rw [hG1]
        simp
      obtain ⟨m1, hm1, -, -⟩ := propagate_effect (G1.maxNum + 1) G1 hWF1 heS
        (by have := mem_maxNum heS; omega) v1
      rw [hstep v1] at h1
      simp only [hm1] at h1
      injection h1 with h1
      subst h1
      rw [insert_second hWF1 hh1 v1 v2 hm1, hstep (v1 + v2)]
    | cons d0 rest =>
      have hne' : (d0 :: rest) ≠ [] := by simp
      obtain ⟨b, hb, hpk, hmin, hmem, hIB⟩ :=
        introduceBranch_spec hWF hkk hCn hCiff hne'
      have hWFlit := branchResult_WF hWF hkk hCn hne' hCiff hb hpk hmin hmem
      set G1 : VoteGraph :=
        { entries := (h,
            { number := h.length
              ancestors := edgeList h (h.length - b)
              descendents := d0 :: rest
              cumulative_vote := sumCum g.entries (d0 :: rest) }) ::
            updateE (truncAll h.length g.entries (d0 :: rest)) (h.take b) (fun e =>
              { e with descendents :=
                  (e.descendents.filter (fun x => x ∉ (d0 :: rest))) ++ [h] })
          heads := g.heads
          base := g.base } with hG1
      have hWF1 : WF G1 := hWFlit
      have hstep : ∀ w, g.insertT h h.length w =
          (match propagateLoop G1.entries h w (G1.maxNum + 1) with
           | none => .error .internal
           | some m2 => .ok { entries := m2, heads := G1.heads, base := G1.base }) := by
        intro w
        simp only [VoteGraph.insertT, VoteGraph.insert, hfc]
        rw [if_neg (show ¬((d0 :: rest).isEmpty = true) by simp)]
        simp only [hIB]
      have heS : lookupE G1.entries h =
          some { number := h.length
                 ancestors := edgeList h (h.length - b)
                 descendents := d0 :: rest
                 cumulative_vote := sumCum g.entries (d0 :: rest) } := by
        rw [hG1]
        simp [lookupE]
      have hh1 : h ∈ G1.keys := by
        show h ∈ G1.entries.map Prod.fst
        rw [hG1]
        simp
      obtain ⟨m1, hm1, -, -⟩ := propagate_effect (G1.maxNum + 1) G1 hWF1 heS
        (by have := mem_maxNum heS; omega) v1
      rw [hstep v1] at h1
      simp only [hm1] at h1
      injection h1 with h1
      subst h1
      rw [insert_second hWF1 hh1 v1 v2 hm1, hstep (v1 + v2)]

/-! ## The commit-timer selection (C8) -/

/-- Every precommit selected for a commit targets a descendant-or-equal of
the finalized block. -/
theorem commitPrecommits_desc (t : Block) :
    ∀ (l : List (VoterId × Precommit × Sig)) (ids : List VoterId),
      ∀ sp ∈ commitPrecommits t l ids,
        isEqualOrDescendentOf t sp.precommit.target_hash = true
  | [], _, sp, hsp => by simp [commitPrecommits] at hsp
  | (id, pc, sig) :: rest, ids, sp, hsp => by
    rw [commitPrecommits] at hsp
    by_cases hcond : (isEqualOrDescendentOf t pc.target_hash && decide (id ∉ ids)) = true
    · rw [if_pos hcond] at hsp
      rcases List.mem_cons.mp hsp with h1 | h1
      · rw [h1]
        exact (Bool.and_eq_true_iff.mp hcond).1
      · exact commitPrecommits_desc t rest (id :: ids) sp h1
    · rw [if_neg hcond] at hsp
      exact commitPrecommits_desc t rest ids sp hsp

/-- The selected precommits carry pairwise distinct voter ids, none of
them already recorded. -/
theorem commitPrecommits_nodup (t : Block) :
    ∀ (l : List (VoterId × Precommit × Sig)) (ids : List VoterId),
      ((commitPrecommits t l ids).map (fun sp => sp.id)).Nodup ∧
      (∀ sp ∈ commitPrecommits t l ids, sp.id ∉ ids)
  | [], _ => by simp [commitPrecommits]
  | (id, pc, sig) :: rest, ids => by
    rw [commitPrecommits]
    by_cases hcond : (isEqualOrDescendentOf t pc.target_hash && decide (id ∉ ids)) = true
    · rw [if_pos hcond]
      obtain ⟨hn, hni⟩ := commitPrecommits_nodup t rest (id :: ids)
      have hid : id ∉ ids := by
        have := (Bool.and_eq_true_iff.mp hcond).2
        simpa using this
      constructor
      · rw [List.map_cons]
        refine List.nodup_cons.mpr ⟨?_, hn⟩
        intro hc
        obtain ⟨sp, hsp, hspid⟩ := List.mem_map.mp hc
        exact hni sp hsp (by rw [hspid]; exact List.mem_cons_self ..)
      · intro sp hsp
        rcases List.mem_cons.mp hsp with h1 | h1
        · rw [h1]
          exact hid
        · exact fun hc => hni sp h1 (List.mem_cons_of_mem _ hc)
    · rw [if_neg hcond]
      obtain ⟨hn, hni⟩ := commitPrecommits_nodup t rest ids
      exact ⟨hn, hni⟩

/-- The selection of `RoundCommitter::commit` refines the spec's rule:
for each voter it keeps exactly the first precommit (in arrival order)
that targets a descendant-or-equal of the finalized block. -/
theorem commitPrecommits_filter (t : Block) (i : VoterId) :
    ∀ (l : List (VoterId × Precommit × Sig)) (ids : List VoterId),
      (commitPrecommits t l ids).filter (fun sp => decide (sp.id = i)) =
        (if i ∈ ids then []
         else match specFirstQualifying t l i with
           | none => []
           | some (pc, sig) => [{ precommit := pc, signature := sig, id := i }])
  | [], ids => by
    by_cases hmem : i ∈ ids <;> simp [commitPrecommits, specFirstQualifying, hmem]
  | (id, pc, sig) :: rest, ids => by
    rw [commitPrecommits]
    have hq0 : specFirstQualifying t ((id, pc, sig) :: rest) i =
        (if decide (id = i) && isEqualOrDescendentOf t pc.target_hash then some (pc, sig)
         else specFirstQualifying t rest i) := by
      unfold specFirstQualifying
      rw [List.filter_cons]
      by_cases hc : (decide (id = i) && isEqualOrDescendentOf t pc.target_hash) = true
      · rw [if_pos hc, if_pos hc]
        rfl
      · rw [if_neg hc, if_neg hc]
    by_cases hq : isEqualOrDescendentOf t pc.target_hash = true
    · by_cases hmem : id ∈ ids
      · rw [if_neg (by simp [hq, hmem])]
        rw [commitPrecommits_filter t i rest ids, hq0]
        by_cases hii : i ∈ ids
        · rw [if_pos hii, if_pos hii]
        · rw [if_neg hii, if_neg hii]
          have hid : ¬ (id = i) := fun hc => hii (hc ▸ hmem)
          rw [if_neg (by simp [hid])]
      · rw [if_pos (by simp [hq, hmem])]
        by_cases hii : i = id
        · rw [List.filter_cons, if_pos (by simp [hii])]
          rw [commitPrecommits_filter t i rest (id :: ids)]
          rw [if_pos (by rw [hii]; exact List.mem_cons_self ..)]
          rw [if_neg (by rw [hii]; exact hmem), hq0]
          rw [if_pos (by simp [hii.symm, hq])]
          rw [hii]
        · rw [List.filter_cons,
            if_neg (by simp only [decide_eq_true_eq]; exact fun hc => hii hc.symm)]
          rw [commitPrecommits_filter t i rest (id :: ids)]
          have hiids : i ∈ id :: ids ↔ i ∈ ids := by
            simp [List.mem_cons, hii]
          by_cases hii2 : i ∈ ids
          · rw [if_pos (hiids.mpr hii2), if_pos hii2]
          · rw [if_neg (fun hc => hii2 (hiids.mp hc)), if_neg hii2, hq0]
            rw [if_neg (by
              simp only [Bool.and_eq_true_iff, decide_eq_true_eq]
              intro hc
              exact hii hc.1.symm)]
    · rw [if_neg (by simp [hq])]
      rw [commitPrecommits_filter t i rest ids, hq0]
      rw [if_neg (show ¬((decide (id = i) && isEqualOrDescendentOf t pc.target_hash) = true)
        by simp [hq])]

/-! ## Finalization-channel monotonicity (C1, main path) -/

/-- Draining the finalization channel emits strictly increasing heights,
all strictly above the incoming `last_finalized`, and `last_finalized`
never moves down. -/
theorem drainFinalized_mono :
    ∀ (l : List (Block × Nat)) (lf : Block × Nat),
      (∀ x ∈ (drainFinalized lf l).2, lf.2 < x.2) ∧
      (drainFinalized lf l).2.Pairwise (fun a b => a.2 < b.2) ∧
      lf.2 ≤ (drainFinalized lf l).1.2
  | [], lf => by simp [drainFinalized]
  | (fh, fn) :: rest, lf => by
    rw [drainFinalized]
    by_cases hlt : lf.2 < fn
    · rw [if_pos hlt]
      obtain ⟨h1, h2, h3⟩ := drainFinalized_mono rest (fh, fn)
      refine ⟨?_, ?_, ?_⟩
      · show ∀ x ∈ (fh, fn) :: (drainFinalized (fh, fn) rest).2, lf.2 < x.2
        intro x hx
        rcases List.mem_cons.mp hx with hx1 | hx1
        · rw [hx1]
          exact hlt
        · exact lt_trans hlt (h1 x hx1)
      · show ((fh, fn) :: (drainFinalized (fh, fn) rest).2).Pairwise (fun a b => a.2 < b.2)
        exact List.pairwise_cons.mpr ⟨fun x hx => h1 x hx, h2⟩
      · show lf.2 ≤ (drainFinalized (fh, fn) rest).1.2
        exact le_trans (le_of_lt hlt) h3
    · rw [if_neg hlt]
      exact drainFinalized_mono rest lf

/-! ## The ghost merge-point search (C3) -/

theorem lookupW_updateW_self {acc : List (Block × Nat)} {k : Block} {w0 : Nat}
    (h : lookupW acc k = some w0) (w : Nat) : lookupW (updateW acc k w) k = some w := by
  induction acc with
  | nil => simp [lookupW] at h
  | cons p t ih =>
    obtain ⟨a, wa⟩ := p
    simp only [lookupW] at h
    simp only [updateW]
    by_cases ha : a = k
    · rw [if_pos ha]
      simp [lookupW, ha]
    · rw [if_neg ha] at h
      rw [if_neg ha]
      simp only [lookupW, if_neg ha]
      exact ih h

theorem lookupW_updateW_ne {acc : List (Block × Nat)} {k k' : Block} (h : k' ≠ k) (w : Nat) :
    lookupW (updateW acc k w) k' = lookupW acc k' := by
  induction acc with
  | nil => rfl
  | cons p t ih =>
    obtain ⟨a, wa⟩ := p
    simp only [updateW]
    by_cases ha : a = k
    · rw [if_pos ha]
      have hak : a ≠ k' := by
        rw [ha]
        exact fun hc => h hc.symm
      simp only [lookupW, if_neg hak]
    · rw [if_neg ha]
      simp only [lookupW]
      by_cases ha2 : a = k'
      · rw [if_pos ha2, if_pos ha2]
      · rw [if_neg ha2, if_neg ha2]
        exact ih

/-- A duplicate-free selection of naturals from a list is bounded by the
full sum. -/
theorem sublist_sum_le {l1 l2 : List Nat} (h : l1.Subperm l2) : l1.sum ≤ l2.sum := by
  obtain ⟨l', hperm, hsub⟩ := h
  rw [← hperm.sum_eq]
  clear hperm
  induction hsub with
  | slnil => exact le_refl _
  | cons x hs ih =>
    simp only [List.sum_cons]
    omega
  | cons₂ x hs ih =>
    simp only [List.sum_cons]
    omega

/-- When one offset of the merge-point loop accepts a block `b`, the
accepted weight satisfies the condition and is bounded by the accumulator
entry for `b` plus the votes of the unprocessed descendent nodes reporting
`b` at this offset. -/
theorem stepOffset_some {cond : Nat → Bool} {target : Nat} :
    ∀ (ds : List (Block × Entry)) (acc : List (Block × Nat)) (b : Block),
      stepOffset cond target ds acc = some b →
      ∃ w', cond w' = true ∧
        w' ≤ ((lookupW acc b).getD 0) +
          ((ds.filter (fun d => d.2.ancestorBlock target = some b)).map
            (fun d => d.2.cumulative_vote)).sum
  | [], acc, b, h => by simp [stepOffset] at h
  | d :: rest, acc, b, h => by
    rw [stepOffset] at h
    cases hab : d.2.ancestorBlock target with
    | none =>
      simp only [hab] at h
      obtain ⟨w', hc, hle⟩ := stepOffset_some rest acc b h
      refine ⟨w', hc, ?_⟩
      rw [List.filter_cons, if_neg (by simp [hab])]
      exact hle
    | some b2 =>
      simp only [hab] at h
      cases hlk : lookupW acc b2 with
      | some w =>
        simp only [hlk] at h
        by_cases hcond : cond (w + d.2.cumulative_vote) = true
        · rw [if_pos hcond] at h
          have hb : b2 = b := Option.some.inj h
          subst hb
          refine ⟨w + d.2.cumulative_vote, hcond, ?_⟩
          rw [hlk, List.filter_cons, if_pos (by simp [hab])]
          simp only [List.map_cons, List.sum_cons, Option.getD_some]
          omega
        · rw [if_neg hcond] at h
          obtain ⟨w', hc, hle⟩ :=
            stepOffset_some rest (updateW acc b2 (w + d.2.cumulative_vote)) b h
          refine ⟨w', hc, ?_⟩
          by_cases hbb : b = b2
          · rw [← hbb] at hlk
            rw [← hbb, lookupW_updateW_self hlk] at hle
            rw [hlk, List.filter_cons, if_pos (by simp [hab, hbb])]
            simp only [List.map_cons, List.sum_cons, Option.getD_some] at hle ⊢
            omega
          · rw [lookupW_updateW_ne hbb] at hle
            rw [List.filter_cons, if_neg (by
              simp only [hab, decide_eq_true_eq, Option.some.injEq]
              exact fun hc2 => hbb hc2.symm)]
            exact hle
      | none =>
        simp only [hlk] at h
        obtain ⟨w', hc, hle⟩ :=
          stepOffset_some rest ((b2, d.2.cumulative_vote) :: acc) b h
        refine ⟨w', hc, ?_⟩
        by_cases hbb : b = b2
        · subst hbb
          rw [show lookupW ((b, d.2.cumulative_vote) :: acc) b = some d.2.cumulative_vote
            from by simp [lookupW]] at hle
          rw [List.filter_cons, if_pos (by simp [hab]), hlk]
          simp only [List.map_cons, List.sum_cons, Option.getD_some,
            Option.getD_none] at hle ⊢
          omega
        · rw [show lookupW ((b2, d.2.cumulative_vote) :: acc) b = lookupW acc b
            from by
              simp only [lookupW]
              rw [if_neg (fun hc : b2 = b => hbb hc.symm)]] at hle
          rw [List.filter_cons, if_neg (by
            simp only [hab, decide_eq_true_eq, Option.some.injEq]
            exact fun hc2 => hbb hc2.symm)]
          exact hle

/-- If `ancestor_block` of an entry lands on a vote-node key, it can only
be the far end of the edge, i.e. the entry's ancestor node. -/
theorem ancestorBlock_key_child {g : VoteGraph} (hWF : WF g) {x : Block} {ex : Entry}
    (hex : lookupE g.entries x = some ex) {b : Block} {target : Nat}
    (hab : ex.ancestorBlock target = some b) (hbk : b ∈ g.keys) :
    ex.ancestorNode = some b := by
  obtain ⟨hnx, hprex, hshx, helx⟩ := hWF.entry_facts hex
  unfold Entry.ancestorBlock at hab
  by_cases htn : ex.number ≤ target
  · rw [if_pos htn] at hab
    cases hab
  · rw [if_neg htn] at hab
    rw [hshx, edgeList_get?] at hab
    by_cases hidx : ex.number - target - 1 < ex.ancestors.length
    · rw [if_pos hidx] at hab
      have hb : b = x.take (x.length - (ex.number - target - 1) - 1) :=
        (Option.some.inj hab).symm
      have hm1 : 1 ≤ ex.ancestors.length := by omega
      by_cases hlast : ex.number - target - 1 = ex.ancestors.length - 1
      · rw [hWF.ancestorNode_eq hex, if_neg (by omega)]
        congr 1
        unfold ancKey
        rw [hb]
        congr 1
        omega
      · exfalso
        have hint : b ∈ ex.ancestors.dropLast := by
          rw [hshx, edgeList_dropLast, mem_edgeList]
          exact ⟨ex.number - target - 1, by omega, hb⟩
        exact hWF.interior_nonkey (x, ex) (lookupE_mem hex) b hint (by
          rw [← keys_eq]
          exact hbk)
    · rw [if_neg hidx] at hab
      cases hab

theorem subperm_map {α β : Type} (f : α → β) {l1 l2 : List α} (h : l1.Subperm l2) :
    (l1.map f).Subperm (l2.map f) := by
  obtain ⟨m, hp, hs⟩ := h
  exact ⟨m.map f, hp.map f, hs.map f⟩

/-- The summed votes of any duplicate-free family of vote-nodes reporting
block `b` at height `target` are bounded by the block's chain weight. -/
theorem dnodes_weight_le {g : VoteGraph} (hWF : WF g) {l : List (Block × Nat × Nat)}
    (hinv : cumInv g l) {ds : List (Block × Entry)}
    (hnd : (ds.map Prod.fst).Nodup)
    (hlk : ∀ d ∈ ds, lookupE g.entries d.1 = some d.2)
    (b : Block) (target : Nat) :
    ((ds.filter (fun d => d.2.ancestorBlock target = some b)).map
      (fun d => d.2.cumulative_vote)).sum ≤ g.blockWeight b target := by
  have hsubl : (ds.filter (fun d => d.2.ancestorBlock target = some b)).Sublist ds :=
    List.filter_sublist ..
  have hndf : ((ds.filter (fun d => d.2.ancestorBlock target = some b)).map Prod.fst).Nodup :=
    hnd.sublist (hsubl.map Prod.fst)
  have hndp : (ds.filter (fun d => d.2.ancestorBlock target = some b)).Nodup :=
    hndf.of_map
  have hmemf : ∀ x ∈ ds.filter (fun d => d.2.ancestorBlock target = some b),
      lookupE g.entries x.1 = some x.2 ∧ x.2.ancestorBlock target = some b := by
    intro x hx
    have h1 := List.mem_filter.mp hx
    exact ⟨hlk x h1.1, by simpa using h1.2⟩
  unfold VoteGraph.blockWeight
  cases hlb : lookupE g.entries b with
  | none =>
    have hsp : (ds.filter (fun d => d.2.ancestorBlock target = some b)).Subperm
        (g.entries.filter fun p => (p.2.inDirectAncestry b target).getD false) := by
      apply hndp.subperm
      intro x hx
      obtain ⟨hx1, hx2⟩ := hmemf x hx
      refine List.mem_filter.mpr ⟨lookupE_mem hx1, ?_⟩
      unfold Entry.inDirectAncestry
      rw [hx2]
      simp
    have := sublist_sum_le (subperm_map (fun d => d.2.cumulative_vote) hsp)
    exact this
  | some eb =>
    have hbk : b ∈ g.keys := by
      rw [keys_eq, ← lookupE_isSome_iff, hlb]
      rfl
    have hchild : ∀ x ∈ ds.filter (fun d => d.2.ancestorBlock target = some b),
        x.1 ∈ eb.descendents := by
      intro x hx
      obtain ⟨hx1, hx2⟩ := hmemf x hx
      have han := ancestorBlock_key_child hWF hx1 hx2 hbk
      obtain ⟨-, -, -, ea, hea, hdin⟩ := hWF.parent_of hx1 han
      have hee : ea = eb := by
        rw [hlb] at hea
        exact (Option.some.inj hea).symm
      exact hee ▸ hdin
    have hsum1 : ((ds.filter (fun d => d.2.ancestorBlock target = some b)).map
        (fun d => d.2.cumulative_vote)).sum =
        (((ds.filter (fun d => d.2.ancestorBlock target = some b)).map Prod.fst).map
          (cumAt g.entries)).sum := by
      rw [List.map_map]
      congr 1
      apply List.map_congr_left
      intro x hx
      obtain ⟨hx1, -⟩ := hmemf x hx
      show x.2.cumulative_vote = cumAt g.entries x.1
      unfold cumAt
      rw [hx1]
      rfl
    have hsp : ((ds.filter (fun d => d.2.ancestorBlock target = some b)).map
        Prod.fst).Subperm eb.descendents := by
      apply hndf.subperm
      intro k hk
      obtain ⟨x, hx, hxk⟩ := List.mem_map.mp hk
      rw [← hxk]
      exact hchild x hx
    have hsum2 := sublist_sum_le (subperm_map (cumAt g.entries) hsp)
    have hinvb := hinv b eb hlb
    rw [childCumSum_eq] at hinvb
    rw [hsum1]
    show _ ≤ eb.cumulative_vote
    omega

/-! ## Weight bounds and totality of the ghost searches -/

theorem getLast?_snoc {α : Type} (l : List α) (b : α) : (l ++ [b]).getLast? = some b := by
  induction l with
  | nil => rfl
  | cons x t ih =>
    cases t with
    | nil => rfl
    | cons y u =>
      rw [List.cons_append, List.cons_append, List.getLast?_cons_cons, ← List.cons_append]
      exact ih

theorem mem_filterMap_lookup {m : EMap} {l : List Block} {x : Block × Entry}
    (h : x ∈ l.filterMap fun d => (lookupE m d).map fun e => (d, e)) :
    lookupE m x.1 = some x.2 ∧ x.1 ∈ l := by
  obtain ⟨a, ha, hx⟩ := List.mem_filterMap.mp h
  cases hl : lookupE m a with
  | none => rw [hl] at hx; cases hx
  | some e =>
    rw [hl] at hx
    simp only [Option.map_some', Option.some.injEq] at hx
    subst hx
    exact ⟨hl, ha⟩

theorem filterMap_lookup_fst_sublist (m : EMap) :
    ∀ l : List Block,
      ((l.filterMap fun d => (lookupE m d).map fun e => (d, e)).map Prod.fst).Sublist l
  | [] => by simp
  | a :: t => by
    cases hl : lookupE m a with
    | none =>
      simp only [List.filterMap_cons, hl, Option.map_none']
      exact (filterMap_lookup_fst_sublist m t).cons a
    | some e =>
      simp only [List.filterMap_cons, hl, Option.map_some', List.map_cons]
      exact (filterMap_lookup_fst_sublist m t).cons₂ a

theorem ghostLoop_succ (cond : Nat → Bool) (fuel : Nat) (dnodes : List (Block × Entry))
    (bn : Nat) (hashes : List Block) :
    ghostLoop cond (fuel + 1) dnodes bn hashes =
      match stepOffset cond (bn + 1) dnodes [] with
      | none => some (hashes, bn)
      | some newBest =>
        ghostLoop cond fuel
          (dnodes.filter fun d => (d.2.inDirectAncestry newBest (bn + 1)).getD false)
          (bn + 1) (hashes ++ [newBest]) := rfl

/-- Through the merge-point offset loop, the last accumulated hash always
carries chain weight meeting a monotone condition. -/
theorem ghostLoop_weight {g : VoteGraph} {l : List (Block × Nat × Nat)} (hWF : WF g)
    (hinv : cumInv g l) {cond : Nat → Bool}
    (hmono : ∀ a b : Nat, a ≤ b → cond a = true → cond b = true) :
    ∀ (fuel : Nat) (dnodes : List (Block × Entry)) (bn : Nat) (hashes : List Block),
      (dnodes.map Prod.fst).Nodup →
      (∀ d ∈ dnodes, lookupE g.entries d.1 = some d.2) →
      (∃ bl, hashes.getLast? = some bl ∧ cond (g.blockWeight bl bn) = true) →
      ∀ {hs : List Block} {bn' : Nat},
        ghostLoop cond fuel dnodes bn hashes = some (hs, bn') →
        ∃ bl, hs.getLast? = some bl ∧ cond (g.blockWeight bl bn') = true := by
  intro fuel
  induction fuel with
  | zero =>
    intro dnodes bn hashes _ _ _ hs bn' h
    simp only [ghostLoop] at h
    exact Option.noConfusion h
  | succ f ih =>
    intro dnodes bn hashes hnd hlk hbl hs bn' h
    rw [ghostLoop_succ] at h
    cases hso : stepOffset cond (bn + 1) dnodes [] with
    | none =>
      simp only [hso, Option.some.injEq, Prod.mk.injEq] at h
      obtain ⟨rfl, rfl⟩ := h
      exact hbl
    | some newBest =>
      simp only [hso] at h
      have hnd' : (((dnodes.filter fun d =>
          (d.2.inDirectAncestry newBest (bn + 1)).getD false).map Prod.fst)).Nodup :=
        hnd.sublist ((List.filter_sublist _).map Prod.fst)
      have hlk' : ∀ d ∈ dnodes.filter fun d =>
          (d.2.inDirectAncestry newBest (bn + 1)).getD false,
          lookupE g.entries d.1 = some d.2 :=
        fun d hd => hlk d (List.mem_of_mem_filter hd)
      refine ih _ _ _ hnd' hlk' ?_ h
      refine ⟨newBest, getLast?_snoc _ _, ?_⟩
      obtain ⟨w', hcw, hle⟩ := stepOffset_some dnodes [] newBest hso
      have hdw := dnodes_weight_le hWF hinv hnd hlk newBest (bn + 1)
      refine hmono w' _ ?_ hcw
      simp only [lookupW, Option.getD_none] at hle
      omega

/-- Unfolding of `ghost_find_merge_point`: the initial descendent-node list
is keyed by a subfamily of the active node's descendents, with correct
entry lookups. -/
theorem ghostFindMergePoint_eq (g : VoteGraph) (nodeKey : Block) (activeNode : Entry)
    (forceConstrain : Option (Block × Nat)) (cond : Nat → Bool) :
    ∃ D : List (Block × Entry),
      (D.map Prod.fst).Sublist activeNode.descendents ∧
      (∀ x ∈ D, lookupE g.entries x.1 = some x.2) ∧
      g.ghostFindMergePoint nodeKey activeNode forceConstrain cond =
        (ghostLoop cond (g.maxNum + 1) D activeNode.number [nodeKey]).map
          fun p => { hashes := p.1, best_number := p.2 } := by
  refine ⟨((activeNode.descendents.filterMap
      fun d => (lookupE g.entries d).map fun e => (d, e)).filter
    fun d => match forceConstrain with
      | some (h, num) => (d.2.inDirectAncestry h num).getD false
      | none => true), ?_, ?_, rfl⟩
  · exact ((List.filter_sublist _).map Prod.fst).trans (filterMap_lookup_fst_sublist _ _)
  · intro x hx
    exact (mem_filterMap_lookup (List.mem_of_mem_filter hx)).1

/-- Any best chain produced by `ghost_find_merge_point` ends in a block
whose chain weight meets a monotone condition. -/
theorem ghostFindMergePoint_weight {g : VoteGraph} {l : List (Block × Nat × Nat)} (hWF : WF g)
    (hinv : cumInv g l) {cond : Nat → Bool}
    (hmono : ∀ a b : Nat, a ≤ b → cond a = true → cond b = true)
    {nodeKey : Block} {activeNode : Entry}
    (hlkn : lookupE g.entries nodeKey = some activeNode)
    (hcond : cond activeNode.cumulative_vote = true)
    (forceConstrain : Option (Block × Nat)) {sub : Subchain}
    (h : g.ghostFindMergePoint nodeKey activeNode forceConstrain cond = some sub) :
    ∃ bl n, sub.best = some (bl, n) ∧ cond (g.blockWeight bl n) = true := by
  obtain ⟨D, hDsub, hDlk, hDeq⟩ := ghostFindMergePoint_eq g nodeKey activeNode forceConstrain cond
  rw [hDeq] at h
  cases hgl : ghostLoop cond (g.maxNum + 1) D activeNode.number [nodeKey] with
  | none => rw [hgl] at h; exact Option.noConfusion h
  | some p =>
    obtain ⟨hs, bn'⟩ := p
    rw [hgl] at h
    simp only [Option.map_some'] at h
    have hsub2 : ({ hashes := hs, best_number := bn' } : Subchain) = sub := Option.some.inj h
    have hnodup : (D.map Prod.fst).Nodup :=
      (hWF.desc_nodup (nodeKey, activeNode) (lookupE_mem hlkn)).sublist hDsub
    have hstart : ∃ bl, ([nodeKey] : List Block).getLast? = some bl ∧
        cond (g.blockWeight bl activeNode.number) = true := by
      refine ⟨nodeKey, rfl, ?_⟩
      unfold VoteGraph.blockWeight
      rw [hlkn]
      exact hcond
    obtain ⟨bl, hbl1, hbl2⟩ :=
      ghostLoop_weight hWF hinv hmono (g.maxNum + 1) D activeNode.number [nodeKey]
        hnodup hDlk hstart hgl
    refine ⟨bl, bn', ?_, hbl2⟩
    rw [← hsub2]
    unfold Subchain.best
    simp only [hbl1, Option.map_some']

/-- Unfolding of one step of the breadth-first descent of `find_ghost`:
the candidate list consists of condition-satisfying descendent
vote-nodes of the active node. -/
theorem bfsLoop_succ (m : EMap) (cond : Nat → Bool) (currentBest : Option (Block × Nat))
    (fuel : Nat) (nodeKey : Block) (activeNode : Entry) (fc : Bool) :
    ∃ L : List (Block × Entry),
      (∀ x ∈ L, lookupE m x.1 = some x.2 ∧ cond x.2.cumulative_vote = true ∧
        x.1 ∈ activeNode.descendents) ∧
      bfsLoop m cond currentBest (fuel + 1) nodeKey activeNode fc =
        match L.head? with
        | some (key, node) => bfsLoop m cond currentBest fuel key node false
        | none => some (nodeKey, activeNode, fc) := by
  refine ⟨((activeNode.descendents.filterMap
        fun d => (lookupE m d).map fun e => (d, e)).filter
      fun p =>
        (match fc, currentBest with
         | true, some (h, n) => (p.2.inDirectAncestry h n).getD false
         | _, _ => true)).filter (fun p => cond p.2.cumulative_vote), ?_, rfl⟩
  intro x hx
  have h1 := List.mem_filter.mp hx
  have h2 := List.mem_of_mem_filter h1.1
  have h3 := mem_filterMap_lookup h2
  exact ⟨h3.1, by simpa using h1.2, h3.2⟩

/-- Every node reached by the breadth-first descent is a vote-node whose
cumulative vote meets the condition. -/
theorem bfsLoop_props {m : EMap} {cond : Nat → Bool} {currentBest : Option (Block × Nat)} :
    ∀ (fuel : Nat) (nodeKey : Block) (activeNode : Entry) (fc : Bool),
      lookupE m nodeKey = some activeNode →
      cond activeNode.cumulative_vote = true →
      ∀ {k : Block} {n : Entry} {f : Bool},
        bfsLoop m cond currentBest fuel nodeKey activeNode fc = some (k, n, f) →
        lookupE m k = some n ∧ cond n.cumulative_vote = true := by
  intro fuel
  induction fuel with
  | zero =>
    intro nodeKey activeNode fc hlkn hcond k n f h
    simp only [bfsLoop] at h
    exact Option.noConfusion h
  | succ fl ih =>
    intro nodeKey activeNode fc hlkn hcond k n f h
    obtain ⟨L, hLmem, hLeq⟩ := bfsLoop_succ m cond currentBest fl nodeKey activeNode fc
    rw [hLeq] at h
    cases L with
    | nil =>
      simp only [List.head?, Option.some.injEq, Prod.mk.injEq] at h
      obtain ⟨rfl, rfl, rfl⟩ := h
      exact ⟨hlkn, hcond⟩
    | cons x t =>
      obtain ⟨key, node⟩ := x
      simp only [List.head?] at h
      obtain ⟨hx1, hx2, -⟩ := hLmem (key, node) (List.mem_cons_self _ _)
      exact ih key node false hx1 hx2 h

/-- Fuel sufficiency of the breadth-first descent: numbers strictly
increase along descendent hops, so `maxNum + 1` fuel never runs out. -/
theorem bfsLoop_total {g : VoteGraph} (hWF : WF g) (cond : Nat → Bool)
    (currentBest : Option (Block × Nat)) :
    ∀ (fuel : Nat) (nodeKey : Block) (activeNode : Entry) (fc : Bool),
      lookupE g.entries nodeKey = some activeNode →
      g.maxNum + 1 ≤ fuel + activeNode.number →
      bfsLoop g.entries cond currentBest fuel nodeKey activeNode fc ≠ none := by
  intro fuel
  induction fuel with
  | zero =>
    intro nodeKey activeNode fc hlkn hfuel
    exact absurd hfuel (by have := mem_maxNum hlkn; omega)
  | succ fl ih =>
    intro nodeKey activeNode fc hlkn hfuel
    obtain ⟨L, hLmem, hLeq⟩ := bfsLoop_succ g.entries cond currentBest fl nodeKey activeNode fc
    rw [hLeq]
    cases L with
    | nil => simp [List.head?]
    | cons x t =>
      obtain ⟨key, node⟩ := x
      simp only [List.head?]
      obtain ⟨hx1, -, hx3⟩ := hLmem (key, node) (List.mem_cons_self _ _)
      have hx1' : lookupE g.entries key = some node := hx1
      have hx3' : key ∈ activeNode.descendents := hx3
      obtain ⟨ed, hed, -, hlen, -⟩ := hWF.child_of hlkn hx3'
      have hednode : ed = node := by
        rw [hed] at hx1'
        exact Option.some.inj hx1'
      subst hednode
      have hnum : activeNode.number < ed.number := by
        obtain ⟨hn1, -, -, -⟩ := hWF.entry_facts hlkn
        obtain ⟨hn2, -, -, -⟩ := hWF.entry_facts hx1'
        omega
      exact ih key ed false hx1' (by omega)

theorem stepOffset_some_exists {cond : Nat → Bool} {target : Nat} :
    ∀ (ds : List (Block × Entry)) (acc : List (Block × Nat)) (b : Block),
      stepOffset cond target ds acc = some b → ∃ d ∈ ds, target < d.2.number
  | [], acc, b, h => by simp [stepOffset] at h
  | d :: rest, acc, b, h => by
    rw [stepOffset] at h
    cases hab : d.2.ancestorBlock target with
    | none =>
      simp only [hab] at h
      obtain ⟨d', hd', hn⟩ := stepOffset_some_exists rest acc b h
      exact ⟨d', List.mem_cons_of_mem _ hd', hn⟩
    | some b2 =>
      refine ⟨d, List.mem_cons_self _ _, ?_⟩
      unfold Entry.ancestorBlock at hab
      by_cases htn : d.2.number ≤ target
      · rw [if_pos htn] at hab
        cases hab
      · omega

/-- Fuel sufficiency of the merge-point offset loop: each successful offset
needs a vote-node above the new height, so the loop stops by `maxNum`. -/
theorem ghostLoop_total {g : VoteGraph} (cond : Nat → Bool) :
    ∀ (fuel : Nat) (dnodes : List (Block × Entry)) (bn : Nat) (hashes : List Block),
      (∀ d ∈ dnodes, lookupE g.entries d.1 = some d.2) →
      g.maxNum ≤ bn + fuel →
      ghostLoop cond (fuel + 1) dnodes bn hashes ≠ none := by
  intro fuel
  induction fuel with
  | zero =>
    intro dnodes bn hashes hlk hb
    rw [ghostLoop_succ]
    cases hso : stepOffset cond (bn + 1) dnodes [] with
    | none => simp [hso]
    | some newBest =>
      exfalso
      obtain ⟨d, hd, hn⟩ := stepOffset_some_exists dnodes [] newBest hso
      have := mem_maxNum (hlk d hd)
      omega
  | succ fl ih =>
    intro dnodes bn hashes hlk hb
    rw [ghostLoop_succ]
    cases hso : stepOffset cond (bn + 1) dnodes [] with
    | none => simp [hso]
    | some newBest =>
      simp only [hso]
      exact ih _ (bn + 1) _ (fun d hd => hlk d (List.mem_of_mem_filter hd)) (by omega)

theorem ghostFindMergePoint_total {g : VoteGraph} (hWF : WF g) {nodeKey : Block}
    {activeNode : Entry} (hlkn : lookupE g.entries nodeKey = some activeNode)
    (forceConstrain : Option (Block × Nat)) (cond : Nat → Bool) :
    g.ghostFindMergePoint nodeKey activeNode forceConstrain cond ≠ none := by
  obtain ⟨D, hDsub, hDlk, hDeq⟩ := ghostFindMergePoint_eq g nodeKey activeNode forceConstrain cond
  rw [hDeq]
  intro hc
  have htot := ghostLoop_total cond g.maxNum D activeNode.number [nodeKey] hDlk (by omega)
  cases hgl : ghostLoop cond (g.maxNum + 1) D activeNode.number [nodeKey] with
  | none => exact htot hgl
  | some p =>
    rw [hgl] at hc
    simp only [Option.map_some'] at hc
    exact Option.noConfusion hc

/-- The starting-node resolution of `find_ghost` succeeds on well-formed
graphs and lands on a vote-node. -/
theorem ghostStart_total {g : VoteGraph} (hWF : WF g) (currentBest : Option (Block × Nat)) :
    ∃ nodeKey fc activeNode, g.ghostStart currentBest = some (nodeKey, fc) ∧
      lookupE g.entries nodeKey = some activeNode := by
  cases currentBest with
  | none =>
    have hb := hWF.base_mem_keys
    rw [keys_eq, ← lookupE_isSome_iff] at hb
    obtain ⟨e, he⟩ := Option.isSome_iff_exists.mp hb
    exact ⟨g.base, false, e, rfl, he⟩
  | some p =>
    obtain ⟨hash, number⟩ := p
    by_cases hk : hash ∈ g.keys
    · have h1 := (findContainingNodes_spec hWF hash number).1 hk
      rw [keys_eq, ← lookupE_isSome_iff] at hk
      obtain ⟨e, he⟩ := Option.isSome_iff_exists.mp hk
      refine ⟨hash, false, e, ?_, he⟩
      unfold VoteGraph.ghostStart
      simp only [h1]
    · obtain ⟨C, hC, hCnd, hCiff⟩ := (findContainingNodes_spec hWF hash number).2 hk
      cases C with
      | nil =>
        have hb := hWF.base_mem_keys
        rw [keys_eq, ← lookupE_isSome_iff] at hb
        obtain ⟨e, he⟩ := Option.isSome_iff_exists.mp hb
        refine ⟨g.base, false, e, ?_, he⟩
        unfold VoteGraph.ghostStart
        simp only [hC]
      | cons x t =>
        have hx : containsBlock g.entries hash number x := (hCiff x).mp (List.mem_cons_self _ _)
        obtain ⟨ex, hex, hxi⟩ := hx
        rw [hWF.inDirectAncestry_eq_some_true hex] at hxi
        obtain ⟨hi1, hi2, -⟩ := hxi
        have hanc : ex.ancestorNode = some (ancKey x ex.ancestors.length) := by
          rw [hWF.ancestorNode_eq hex, if_neg (by omega)]
        obtain ⟨-, -, -, ea, hea, -⟩ := hWF.parent_of hex hanc
        refine ⟨ancKey x ex.ancestors.length, true, ea, ?_, hea⟩
        unfold VoteGraph.ghostStart
        simp only [hC, hex, Option.bind, hanc]

/-- `find_ghost` never fails on a well-formed graph. -/
theorem findGhost_total {g : VoteGraph} (hWF : WF g) (currentBest : Option (Block × Nat))
    (cond : Nat → Bool) : g.findGhost currentBest cond ≠ none := by
  obtain ⟨nodeKey, fc, activeNode, hgs, hlkn⟩ := ghostStart_total hWF currentBest
  unfold VoteGraph.findGhost
  simp only [hgs, hlkn]
  by_cases hcond : cond activeNode.cumulative_vote = true
  · rw [if_pos hcond]
    obtain ⟨p, hbfs⟩ : ∃ p, bfsLoop g.entries cond currentBest (g.maxNum + 1) nodeKey
        activeNode fc = some p := by
      cases hb2 : bfsLoop g.entries cond currentBest (g.maxNum + 1) nodeKey activeNode fc with
      | none =>
        exact absurd hb2 (bfsLoop_total hWF cond currentBest (g.maxNum + 1) nodeKey activeNode
          fc hlkn (by have := mem_maxNum hlkn; omega))
      | some p => exact ⟨p, rfl⟩
    obtain ⟨key, node, f⟩ := p
    simp only [hbfs]
    obtain ⟨hk1, -⟩ := bfsLoop_props (g.maxNum + 1) nodeKey activeNode fc hlkn hcond hbfs
    obtain ⟨sub, hmp⟩ : ∃ sub, g.ghostFindMergePoint key node
        (if f then currentBest else none) cond = some sub := by
      cases hm2 : g.ghostFindMergePoint key node (if f then currentBest else none) cond with
      | none => exact absurd hm2 (ghostFindMergePoint_total hWF hk1 _ cond)
      | some sub => exact ⟨sub, rfl⟩
    simp only [hmp]
    simp
  · rw [if_neg hcond]
    simp

/-- `find_ghost` returns the inner `none` when the starting vote-node's
cumulative vote fails the condition. -/
theorem findGhost_cond_fail {g : VoteGraph} {currentBest : Option (Block × Nat)}
    {cond : Nat → Bool} {nodeKey : Block} {fc : Bool} {activeNode : Entry}
    (hgs : g.ghostStart currentBest = some (nodeKey, fc))
    (hlkn : lookupE g.entries nodeKey = some activeNode)
    (hcond : cond activeNode.cumulative_vote = false) :
    g.findGhost currentBest cond = some none := by
  unfold VoteGraph.findGhost
  simp only [hgs, hlkn]
  rw [if_neg (by simp [hcond])]

/-- Any block returned by `find_ghost` carries chain weight meeting a
monotone condition. -/
theorem findGhost_weight {g : VoteGraph} {l : List (Block × Nat × Nat)} (hWF : WF g)
    (hinv : cumInv g l) {cond : Nat → Bool}
    (hmono : ∀ a b : Nat, a ≤ b → cond a = true → cond b = true)
    {currentBest : Option (Block × Nat)} {bl : Block} {n : Nat}
    (h : g.findGhost currentBest cond = some (some (bl, n))) :
    cond (g.blockWeight bl n) = true := by
  unfold VoteGraph.findGhost at h
  cases hgs : g.ghostStart currentBest with
  | none =>
    simp only [hgs] at h
    exact Option.noConfusion h
  | some q =>
    obtain ⟨nodeKey, fc⟩ := q
    simp only [hgs] at h
    cases hlkn : lookupE g.entries nodeKey with
    | none =>
      simp only [hlkn] at h
      exact Option.noConfusion h
    | some activeNode =>
      simp only [hlkn] at h
      by_cases hcond : cond activeNode.cumulative_vote = true
      · rw [if_pos hcond] at h
        cases hbfs : bfsLoop g.entries cond currentBest (g.maxNum + 1) nodeKey activeNode fc with
        | none =>
          simp only [hbfs] at h
          exact Option.noConfusion h
        | some p =>
          obtain ⟨key, node, f⟩ := p
          simp only [hbfs] at h
          obtain ⟨hk1, hk2⟩ := bfsLoop_props (g.maxNum + 1) nodeKey activeNode fc hlkn hcond hbfs
          cases hmp : g.ghostFindMergePoint key node (if f then currentBest else none) cond with
          | none =>
            simp only [hmp] at h
            exact Option.noConfusion h
          | some sub =>
            simp only [hmp] at h
            have hsb : sub.best = some (bl, n) := Option.some.inj h
            obtain ⟨bl', n', hb1, hb2⟩ :=
              ghostFindMergePoint_weight hWF hinv hmono hk1 hk2 _ hmp
            rw [hb1] at hsb
            have h2 := Option.some.inj hsb
            rw [Prod.mk.injEq] at h2
            obtain ⟨rfl, rfl⟩ := h2
            exact hb2
      · rw [if_neg hcond] at h
        exact Option.noConfusion (Option.some.inj h)

theorem walkBack_succ (m : EMap) (cond : Nat → Bool) (fuel : Nat) (nodeKey : Block)
    (activeNode canonicalNode : Entry) :
    walkBack m cond (fuel + 1) nodeKey activeNode canonicalNode =
      if cond activeNode.cumulative_vote then some (some (nodeKey, activeNode, canonicalNode))
      else
        match activeNode.ancestorNode with
        | none => some none
        | some n =>
          match lookupE m n with
          | none => none
          | some nextActive => walkBack m cond fuel n nextActive activeNode := rfl

/-- The backwards walk of `find_ancestor` terminates on well-formed graphs
(numbers strictly decrease), and any node it stops on is a vote-node. -/
theorem walkBack_spec {g : VoteGraph} (hWF : WF g) (cond : Nat → Bool) :
    ∀ (fuel : Nat) (nodeKey : Block) (activeNode canonicalNode : Entry),
      lookupE g.entries nodeKey = some activeNode →
      activeNode.number < fuel →
      ∃ r, walkBack g.entries cond fuel nodeKey activeNode canonicalNode = some r ∧
        ∀ k a c, r = some (k, a, c) → lookupE g.entries k = some a := by
  intro fuel
  induction fuel with
  | zero =>
    intro nodeKey activeNode canonicalNode hlk hf
    exact absurd hf (Nat.not_lt_zero _)
  | succ fl ih =>
    intro nodeKey activeNode canonicalNode hlk hf
    rw [walkBack_succ]
    by_cases hcond : cond activeNode.cumulative_vote = true
    · rw [if_pos hcond]
      refine ⟨some (nodeKey, activeNode, canonicalNode), rfl, ?_⟩
      intro k a c hr
      have h2 := Option.some.inj hr
      rw [Prod.mk.injEq] at h2
      obtain ⟨rfl, h3⟩ := h2
      rw [Prod.mk.injEq] at h3
      obtain ⟨rfl, rfl⟩ := h3
      exact hlk
    · rw [if_neg hcond]
      cases han : activeNode.ancestorNode with
      | none => exact ⟨none, rfl, fun k a c hr => by cases hr⟩
      | some nk2 =>
        obtain ⟨-, -, -, ea, hea, -⟩ := hWF.parent_of hlk han
        have hnum2 : ea.number < activeNode.number := by
          obtain ⟨hn1, -, -, -⟩ := hWF.entry_facts hlk
          obtain ⟨hn2, -, -, -⟩ := hWF.entry_facts hea
          have h3 := (hWF.parent_of hlk han).2.1
          omega
        obtain ⟨r, hr, hprop⟩ := ih nk2 ea activeNode hea (by omega)
        refine ⟨r, ?_, hprop⟩
        show (match lookupE g.entries nk2 with
          | none => none
          | some nextActive => walkBack g.entries cond fl nk2 nextActive activeNode) = some r
        rw [hea]
        exact hr

/-- The tail of `find_ancestor` never fails when handed a vote-node key. -/
theorem finishAncestor_total {g : VoteGraph} (hWF : WF g) (cond : Nat → Bool)
    {nodeKey : Block} {activeNode : Entry}
    (hlk : lookupE g.entries nodeKey = some activeNode) (canonicalNode : Entry) :
    finishAncestor g cond nodeKey canonicalNode ≠ none := by
  unfold finishAncestor
  simp only [hlk]
  obtain ⟨r, hr, hprop⟩ := walkBack_spec hWF cond (g.maxNum + 1) nodeKey activeNode canonicalNode
    hlk (by have := mem_maxNum hlk; omega)
  cases r with
  | none =>
    simp only [hr]
    simp
  | some p =>
    obtain ⟨key, active, canonical⟩ := p
    obtain ⟨sub, hmp⟩ : ∃ sub, g.ghostFindMergePoint key active none cond = some sub := by
      cases hm2 : g.ghostFindMergePoint key active none cond with
      | none =>
        exact absurd hm2
          (ghostFindMergePoint_total hWF (hprop key active canonical rfl) none cond)
      | some sub => exact ⟨sub, rfl⟩
    simp only [hr, hmp]
    simp

/-- `find_ancestor` never fails on a well-formed graph. -/
theorem findAncestor_total {g : VoteGraph} (hWF : WF g) (hash : Block) (number : Nat)
    (cond : Nat → Bool) : g.findAncestor hash number cond ≠ none := by
  unfold VoteGraph.findAncestor
  by_cases hk : hash ∈ g.keys
  · have h1 := (findContainingNodes_spec hWF hash number).1 hk
    simp only [h1]
    have hk2 := hk
    rw [keys_eq, ← lookupE_isSome_iff] at hk2
    obtain ⟨node, hnode⟩ := Option.isSome_iff_exists.mp hk2
    simp only [hnode]
    by_cases hcond : cond node.cumulative_vote = true
    · rw [if_pos hcond]
      simp
    · rw [if_neg hcond]
      cases han : node.ancestorNode with
      | none => simp
      | some key =>
        obtain ⟨-, -, -, ea, hea, -⟩ := hWF.parent_of hnode han
        exact finishAncestor_total hWF cond hea node
  · obtain ⟨C, hC, hCnd, hCiff⟩ := (findContainingNodes_spec hWF hash number).2 hk
    cases C with
    | nil => simp [hC]
    | cons x t =>
      simp only [hC]
      have hx : containsBlock g.entries hash number x := (hCiff x).mp (List.mem_cons_self _ _)
      obtain ⟨ex, hex, hxi⟩ := hx
      simp only [hex]
      rw [hWF.inDirectAncestry_eq_some_true hex] at hxi
      obtain ⟨hi1, hi2, -⟩ := hxi
      have hanc : ex.ancestorNode = some (ancKey x ex.ancestors.length) := by
        rw [hWF.ancestorNode_eq hex, if_neg (by omega)]
      simp only [hanc]
      obtain ⟨-, -, -, ea, hea, -⟩ := hWF.parent_of hex hanc
      exact finishAncestor_total hWF cond hea ex

/-! ## Chain and height bounds of `find_ghost` (for C2 and C3) -/

theorem stepOffset_some_block {cond : Nat → Bool} {target : Nat} :
    ∀ (ds : List (Block × Entry)) (acc : List (Block × Nat)) (b : Block),
      stepOffset cond target ds acc = some b →
      ∃ d ∈ ds, d.2.ancestorBlock target = some b
  | [], acc, b, h => by simp [stepOffset] at h
  | d :: rest, acc, b, h => by
    rw [stepOffset] at h
    cases hab : d.2.ancestorBlock target with
    | none =>
      simp only [hab] at h
      obtain ⟨d', hd', hx⟩ := stepOffset_some_block rest acc b h
      exact ⟨d', List.mem_cons_of_mem _ hd', hx⟩
    | some b2 =>
      simp only [hab] at h
      cases hlk : lookupW acc b2 with
      | some w =>
        simp only [hlk] at h
        by_cases hcond : cond (w + d.2.cumulative_vote) = true
        · rw [if_pos hcond] at h
          have hb := Option.some.inj h
          refine ⟨d, List.mem_cons_self _ _, ?_⟩
          rw [hab, hb]
        · rw [if_neg hcond] at h
          obtain ⟨d', hd', hx⟩ := stepOffset_some_block rest _ b h
          exact ⟨d', List.mem_cons_of_mem _ hd', hx⟩
      | none =>
        simp only [hlk] at h
        obtain ⟨d', hd', hx⟩ := stepOffset_some_block rest _ b h
        exact ⟨d', List.mem_cons_of_mem _ hd', hx⟩

/-- The merge-point loop only grows the best number, and every best hash it
accumulates descends from the graph base. -/
theorem ghostLoop_chain {g : VoteGraph} (hWF : WF g) (cond : Nat → Bool) :
    ∀ (fuel : Nat) (dnodes : List (Block × Entry)) (bn : Nat) (hashes : List Block),
      (∀ d ∈ dnodes, lookupE g.entries d.1 = some d.2) →
      g.base.length ≤ bn →
      (∃ bl, hashes.getLast? = some bl ∧ g.base <+: bl) →
      ∀ {hs : List Block} {bn' : Nat},
        ghostLoop cond fuel dnodes bn hashes = some (hs, bn') →
        bn ≤ bn' ∧ ∃ bl, hs.getLast? = some bl ∧ g.base <+: bl := by
  intro fuel
  induction fuel with
  | zero =>
    intro dnodes bn hashes _ _ _ hs bn' h
    simp only [ghostLoop] at h
    exact Option.noConfusion h
  | succ f ih =>
    intro dnodes bn hashes hlk hbase hbl hs bn' h
    rw [ghostLoop_succ] at h
    cases hso : stepOffset cond (bn + 1) dnodes [] with
    | none =>
      simp only [hso, Option.some.injEq, Prod.mk.injEq] at h
      obtain ⟨rfl, rfl⟩ := h
      exact ⟨le_refl _, hbl⟩
    | some newBest =>
      simp only [hso] at h
      obtain ⟨d, hd, hab⟩ := stepOffset_some_block dnodes [] newBest hso
      have hed := hlk d hd
      obtain ⟨hn1, hpre1, -, -⟩ := hWF.entry_facts hed
      rw [hWF.ancestorBlock_eq hed] at hab
      by_cases hc : d.1.length - d.2.ancestors.length ≤ bn + 1 ∧ bn + 1 < d.1.length
      · rw [if_pos hc] at hab
        have hnb : newBest = d.1.take (bn + 1) := (Option.some.inj hab).symm
        have hprenb : g.base <+: newBest := by
          have h1 : (d.1.take (bn + 1)).take g.base.length = g.base := by
            rw [ take_take_prefix (show g.base.length ≤ bn + 1 by omega), prefix_take_eq hpre1]
          rw [hnb, ← h1]
          exact List.take_prefix _ _
        obtain ⟨hle, hrest⟩ := ih _ (bn + 1) _
          (fun d2 hd2 => hlk d2 (List.mem_of_mem_filter hd2)) (by omega)
          ⟨newBest, getLast?_snoc _ _, hprenb⟩ h
        exact ⟨by omega, hrest⟩
      · rw [if_neg hc] at hab
        exact Option.noConfusion hab

/-- The breadth-first descent never decreases the entry number. -/
theorem bfsLoop_number {g : VoteGraph} (hWF : WF g) {cond : Nat → Bool}
    {currentBest : Option (Block × Nat)} :
    ∀ (fuel : Nat) (nodeKey : Block) (activeNode : Entry) (fc : Bool),
      lookupE g.entries nodeKey = some activeNode →
      ∀ {k : Block} {n : Entry} {f : Bool},
        bfsLoop g.entries cond currentBest fuel nodeKey activeNode fc = some (k, n, f) →
        activeNode.number ≤ n.number := by
  intro fuel
  induction fuel with
  | zero =>
    intro nodeKey activeNode fc hlkn k n f h
    simp only [bfsLoop] at h
    exact Option.noConfusion h
  | succ fl ih =>
    intro nodeKey activeNode fc hlkn k n f h
    obtain ⟨L, hLmem, hLeq⟩ := bfsLoop_succ g.entries cond currentBest fl nodeKey activeNode fc
    rw [hLeq] at h
    cases L with
    | nil =>
      simp only [List.head?, Option.some.injEq, Prod.mk.injEq] at h
      obtain ⟨rfl, rfl, rfl⟩ := h
      exact le_refl _
    | cons x t =>
      obtain ⟨key, node⟩ := x
      simp only [List.head?] at h
      obtain ⟨hx1, -, hx3⟩ := hLmem (key, node) (List.mem_cons_self _ _)
      have hx1' : lookupE g.entries key = some node := hx1
      have hx3' : key ∈ activeNode.descendents := hx3
      obtain ⟨ed, hed, -, hlen, -⟩ := hWF.child_of hlkn hx3'
      have hednode : ed = node := by
        rw [hed] at hx1'
        exact Option.some.inj hx1'
      subst hednode
      have hnum : activeNode.number ≤ ed.number := by
        obtain ⟨hn1, -, -, -⟩ := hWF.entry_facts hlkn
        obtain ⟨hn2, -, -, -⟩ := hWF.entry_facts hx1'
        omega
      exact le_trans hnum (ih key ed false hx1' h)

/-- The best chain of `ghost_find_merge_point` starts at or above the
active node's height and ends in a descendant of the base. -/
theorem ghostFindMergePoint_chain {g : VoteGraph} (hWF : WF g) {cond : Nat → Bool}
    {nodeKey : Block} {activeNode : Entry}
    (hlkn : lookupE g.entries nodeKey = some activeNode)
    (forceConstrain : Option (Block × Nat)) {sub : Subchain}
    (h : g.ghostFindMergePoint nodeKey activeNode forceConstrain cond = some sub) :
    activeNode.number ≤ sub.best_number ∧
      ∃ bl, sub.hashes.getLast? = some bl ∧ g.base <+: bl := by
  obtain ⟨D, hDsub, hDlk, hDeq⟩ := ghostFindMergePoint_eq g nodeKey activeNode forceConstrain cond
  rw [hDeq] at h
  cases hgl : ghostLoop cond (g.maxNum + 1) D activeNode.number [nodeKey] with
  | none =>
    rw [hgl] at h
    exact Option.noConfusion h
  | some p =>
    obtain ⟨hs, bn'⟩ := p
    rw [hgl] at h
    simp only [Option.map_some'] at h
    have hsub2 : ({ hashes := hs, best_number := bn' } : Subchain) = sub := Option.some.inj h
    obtain ⟨hn1, hpre1, -, -⟩ := hWF.entry_facts hlkn
    obtain ⟨hle, bl, hbl1, hbl2⟩ := ghostLoop_chain hWF cond (g.maxNum + 1) D
      activeNode.number [nodeKey] hDlk (by have := hpre1.length_le; omega)
      ⟨nodeKey, rfl, hpre1⟩ hgl
    rw [← hsub2]
    exact ⟨hle, bl, hbl1, hbl2⟩

/-- Any block returned by `find_ghost` descends from the base and sits at
or above the starting vote-node's height. -/
theorem findGhost_bound {g : VoteGraph} (hWF : WF g) {currentBest : Option (Block × Nat)}
    {cond : Nat → Bool} {nodeKey : Block} {fc : Bool} {activeNode : Entry}
    (hgs : g.ghostStart currentBest = some (nodeKey, fc))
    (hlkn : lookupE g.entries nodeKey = some activeNode)
    {bl : Block} {n : Nat}
    (h : g.findGhost currentBest cond = some (some (bl, n))) :
    g.base <+: bl ∧ activeNode.number ≤ n := by
  unfold VoteGraph.findGhost at h
  simp only [hgs, hlkn] at h
  by_cases hcond : cond activeNode.cumulative_vote = true
  · rw [if_pos hcond] at h
    cases hbfs : bfsLoop g.entries cond currentBest (g.maxNum + 1) nodeKey activeNode fc with
    | none =>
      simp only [hbfs] at h
      exact Option.noConfusion h
    | some p =>
      obtain ⟨key, node, f⟩ := p
      simp only [hbfs] at h
      obtain ⟨hk1, -⟩ := bfsLoop_props (g.maxNum + 1) nodeKey activeNode fc hlkn hcond hbfs
      have hnum1 := bfsLoop_number hWF (g.maxNum + 1) nodeKey activeNode fc hlkn hbfs
      cases hmp : g.ghostFindMergePoint key node (if f then currentBest else none) cond with
      | none =>
        simp only [hmp] at h
        exact Option.noConfusion h
      | some sub =>
        simp only [hmp] at h
        have hsb : sub.best = some (bl, n) := Option.some.inj h
        obtain ⟨hle2, bl2, hbl1, hbl2⟩ := ghostFindMergePoint_chain hWF hk1 _ hmp
        unfold Subchain.best at hsb
        rw [hbl1] at hsb
        simp only [Option.map_some'] at hsb
        have h2 := Option.some.inj hsb
        rw [Prod.mk.injEq] at h2
        obtain ⟨rfl, rfl⟩ := h2
        exact ⟨hbl2, le_trans hnum1 hle2⟩
  · rw [if_neg hcond] at h
    exact Option.noConfusion (Option.some.inj h)

/-! ## The validation fold of `validate_commit` (for C2) -/

/-- The monadic insert fold of `validate_commit` is `insertMany` on the
list of precommit targets weighted by the voter set, whenever every voter
id resolves. -/
theorem foldlM_insertMany (voters : VoterMap) :
    ∀ (pcs : List SignedPrecommit) (g : VoteGraph),
      (∀ sp ∈ pcs, (lookupV voters sp.id).isSome = true) →
      pcs.foldlM
        (fun (g : VoteGraph) signed =>
          match lookupV voters signed.id with
          | none => none
          | some weight =>
            match g.insertT signed.precommit.target_hash signed.precommit.target_number
                weight with
            | .error _ => none
            | .ok g' => some g') g =
      (match g.insertMany (pcs.map fun sp =>
          (sp.precommit.target_hash, sp.precommit.target_number,
           (lookupV voters sp.id).getD 0)) with
       | .error _ => none
       | .ok g' => some g')
  | [], g, _ => by simp [VoteGraph.insertMany]
  | sp :: t, g, hv => by
    obtain ⟨w, hw⟩ : ∃ w, lookupV voters sp.id = some w := by
      rw [← Option.isSome_iff_exists]
      exact hv sp (List.mem_cons_self _ _)
    rw [List.foldlM_cons, List.map_cons]
    simp only [hw, Option.getD_some]
    cases hins : g.insertT sp.precommit.target_hash sp.precommit.target_number w with
    | error e =>
      simp only [hins, VoteGraph.insertMany]
      rfl
    | ok g2 =>
      simp only [hins, VoteGraph.insertMany]
      exact foldlM_insertMany voters t g2 (fun x hx => hv x (List.mem_cons_of_mem _ hx))

/-! ## Characterization of `validate_commit` and `RoundCommitter::commit` -/

theorem bool_not_true {b : Bool} (h : ¬ b = true) : b = false := by
  cases b
  · rfl
  · exact absurd rfl h

/-- When the three scalar checks pass, `validate_commit` builds the graph
by the insert fold and answers with `find_ghost`. -/
theorem validateCommit_eq (commit : Commit) (voters : VoterMap) (thresh : Nat)
    (hc1 : (commit.precommits.all fun signed =>
        decide (commit.target_number ≤ signed.precommit.target_number) &&
        isEqualOrDescendentOf commit.target_hash signed.precommit.target_hash) = true)
    (hc2 : (commit.precommits.map fun s => s.id).Nodup)
    (hc3 : ∀ sp ∈ commit.precommits, (lookupV voters sp.id).isSome = true) :
    validateCommit commit voters thresh =
      (match (VoteGraph.new commit.target_hash commit.target_number).insertMany
          (commit.precommits.map fun sp =>
            (sp.precommit.target_hash, sp.precommit.target_number,
             (lookupV voters sp.id).getD 0)) with
       | .error _ => none
       | .ok g =>
         g.findGhost (some (commit.target_hash, commit.target_number))
           (fun w => decide (thresh ≤ w))) := by
  have hc2b : decide (commit.precommits.map fun s => s.id).Nodup = true := decide_eq_true hc2
  have hc3b : (commit.precommits.all fun signed => (lookupV voters signed.id).isSome) = true :=
    List.all_eq_true.mpr hc3
  unfold validateCommit
  rw [if_neg (by simp [hc1]), if_neg (by simp [hc2b]), if_neg (by simp [hc3b])]
  simp only [foldlM_insertMany voters commit.precommits
    (VoteGraph.new commit.target_hash commit.target_number) hc3]
  cases (VoteGraph.new commit.target_hash commit.target_number).insertMany
      (commit.precommits.map fun sp =>
        (sp.precommit.target_hash, sp.precommit.target_number,
         (lookupV voters sp.id).getD 0)) with
  | error e => rfl
  | ok g => rfl

/-- A successful validation implies all three scalar checks and the
insert-fold plus ghost success. -/
theorem validateCommit_some_inv {commit : Commit} {voters : VoterMap} {thresh : Nat}
    {fb : Block × Nat}
    (h : validateCommit commit voters thresh = some (some fb)) :
    (∀ sp ∈ commit.precommits, commit.target_number ≤ sp.precommit.target_number ∧
        isEqualOrDescendentOf commit.target_hash sp.precommit.target_hash = true) ∧
    (commit.precommits.map fun s => s.id).Nodup ∧
    (∀ sp ∈ commit.precommits, (lookupV voters sp.id).isSome = true) ∧
    ∃ g, (VoteGraph.new commit.target_hash commit.target_number).insertMany
          (commit.precommits.map fun sp =>
            (sp.precommit.target_hash, sp.precommit.target_number,
             (lookupV voters sp.id).getD 0)) = .ok g ∧
      g.findGhost (some (commit.target_hash, commit.target_number))
        (fun w => decide (thresh ≤ w)) = some (some fb) := by
  have hc1 : (commit.precommits.all fun signed =>
      decide (commit.target_number ≤ signed.precommit.target_number) &&
      isEqualOrDescendentOf commit.target_hash signed.precommit.target_hash) = true := by
    by_contra hc
    have hc' := bool_not_true hc
    unfold validateCommit at h
    rw [if_pos (by simp [hc'])] at h
    exact Option.noConfusion (Option.some.inj h)
  have hc2 : (commit.precommits.map fun s => s.id).Nodup := by
    by_contra hc
    unfold validateCommit at h
    rw [if_neg (by simp [hc1]), if_pos (by simp [hc])] at h
    exact Option.noConfusion (Option.some.inj h)
  have hc2b : decide (commit.precommits.map fun s => s.id).Nodup = true := decide_eq_true hc2
  have hc3b : (commit.precommits.all fun signed => (lookupV voters signed.id).isSome) = true := by
    by_contra hc
    have hc' := bool_not_true hc
    unfold validateCommit at h
    rw [if_neg (by simp [hc1]), if_neg (by simp [hc2b]), if_pos (by simp [hc'])] at h
    exact Option.noConfusion (Option.some.inj h)
  have hc3 : ∀ sp ∈ commit.precommits, (lookupV voters sp.id).isSome = true :=
    fun sp hsp => List.all_eq_true.mp hc3b sp hsp
  have ha1 : ∀ sp ∈ commit.precommits, commit.target_number ≤ sp.precommit.target_number ∧
      isEqualOrDescendentOf commit.target_hash sp.precommit.target_hash = true := by
    intro sp hsp
    have hx := List.all_eq_true.mp hc1 sp hsp
    simp only [Bool.and_eq_true_iff, decide_eq_true_eq] at hx
    exact ⟨hx.1, hx.2⟩
  rw [validateCommit_eq commit voters thresh hc1 hc2 hc3] at h
  refine ⟨ha1, hc2, hc3, ?_⟩
  cases hins : (VoteGraph.new commit.target_hash commit.target_number).insertMany
      (commit.precommits.map fun sp =>
        (sp.precommit.target_hash, sp.precommit.target_number,
         (lookupV voters sp.id).getD 0)) with
  | error e =>
    simp only [hins] at h
    exact Option.noConfusion h
  | ok g =>
    simp only [hins] at h
    exact ⟨g, rfl, h⟩

/-- The commit emitted by the timer-fired `RoundCommitter::commit`. -/
theorem commitFire_snd (rc : RoundCommitterSt) :
    (commitFire rc).2 =
      (match rc.votes.finalized with
       | none => none
       | some (fh, fn) =>
         match rc.lastCommit with
         | none => some { target_hash := fh, target_number := fn,
                          precommits := commitPrecommits fh rc.votes.precommitList [] }
         | some c =>
           if c.target_number < fn then
             some { target_hash := fh, target_number := fn,
                    precommits := commitPrecommits fh rc.votes.precommitList [] }
           else none) := by
  unfold commitFire
  cases hfin : rc.votes.finalized with
  | none =>
    cases hlc : rc.lastCommit with
    | none => rfl
    | some c => rfl
  | some p =>
    obtain ⟨fh, fn⟩ := p
    cases hlc : rc.lastCommit with
    | none => rfl
    | some c =>
      by_cases hlt : c.target_number < fn
      · simp [hlt]
      · simp [hlt]

/-!
# Claim theorems
-/

/-- C1 (counterexample): the Voter's finalized heights are not monotone
across the whole process lifetime — a passive commit (a commit of a round
the voter is not running) is finalized without any comparison against
`last_finalized`, so a commit at height 3 processed after a channel
notification at height 5 produces the call sequence [5, 3]. -/
theorem spec_C1_counterexample :
    voterFinalizeCalls ([], 0)
      [.finalizedNote [0,0,0,0,0] 5,
       .passiveCommit [(1, 1)]
         { target_hash := [0,0,0], target_number := 3,
           precommits := [{ precommit := { target_hash := [0,0,0], target_number := 3 },
                            signature := 0, id := 1 }] }] =
      [([0,0,0,0,0], 5), ([0,0,0], 3)] ∧ (3 : Nat) < 5 :=
  ⟨rfl, by decide⟩

/-- C1 (amended): on the main path, draining the finalization channel
calls `finalize_block` only for notifications strictly newer than
`last_finalized`, the emitted heights are strictly increasing, and
`last_finalized` never moves down; the passive-commit path of
`Committer::process_incoming` is exempt from this discipline (see the
counterexample). -/
theorem spec_C1_amended (l : List (Block × Nat)) (lf : Block × Nat) :
    (∀ x ∈ (drainFinalized lf l).2, lf.2 < x.2) ∧
    (drainFinalized lf l).2.Pairwise (fun a b => a.2 < b.2) ∧
    lf.2 ≤ (drainFinalized lf l).1.2 :=
  drainFinalized_mono l lf

theorem spec_C1_amended_witness :
    (∀ x ∈ (drainFinalized ([], 0) [([0], 1)]).2, (0 : Nat) < x.2) ∧
    (drainFinalized ([], 0) [([0], 1)]).2.Pairwise (fun a b => a.2 < b.2) ∧
    (0 : Nat) ≤ (drainFinalized ([], 0) [([0], 1)]).1.2 :=
  spec_C1_amended [([0], 1)] ([], 0)

/-- C2: on chain-consistent data, `validate_commit` returns a finalized
block exactly when every precommit targets a block at or above the commit
target that descends from it, no voter id repeats, every voter id is in
the voter set, and inserting all precommits with their voter weights into
a fresh vote-graph based at the commit target yields a GHOST at the
threshold; any block it returns descends from the commit target and sits
at or above its height. -/
theorem spec_C2 (commit : Commit) (voters : VoterMap) (thresh : Nat)
    (hnum : commit.target_number = bnum commit.target_hash)
    (hpcn : ∀ sp ∈ commit.precommits,
      sp.precommit.target_number = bnum sp.precommit.target_hash) :
    ((∃ fb, validateCommit commit voters thresh = some (some fb)) ↔
      ((∀ sp ∈ commit.precommits, commit.target_number ≤ sp.precommit.target_number ∧
          isEqualOrDescendentOf commit.target_hash sp.precommit.target_hash = true) ∧
       (commit.precommits.map fun s => s.id).Nodup ∧
       (∀ sp ∈ commit.precommits, (lookupV voters sp.id).isSome = true) ∧
       (∃ g fb, (VoteGraph.new commit.target_hash commit.target_number).insertMany
            (commit.precommits.map fun sp =>
              (sp.precommit.target_hash, sp.precommit.target_number,
               (lookupV voters sp.id).getD 0)) = .ok g ∧
          g.findGhost (some (commit.target_hash, commit.target_number))
            (fun w => decide (thresh ≤ w)) = some (some fb)))) ∧
    (∀ fb, validateCommit commit voters thresh = some (some fb) →
      commit.target_hash <+: fb.1 ∧ commit.target_number ≤ fb.2) := by
  constructor
  · constructor
    · rintro ⟨fb, h⟩
      obtain ⟨ha1, ha2, ha3, g, hok, hg⟩ := validateCommit_some_inv h
      exact ⟨ha1, ha2, ha3, g, fb, hok, hg⟩
    · rintro ⟨ha1, ha2, ha3, g, fb, hok, hg⟩
      have hc1 : (commit.precommits.all fun signed =>
          decide (commit.target_number ≤ signed.precommit.target_number) &&
          isEqualOrDescendentOf commit.target_hash signed.precommit.target_hash) = true :=
        List.all_eq_true.mpr (fun sp hsp => by
          simp only [Bool.and_eq_true_iff, decide_eq_true_eq]
          exact ⟨(ha1 sp hsp).1, (ha1 sp hsp).2⟩)
      refine ⟨fb, ?_⟩
      rw [validateCommit_eq commit voters thresh hc1 ha2 ha3]
      simp only [hok]
      exact hg
  · intro fb h
    obtain ⟨-, -, -, g, hok, hg⟩ := validateCommit_some_inv h
    have hnums : ∀ t ∈ (commit.precommits.map fun sp =>
        (sp.precommit.target_hash, sp.precommit.target_number,
         (lookupV voters sp.id).getD 0)), t.2.1 = t.1.length := by
      intro t ht
      obtain ⟨sp, hsp, hteq⟩ := List.mem_map.mp ht
      rw [← hteq]
      exact hpcn sp hsp
    have hWF0 : WF (VoteGraph.new commit.target_hash commit.target_number) := by
      rw [hnum]
      exact new_WF commit.target_hash
    have hkc0 : keysClosed (VoteGraph.new commit.target_hash commit.target_number) [] := by
      rw [hnum]
      exact (new_inv commit.target_hash).1
    have hinv0 : cumInv (VoteGraph.new commit.target_hash commit.target_number) [] := by
      rw [hnum]
      exact (new_inv commit.target_hash).2
    obtain ⟨hWFg, -, -, hbase⟩ :=
      insertMany_inv _ _ [] hWF0 hkc0 hinv0 hnums g hok
    have hbT : g.base = commit.target_hash := hbase
    have hTkey : commit.target_hash ∈ g.keys := hbT ▸ hWFg.base_mem_keys
    obtain ⟨e, he⟩ : ∃ e, lookupE g.entries commit.target_hash = some e := by
      rw [← Option.isSome_iff_exists, lookupE_isSome_iff]
      exact hTkey
    have hfc := (findContainingNodes_spec hWFg commit.target_hash commit.target_number).1 hTkey
    have hgs : g.ghostStart (some (commit.target_hash, commit.target_number)) =
        some (commit.target_hash, false) := by
      unfold VoteGraph.ghostStart
      simp only [hfc]
    obtain ⟨hpre, hnle⟩ := findGhost_bound hWFg hgs he hg
    constructor
    · rw [← hbT]
      exact hpre
    · have hn1 : e.number = commit.target_hash.length := (hWFg.entry_facts he).1
      rw [hnum]
      show commit.target_hash.length ≤ fb.2
      exact hn1 ▸ hnle

theorem spec_C2_witness :
    ((0 : Nat) = bnum ([] : Block)) ∧
    (([] : Block) <+: [0] ∧ (0 : Nat) ≤ 1) :=
  ⟨rfl,
    (spec_C2
      { target_hash := [], target_number := 0,
        precommits := [{ precommit := { target_hash := [0], target_number := 1 },
                         signature := 0, id := 1 }] }
      [(1, 1)] 1 rfl (by decide)).2 ([0], 1) (by decide)⟩

/-- C3 (counterexample): `find_ghost` can return a block strictly below
`current_best`: with 3 weight on a long chain and 2 on a sibling, querying
from `current_best` at height 4 under the threshold 5 falls back to the
base at height 0 (the merge-point loop never tests a block contributed by
a single descendent node). -/
theorem spec_C3_counterexample :
    ((VoteGraph.new [] 0).insertMany
        [([0,0,0,0,0,0,0,0,0,0], 10, 3), ([1], 1, 2)]).map
      (fun g => g.findGhost (some ([0,0,0,0], 4)) (fun w => decide (5 ≤ w))) =
      .ok (some (some ([], 0))) ∧ (0 : Nat) < 4 :=
  ⟨rfl, by decide⟩

/-- C3 (amended): `find_ghost` returns `None` when the starting node's
cumulative vote fails the condition, and under a monotone threshold
condition any block it returns carries chain weight satisfying the
condition; the height claim `result ≥ current_best` does not hold (see
the counterexample). -/
theorem spec_C3_amended {g : VoteGraph} {l : List (Block × Nat × Nat)} (hWF : WF g)
    (hinv : cumInv g l) (cond : Nat → Bool)
    (hmono : ∀ a b : Nat, a ≤ b → cond a = true → cond b = true)
    (currentBest : Option (Block × Nat)) :
    (∀ nodeKey fc activeNode,
       g.ghostStart currentBest = some (nodeKey, fc) →
       lookupE g.entries nodeKey = some activeNode →
       cond activeNode.cumulative_vote = false →
       g.findGhost currentBest cond = some none) ∧
    (∀ bl n, g.findGhost currentBest cond = some (some (bl, n)) →
       cond (g.blockWeight bl n) = true) := by
  constructor
  · intro nodeKey fc activeNode hgs hlkn hcond
    exact findGhost_cond_fail hgs hlkn hcond
  · intro bl n h
    exact findGhost_weight hWF hinv hmono h

theorem spec_C3_amended_witness :
    (VoteGraph.new [] 0).findGhost none (fun w => decide (1 ≤ w)) = some none :=
  (spec_C3_amended (new_WF []) (new_inv []).2 (fun w => decide (1 ≤ w))
    (fun a b hab h1 => by
      simp only [decide_eq_true_eq] at h1 ⊢
      omega) none).1 [] false
    { number := 0, ancestors := [], descendents := [], cumulative_vote := 0 } rfl rfl rfl

/-- C4: after any successful insert history on a fresh graph, every
entry's cumulative vote is the vote inserted directly at its block plus
the cumulative votes of its direct descendent entries. -/
theorem spec_C4 (b : Block) (l : List (Block × Nat × Nat))
    (hnums : ∀ t ∈ l, t.2.1 = t.1.length) (g' : VoteGraph)
    (hok : (VoteGraph.new b (bnum b)).insertMany l = .ok g') :
    ∀ k e, lookupE g'.entries k = some e →
      e.cumulative_vote = insertedAt l k + childCumSum g'.entries e := by
  obtain ⟨-, -, hinv, -⟩ :=
    insertMany_inv l _ [] (new_WF b) (new_inv b).1 (new_inv b).2 hnums g' hok
  intro k e hk
  exact hinv k e hk

theorem spec_C4_witness :
    (2 : Nat) = insertedAt [([0], 1, 2)] [0] +
      childCumSum c4Graph.entries
        { number := 1, ancestors := [[]], descendents := [], cumulative_vote := 2 } :=
  spec_C4 [] [([0], 1, 2)] (by decide) c4Graph rfl [0]
    { number := 1, ancestors := [[]], descendents := [], cumulative_vote := 2 } rfl

/-- C5: inserting a vote at a block twice with values `v1` then `v2`
yields exactly the graph of a single insert with `v1 + v2` on the same
starting state. -/
theorem spec_C5 {g : VoteGraph} (hWF : WF g) {h : Block} (hpre : g.base <+: h)
    (v1 v2 : Nat) {g1 : VoteGraph} (h1 : g.insertT h h.length v1 = .ok g1) :
    g1.insertT h h.length v2 = g.insertT h h.length (v1 + v2) :=
  insertT_twice hWF hpre v1 v2 h1

theorem spec_C5_witness :
    c5Graph.insertT [0] 1 2 = (VoteGraph.new [] 0).insertT [0] 1 3 :=
  spec_C5 (new_WF []) ⟨[0], rfl⟩ 1 2 rfl

/-- C6 (bug evidence): `find_ancestor` is not monotone under vote
insertion: with two branches of weight 6 each, `find_ancestor([0], 1,
w ≥ 10)` answers the merge block at height 2, but after inserting one
more vote at that very block the same query answers the base at height 0
(the merged branches collapse into one descendent node and the merge-point
loop never tests a block contributed by a single node). -/
theorem spec_C6_bug :
    ((VoteGraph.new [] 0).insertMany [([0,0,0], 3, 6), ([0,0,1], 3, 6)]).map
        (fun g => (g.findAncestor [0] 1 (fun w => decide (10 ≤ w)),
          (g.insertT [0,0] 2 1).map
            (fun g' => g'.findAncestor [0] 1 (fun w => decide (10 ≤ w))))) =
      .ok (some (some ([0,0], 2)), .ok (some (some ([], 0)))) ∧ (0 : Nat) < 2 :=
  ⟨rfl, by decide⟩

/-- C7: `insert` fails exactly when the hash does not descend from the
base (the only failing step being the chain ancestry call); when the hash
already has an entry or lies on an existing edge the result does not
depend on the chain at all; and the queries `find_ghost` and
`find_ancestor` are total on well-formed graphs. -/
theorem spec_C7 {g : VoteGraph} {l : List (Block × Nat × Nat)} (hWF : WF g)
    (hkc : keysClosed g l) (hinv : cumInv g l) (h : Block) :
    ((∀ v, ¬ g.base <+: h → g.insertT h (bnum h) v = .error .notDescendent) ∧
     (∀ v, g.base <+: h → ∃ g', g.insertT h (bnum h) v = .ok g') ∧
     (∀ v chain, g.findContainingNodes h (bnum h) ≠ some (some []) →
        g.insert h (bnum h) v chain = g.insertT h (bnum h) v)) ∧
    (∀ currentBest cond, g.findGhost currentBest cond ≠ none) ∧
    (∀ hash number cond, g.findAncestor hash number cond ≠ none) := by
  refine ⟨⟨?_, ?_, ?_⟩, ?_, ?_⟩
  · intro v hpre
    exact insertT_fail hWF hpre v
  · intro v hpre
    obtain ⟨g', heq, -⟩ := insertT_step hWF hkc hinv hpre v
    exact ⟨g', heq⟩
  · intro v chain hne
    unfold VoteGraph.insertT VoteGraph.insert
    cases hfc : g.findContainingNodes h (bnum h) with
    | none => rfl
    | some o =>
      cases o with
      | none => rfl
      | some containing =>
        cases containing with
        | nil => exact absurd hfc hne
        | cons c t => rfl
  · intro currentBest cond
    exact findGhost_total hWF currentBest cond
  · intro hash number cond
    exact findAncestor_total hWF hash number cond

theorem spec_C7_witness :
    (VoteGraph.new [] 0).findAncestor [] 0 (fun w => decide (1 ≤ w)) ≠ none :=
  (spec_C7 (new_WF []) (new_inv []).1 (new_inv []).2 [0]).2.2 [] 0 (fun w => decide (1 ≤ w))

/-- C8: when the commit timer fires, a commit is emitted exactly when the
round has a finalized block and either no `last_commit` is recorded or its
target number is strictly below the finalized height; the emitted commit
targets the finalized block and holds, for each voter, exactly the first
of that voter's precommits targeting a descendant-or-equal of the
finalized block. -/
theorem spec_C8 (rc : RoundCommitterSt) :
    ((commitFire rc).2 ≠ none ↔
      ∃ fh fn, rc.votes.finalized = some (fh, fn) ∧
        (rc.lastCommit = none ∨ ∃ c, rc.lastCommit = some c ∧ c.target_number < fn)) ∧
    (∀ c', (commitFire rc).2 = some c' →
      ∃ fh fn, rc.votes.finalized = some (fh, fn) ∧
        c'.target_hash = fh ∧ c'.target_number = fn ∧
        c'.precommits = commitPrecommits fh rc.votes.precommitList [] ∧
        (∀ sp ∈ c'.precommits, isEqualOrDescendentOf fh sp.precommit.target_hash = true) ∧
        (c'.precommits.map fun sp => sp.id).Nodup ∧
        (∀ i, c'.precommits.filter (fun sp => decide (sp.id = i)) =
          (match specFirstQualifying fh rc.votes.precommitList i with
           | none => []
           | some (pc, sig) => [{ precommit := pc, signature := sig, id := i }]))) := by
  constructor
  · rw [commitFire_snd]
    cases hfin : rc.votes.finalized with
    | none =>
      constructor
      · intro hne
        exact absurd rfl hne
      · rintro ⟨fh, fn, hf, -⟩
        exact Option.noConfusion hf
    | some p =>
      obtain ⟨fh, fn⟩ := p
      cases hlc : rc.lastCommit with
      | none =>
        constructor
        · intro _
          exact ⟨fh, fn, rfl, Or.inl rfl⟩
        · intro _
          simp
      | some c =>
        by_cases hlt : c.target_number < fn
        · simp only [hlt, if_true]
          constructor
          · intro _
            exact ⟨fh, fn, rfl, Or.inr ⟨c, rfl, hlt⟩⟩
          · intro _
            simp
        · simp only [hlt, if_false]
          constructor
          · intro hne
            exact absurd rfl hne
          · rintro ⟨fh2, fn2, hf2, hor⟩
            have h2 := Option.some.inj hf2
            rw [Prod.mk.injEq] at h2
            obtain ⟨rfl, rfl⟩ := h2
            rcases hor with h3 | ⟨c2, hc2, hlt2⟩
            · exact Option.noConfusion h3
            · have hcc := Option.some.inj hc2
              rw [← hcc] at hlt2
              exact absurd hlt2 hlt
  · intro c' hc'
    rw [commitFire_snd] at hc'
    cases hfin : rc.votes.finalized with
    | none =>
      simp only [hfin] at hc'
      exact Option.noConfusion hc'
    | some p =>
      obtain ⟨fh, fn⟩ := p
      simp only [hfin] at hc'
      have hcm : c' = { target_hash := fh, target_number := fn,
                        precommits := commitPrecommits fh rc.votes.precommitList [] } := by
        cases hlc : rc.lastCommit with
        | none =>
          simp only [hlc] at hc'
          exact (Option.some.inj hc').symm
        | some c =>
          simp only [hlc] at hc'
          by_cases hlt : c.target_number < fn
          · rw [if_pos hlt] at hc'
            exact (Option.some.inj hc').symm
          · rw [if_neg hlt] at hc'
            exact Option.noConfusion hc'
      subst hcm
      refine ⟨fh, fn, rfl, rfl, rfl, rfl, ?_, ?_, ?_⟩
      · intro sp hsp
        exact commitPrecommits_desc fh rc.votes.precommitList [] sp hsp
      · exact (commitPrecommits_nodup fh rc.votes.precommitList []).1
      · intro i
        rw [commitPrecommits_filter fh i rc.votes.precommitList []]
        rw [if_neg (by simp)]

theorem spec_C8_witness :
    (commitFire
      { votes := { voters := [(1, 1)], threshold := 1,
                   precommitList := [(1, { target_hash := [0], target_number := 1 }, 0)],
                   finalized := some ([0], 1) }
        lastCommit := none }).2 ≠ none :=
  (spec_C8 _).1.mpr ⟨[0], 1, rfl, Or.inl rfl⟩

/-- C9: a commit strictly below the local finalized height is rejected
atomically by `import_commit` — no validation, no precommit import, the
state returned unchanged, without error; at or above that height it is
validated, and a valid commit has every precommit imported and is
recorded as `last_commit`. -/
theorem spec_C9 (importPc : RoundVotes → VoterId → Precommit → Sig → Option RoundVotes)
    (rc : RoundCommitterSt) (commit : Commit) :
    (commit.target_number < ((rc.votes.finalized.map fun p => p.2).getD 0) →
      importCommit importPc rc commit = some (rc, true)) ∧
    (¬ commit.target_number < ((rc.votes.finalized.map fun p => p.2).getD 0) →
      (validateCommit commit rc.votes.voters rc.votes.threshold = some none →
        importCommit importPc rc commit = some (rc, false)) ∧
      (∀ fb votes',
        validateCommit commit rc.votes.voters rc.votes.threshold = some (some fb) →
        commit.precommits.foldlM
          (fun rv sp => importPc rv sp.id sp.precommit sp.signature) rc.votes =
          some votes' →
        importCommit importPc rc commit =
          some ({ votes := votes', lastCommit := some commit }, true))) := by
  constructor
  · intro hlt
    unfold importCommit
    rw [if_pos hlt]
  · intro hge
    constructor
    · intro hval
      unfold importCommit
      rw [if_neg hge]
      simp only [hval]
    · intro fb votes' hval hfold
      unfold importCommit
      rw [if_neg hge]
      simp only [hval, hfold]

theorem spec_C9_witness :
    importCommit (fun rv _ _ _ => some rv)
      { votes := { voters := [(1, 1)], threshold := 1, precommitList := [],
                   finalized := some ([0], 1) }
        lastCommit := none }
      { target_hash := [], target_number := 0, precommits := [] } =
      some ({ votes := { voters := [(1, 1)], threshold := 1, precommitList := [],
                         finalized := some ([0], 1) }
              lastCommit := none }, true) :=
  (spec_C9 (fun rv _ _ _ => some rv)
    { votes := { voters := [(1, 1)], threshold := 1, precommitList := [],
                 finalized := some ([0], 1) }
      lastCommit := none }
    { target_hash := [], target_number := 0, precommits := [] }).1 (by decide)

/-- C10: when `best_chain_containing` knows nothing of the computed
prevote target, the round casts no prevote — `construct_prevote` returns
no message and nothing is pushed to the outgoing sink — yet the state
machine still moves from Start to Prevoted and the poll returns without
error. -/
theorem spec_C10 (env : PrevoteEnv) (primaryBlock : Option (Block × Nat))
    (lastRoundState : RoundState) (timerFired completable : Bool)
    (outgoing : List Prevote) {lre : Block × Nat} {fd : Block}
    (hest : lastRoundState.estimate = some lre)
    (hfd : findDescendentOf env primaryBlock lre lastRoundState.prevote_ghost = some fd)
    (hbcc : env.bestChainContaining fd = none)
    (hfire : (timerFired || completable) = true) :
    constructPrevote env primaryBlock lastRoundState = some none ∧
    prevoteStep env primaryBlock lastRoundState timerFired completable .start outgoing =
      some (.prevoted, outgoing) := by
  have hcp : constructPrevote env primaryBlock lastRoundState = some none := by
    unfold constructPrevote
    simp only [hest, hfd, hbcc]
  refine ⟨hcp, ?_⟩
  unfold prevoteStep
  rw [if_pos hfire]
  simp only [hcp]

theorem spec_C10_witness :
    constructPrevote { ancestry := fun _ _ => none, bestChainContaining := fun _ => none }
        none { prevote_ghost := none, finalized := none, estimate := some ([], 0),
               completable := false } = some none ∧
    prevoteStep { ancestry := fun _ _ => none, bestChainContaining := fun _ => none }
        none { prevote_ghost := none, finalized := none, estimate := some ([], 0),
               completable := false } true false .start [] = some (.prevoted, []) :=
  spec_C10 { ancestry := fun _ _ => none, bestChainContaining := fun _ => none }
    none { prevote_ghost := none, finalized := none, estimate := some ([], 0),
           completable := false } true false [] rfl rfl rfl rfl
